import Mathlib

/-!
# ADS_set: a B+ tree ordered set (src/ADS_set.h)

Shallow embedding of the node protocol (`Node`, `InternalNode`, `ExternalNode`),
the forward iterator and the tree facade `ADS_set<Key, N>`.

Modelling conventions.
* `Key` is any type with a decidable linear order; `cmp` is `<`.
* A node's `values` list is the live part `values[0..size)` of its key buffer, so
  `size` is the length of the list.  An internal node's `children` list is the
  initialised part of its link buffer.  Writes past the capacity of a buffer
  (`M + 1` keys, `M + 2` links) and reads of slots that were never written make
  the operation return `none`.
* Leaves live at an address (`addr`); `next` and `Iterator.current` hold such
  addresses, `none` being the null pointer.  `new ExternalNode` takes the address
  from an allocator counter (`fresh`) that is threaded through the operations.
  Internal nodes are only ever referenced by their parent and carry no address.
* Recursion over the tree is by structural recursion on a fuel argument; the
  facade runs the node operations with fuel `root.height`.
* `size_t` and `int` are unbounded (`Nat`, `Int`): node lengths are at most
  `M + 1` and `sz` counts stored keys.
-/

namespace ADS

/-- Source `invert(int n)`: the encoding `-(n + 1)` of an insertion index. -/
def invert (n : Int) : Int := -(n + 1)

/-- Source enum `NodeType`. -/
inductive NodeType where
  | INTERNAL
  | EXTERNAL
  deriving DecidableEq, Repr

/-- Source enum `InsertState`. -/
inductive InsertState where
  | SUCCESS
  | EXISTS
  | TRIGGER_SPLIT
  deriving DecidableEq, Repr

/-- Source enum `EraseState`. -/
inductive EraseState where
  | SUCCESS
  | NOT_FOUND
  | TRIGGER_MERGE
  deriving DecidableEq, Repr

/-- Source class `Iterator`: a leaf address (or null) and a position in that leaf. -/
structure Iterator where
  current : Option Nat
  pos : Nat
  deriving DecidableEq, Repr

/-- Source `Iterator()`: the end iterator `(nullptr, 0)`. -/
def Iterator.endIt : Iterator := ⟨none, 0⟩

/-- Source structs `ExternalNode` (address, keys, next link) and `InternalNode`
(separator keys, child links). -/
inductive Node (α : Type) where
  | ext (addr : Nat) (values : List α) (next : Option Nat)
  | int (values : List α) (children : List (Node α))
  deriving Repr

/-- A leaf as seen through the leaf chain: its address, keys and next link. -/
structure Leaf (α : Type) where
  addr : Nat
  values : List α
  next : Option Nat
  deriving Repr

section Defs

variable {α : Type}

/-- The key buffer `values[0..size)` of a node. -/
def Node.values : Node α → List α
  | .ext _ vs _ => vs
  | .int vs _ => vs

/-- The field `size` of a node. -/
def Node.size (n : Node α) : Nat := n.values.length

/-- Source `type()`. -/
def Node.type : Node α → NodeType
  | .ext _ _ _ => NodeType.EXTERNAL
  | .int _ _ => NodeType.INTERNAL

mutual
/-- Number of levels of a node: the fuel that every recursive descent needs. -/
def Node.height : Node α → Nat
  | .ext _ _ _ => 1
  | .int _ cs => heightList cs + 1
/-- Maximal height among a list of children. -/
def heightList : List (Node α) → Nat
  | [] => 0
  | c :: cs => max c.height (heightList cs)
end

mutual
/-- The leaves below a node, left to right (the memory cells that `next` links and
iterators point into). -/
def Node.leaves : Node α → List (Leaf α)
  | .ext a vs nx => [⟨a, vs, nx⟩]
  | .int _ cs => leavesList cs
/-- The leaves below a list of children, left to right. -/
def leavesList : List (Node α) → List (Leaf α)
  | [] => []
  | c :: cs => c.leaves ++ leavesList cs
end

mutual
/-- Every node of the subtree, its top node included, holds between `N` and `2 * N`
keys. -/
def Node.filled (N : Nat) : Node α → Bool
  | .ext _ vs _ => decide (N ≤ vs.length) && decide (vs.length ≤ 2 * N)
  | .int vs cs => decide (N ≤ vs.length) && decide (vs.length ≤ 2 * N) && filledList N cs
/-- Every node below a list of children holds between `N` and `2 * N` keys. -/
def filledList (N : Nat) : List (Node α) → Bool
  | [] => true
  | c :: cs => c.filled N && filledList N cs
end

/-- The fill invariant of the specification for a tree with this root: the root holds
at most `2 * N` keys and every other node between `N` and `2 * N` keys. -/
def Node.balanced (N : Nat) : Node α → Bool
  | .ext _ vs _ => decide (vs.length ≤ 2 * N)
  | .int vs cs => decide (vs.length ≤ 2 * N) && filledList N cs

/-- Dereference of a leaf pointer: the leaf stored at address `a` in the tree. -/
def Node.leafAt (t : Node α) (a : Nat) : Option (Leaf α) :=
  t.leaves.find? (fun l => l.addr == a)

/-- A write `buf[i] = x` into a link buffer whose initialised part is `l`. -/
def writeAt {β : Type} (l : List β) (i : Nat) (x : β) : Option (List β) :=
  if i < l.length then some (l.set i x)
  else if i = l.length then some (l ++ [x])
  else none

variable [LinearOrder α]

/-- The `for` loop of `findpos`, entered at index `i` with `prev = values[i - 1]`
and `rest = values[i..size)`; the last line of `findpos` is the `[]` case. -/
def findposLoop (elem : α) : α → List α → Nat → Int
  | prev, [], i => if ¬ (prev < elem) then (i : Int) - 1 else invert i
  | prev, v :: rest, i =>
    if elem < v then (if prev < elem then invert i else (i : Int) - 1)
    else findposLoop elem v rest (i + 1)

/-- Source `Node::findpos`: `i` if found at position `i`, or `-(i + 1)` if insertion
should happen at `i`. -/
def findpos (values : List α) (elem : α) : Int :=
  match values with
  | [] => -1
  | v0 :: rest => if elem < v0 then -1 else findposLoop elem v0 rest 1

/-- Source `Node::findpos_autoinvert`. -/
def findpos_autoinvert (values : List α) (elem : α) : Nat :=
  let pos := findpos values elem
  (if pos < 0 then invert pos else pos).toNat

/-- Source `InternalNode::find_child_pos`. -/
def find_child_pos (values : List α) (elem : α) : Nat :=
  let pos := findpos values elem
  (if pos < -1 then invert pos else pos + 1).toNat

/-- Source `Node::insert_at` on the key buffer (capacity `M + 1`): shift
`values[ins..size)` one slot right and store `elem` at `ins`. -/
def insert_at (N : Nat) (values : List α) (elem : α) (ins : Nat) : Option (List α) :=
  if ins ≤ values.length ∧ values.length ≤ 2 * N then
    some (values.take ins ++ elem :: values.drop ins)
  else none

/-- Source `InternalNode::insert_at`: as `insert_at` on the keys, and the links
`children[ins + 1..size]` move one slot right (slot `ins + 1` keeps its old
link until the caller overwrites it). -/
def insert_at_int (N : Nat) (values : List α) (children : List (Node α)) (elem : α)
    (ins : Nat) : Option (List α × List (Node α)) :=
  match insert_at N values elem ins with
  | none => none
  | some vs => some (vs, children.take (ins + 2) ++ children.drop (ins + 1))

/-- Source `Node::erase_at` on the key buffer: shift `values[at + 1..size)` one slot
left and decrement `size`. -/
def erase_at (values : List α) (pos : Nat) : List α :=
  (values.eraseIdx pos).take (values.length - 1)

/-- Source `InternalNode::erase_at`: deletes `children[at + 1]` and shifts keys and
links left. -/
def erase_at_int (values : List α) (children : List (Node α)) (pos : Nat) :
    List α × List (Node α) :=
  (erase_at values pos, (children.eraseIdx (pos + 1)).take values.length)

/-- Result of `split`: the trimmed node itself, the new right node, the separator
returned by reference (`none` for a leaf) and the allocator counter. -/
structure SplitRes (α : Type) where
  left : Node α
  right : Node α
  sep : Option α
  fresh : Nat

/-- Source `ExternalNode::split(split_at)` and `InternalNode::split(split_at)`. -/
def split (fresh : Nat) (n : Node α) (split_at : Nat) : Option (SplitRes α) :=
  if split_at < n.size then
    match n with
    | .ext a vs nx =>
      some ⟨.ext a (vs.take (split_at + 1)) (some fresh),
            .ext fresh (vs.drop (split_at + 1)) nx, none, fresh + 1⟩
    | .int vs cs =>
      some ⟨.int (vs.take split_at) (cs.take (split_at + 1)),
            .int (vs.drop (split_at + 1)) (cs.drop (split_at + 1)), vs.get? split_at, fresh⟩
  else none

/-- Source `Node::split()`: split at the default index `(size - 1) / 2`. -/
def splitDefault (fresh : Nat) (n : Node α) : Option (SplitRes α) :=
  split fresh n ((n.size - 1) / 2)

/-- The separator the callers of `split` install:
`splitres.second ? *splitres.second : splitres.first->values[0]`. -/
def new_index (sep : Option α) (right : Node α) : Option α :=
  match sep with
  | some s => some s
  | none => right.values.head?

/-- Source `prepare_merge`: a no-op on a leaf, appends the pulled-down separator on
an internal node. -/
def prepare_merge (N : Nat) (n : Node α) (pulled_down : α) : Option (Node α) :=
  match n with
  | .ext a vs nx => some (.ext a vs nx)
  | .int vs cs => if vs.length ≤ 2 * N then some (.int (vs ++ [pulled_down]) cs) else none

/-- Source `merge(neighbour)`: append the neighbour's keys (and links); a leaf
advances its `next` when it pointed at the neighbour. -/
def merge (N : Nat) (n neighbour : Node α) : Option (Node α) :=
  if n.size + neighbour.size ≤ 2 * N + 1 then
    match n, neighbour with
    | .ext a vs nx, .ext b nvs nnx =>
      some (.ext a (vs ++ nvs) (if nx = some b then nnx else nx))
    | .ext a vs nx, .int nvs _ => some (.ext a (vs ++ nvs) nx)
    | .int vs cs, .int nvs ncs =>
      if vs.length ≤ cs.length then
        some (.int (vs ++ nvs) (cs.take vs.length ++ ncs.take (nvs.length + 1)))
      else none
    | .int _ _, .ext _ _ _ => none
  else none

/-- Source `begin_it`. -/
def begin_it : Nat → Node α → Option Iterator
  | 0, _ => none
  | _ + 1, .ext a vs _ => if vs.length = 0 then some Iterator.endIt else some ⟨some a, 0⟩
  | f + 1, .int _ cs =>
    match cs.get? 0 with
    | none => none
    | some c => begin_it f c

/-- Source `find` on a node. -/
def find : Nat → Node α → α → Option Iterator
  | 0, _, _ => none
  | _ + 1, .ext a vs _, elem =>
    let pos := findpos vs elem
    if pos < 0 then some Iterator.endIt else some ⟨some a, pos.toNat⟩
  | f + 1, .int vs cs, elem =>
    match cs.get? (find_child_pos vs elem) with
    | none => none
    | some c => find f c elem

/-- Result of `add_elem`: the node after the call, the allocator counter, and the
returned pair. -/
structure InsRes (α : Type) where
  node : Node α
  fresh : Nat
  it : Iterator
  state : InsertState

/-- Source `ExternalNode::add_elem` and `InternalNode::add_elem`. -/
def add_elem (N : Nat) : Nat → Node α → Nat → α → Option (InsRes α)
  | 0, _, _, _ => none
  | _ + 1, .ext a vs nx, fresh, elem =>
    let pos := findpos vs elem
    if 0 ≤ pos then some ⟨.ext a vs nx, fresh, ⟨some a, pos.toNat⟩, InsertState.EXISTS⟩
    else
      let inv_pos := (invert pos).toNat
      match insert_at N vs elem inv_pos with
      | none => none
      | some vs1 =>
        some ⟨.ext a vs1 nx, fresh, ⟨some a, inv_pos⟩,
          if vs1.length ≤ 2 * N then InsertState.SUCCESS else InsertState.TRIGGER_SPLIT⟩
  | f + 1, .int vs cs, fresh, elem =>
    let childpos := find_child_pos vs elem
    match cs.get? childpos with
    | none => none
    | some child =>
      match add_elem N f child fresh elem with
      | none => none
      | some r =>
        if r.state = InsertState.TRIGGER_SPLIT then
          match splitDefault r.fresh r.node with
          | none => none
          | some sp =>
            match new_index sp.sep sp.right with
            | none => none
            | some idx =>
              let new_pos := findpos_autoinvert vs idx
              match insert_at_int N vs (cs.set childpos sp.left) idx new_pos with
              | none => none
              | some (vs1, cs1) =>
                match writeAt cs1 (new_pos + 1) sp.right with
                | none => none
                | some cs2 =>
                  match find (f + 1) (.int vs1 cs2) elem with
                  | none => none
                  | some it =>
                    some ⟨.int vs1 cs2, sp.fresh, it,
                      if vs1.length ≤ 2 * N then InsertState.SUCCESS
                      else InsertState.TRIGGER_SPLIT⟩
        else some ⟨.int vs (cs.set childpos r.node), r.fresh, r.it, r.state⟩

/-- Result of `remove_elem`: the node after the call, the allocator counter and the
returned state. -/
structure EraRes (α : Type) where
  node : Node α
  fresh : Nat
  state : EraseState

/-- The statement pair `left->prepare_merge(id); left->merge(right);` of
`InternalNode::remove_elem`. -/
def pull_merge (N : Nat) (left right : Node α) (id : α) : Option (Node α) :=
  match prepare_merge N left id with
  | none => none
  | some l1 => merge N l1 right

/-- The redistribution block (`totalsize > M`) of the `N > 1` branch of
`InternalNode::remove_elem`: either split `left` and merge `right` into the split
result, or split `right` and merge its trimmed part into `left`.  Returns the node
left in `children[childpos - 1]`, the node installed in `children[childpos]`, the new
separator and the allocator counter. -/
def redistribute (N : Nat) (fresh : Nat) (left right : Node α) (id : α) (split_at : Nat) :
    Option (Node α × Node α × α × Nat) :=
  if split_at < left.size then
    match split fresh left split_at with
    | none => none
    | some sp =>
      match pull_merge N sp.right right id with
      | none => none
      | some r2 =>
        match new_index sp.sep r2 with
        | none => none
        | some idx => some (sp.left, r2, idx, sp.fresh)
  else
    match split fresh right (split_at - left.size) with
    | none => none
    | some sp =>
      match pull_merge N left sp.left id with
      | none => none
      | some l2 =>
        match new_index sp.sep sp.right with
        | none => none
        | some idx => some (l2, sp.right, idx, sp.fresh)

/-- The `N > 1` branch of `InternalNode::remove_elem` after a child signalled
`TRIGGER_MERGE`: redistribute or merge the pair `children[childpos - 1]`,
`children[childpos]`.  Returns the keys and links of the node afterwards. -/
def rebalance (N : Nat) (fresh : Nat) (vs : List α) (cs : List (Node α)) (childpos0 : Nat) :
    Option (List α × List (Node α) × Nat) :=
  let childpos := if childpos0 < 1 then 1 else childpos0
  match vs.get? (childpos - 1), cs.get? (childpos - 1), cs.get? childpos with
  | some id, some left, some right =>
    let totalsize := left.size + right.size + (if right.type = NodeType.INTERNAL then 1 else 0)
    if totalsize > 2 * N then
      match redistribute N fresh left right id ((totalsize - 1) / 2) with
      | none => none
      | some (l1, r1, idx, fresh1) =>
        some (vs.set (childpos - 1) idx, (cs.set (childpos - 1) l1).set childpos r1, fresh1)
    else
      match pull_merge N left right id with
      | none => none
      | some l2 =>
        some ((erase_at_int vs (cs.set (childpos - 1) l2) (childpos - 1)).1,
          (erase_at_int vs (cs.set (childpos - 1) l2) (childpos - 1)).2, fresh)
  | _, _, _ => none

/-- The `N = 1` branch (the `else` of `if constexpr (N > 1)`) of
`InternalNode::remove_elem` after a child signalled `TRIGGER_MERGE`. -/
def rebalance1 (N : Nat) (fresh : Nat) (vs : List α) (cs : List (Node α)) (childpos0 : Nat) :
    Option (List α × List (Node α) × Nat) :=
  let childpos := if childpos0 = 0 then childpos0 + 1 else childpos0
  match vs.get? (childpos - 1), cs.get? (childpos - 1), cs.get? childpos with
  | some id, some left, some right =>
    match pull_merge N left right id with
    | none => none
    | some l2 =>
      if l2.size > 2 * N then
        match split fresh l2 1 with
        | none => none
        | some sp =>
          match new_index sp.sep sp.right with
          | none => none
          | some idx =>
            some (vs.set (childpos - 1) idx,
              (cs.set (childpos - 1) sp.left).set childpos sp.right, sp.fresh)
      else
        some ((erase_at_int vs (cs.set (childpos - 1) l2) (childpos - 1)).1,
          (erase_at_int vs (cs.set (childpos - 1) l2) (childpos - 1)).2, fresh)
  | _, _, _ => none

/-- Source `ExternalNode::remove_elem` and `InternalNode::remove_elem`. -/
def remove_elem (N : Nat) : Nat → Node α → Nat → α → Option (EraRes α)
  | 0, _, _, _ => none
  | _ + 1, .ext a vs nx, fresh, elem =>
    let pos := findpos vs elem
    if pos < 0 then some ⟨.ext a vs nx, fresh, EraseState.NOT_FOUND⟩
    else
      let vs1 := erase_at vs pos.toNat
      some ⟨.ext a vs1 nx, fresh,
        if vs1.length ≥ N then EraseState.SUCCESS else EraseState.TRIGGER_MERGE⟩
  | f + 1, .int vs cs, fresh, elem =>
    let childpos := find_child_pos vs elem
    match cs.get? childpos with
    | none => none
    | some child =>
      match remove_elem N f child fresh elem with
      | none => none
      | some r =>
        if r.state = EraseState.TRIGGER_MERGE then
          match (if N > 1 then rebalance N r.fresh vs (cs.set childpos r.node) childpos
                 else rebalance1 N r.fresh vs (cs.set childpos r.node) childpos) with
          | none => none
          | some (vs1, cs1, fresh1) =>
            some ⟨.int vs1 cs1, fresh1,
              if vs1.length ≥ N then EraseState.SUCCESS else EraseState.TRIGGER_MERGE⟩
        else some ⟨.int vs (cs.set childpos r.node), r.fresh, r.state⟩

end Defs

/-! ## Specification vocabulary -/

section Spec

variable {α : Type}

/-- The keys held by a list of leaves, in leaf order. -/
def leafKeys (ls : List (Leaf α)) : List α := (ls.map Leaf.values).flatten

/-- The keys stored below a node: a depth-first left-to-right traversal of its leaves. -/
def Node.keys (t : Node α) : List α := leafKeys t.leaves

/-- The leaves `ls` are linked from pointer `e` to pointer `x`: `e` points at the first
leaf, every `next` points at the following leaf, and the last `next` is `x`. -/
def Chain : Option Nat → List (Leaf α) → Option Nat → Prop
  | e, [], x => e = x
  | e, l :: ls, x => e = some l.addr ∧ Chain l.next ls x

/-- Leaf addresses are pairwise distinct and were all handed out by the allocator. -/
def AddrOK (fresh : Nat) (ls : List (Leaf α)) : Prop :=
  (ls.map Leaf.addr).Nodup ∧ ∀ l ∈ ls, l.addr < fresh

/-- Effect of an operation on the leaf list `ls` (result `ls1`, allocator counter from
`f` to `f1`): the chain is kept between the same entry and exit pointers, every
address is an old one or freshly allocated, and addresses stay pairwise distinct. -/
structure LPres {α : Type} (f f1 : Nat) (ls ls1 : List (Leaf α)) : Prop where
  mono : f ≤ f1
  chain : ∀ e x, Chain e ls x → Chain e ls1 x
  addr : ∀ l1 ∈ ls1, (∃ l ∈ ls, l.addr = l1.addr) ∨ (f ≤ l1.addr ∧ l1.addr < f1)
  nodup : (ls.map Leaf.addr).Nodup → (∀ l ∈ ls, l.addr < f) → (ls1.map Leaf.addr).Nodup

variable [LinearOrder α]

/-- The optional lower bound `lo` is at most `x`. -/
def below (lo : Option α) (x : α) : Prop := ∀ l ∈ lo, l ≤ x

/-- The key `x` is strictly below the optional upper bound `hi`. -/
def above (x : α) (hi : Option α) : Prop := ∀ u ∈ hi, x < u

/-- Strict order between two optional bounds. -/
def oLt (lo hi : Option α) : Prop := ∀ l ∈ lo, ∀ u ∈ hi, l < u

/-- Minimal fill of a non-root node as the code maintains it: `N` keys in a leaf,
`N - 1` keys (and at least one) in an internal node. -/
def lowOK (N : Nat) : Node α → Prop
  | .ext _ vs _ => N ≤ vs.length
  | .int vs _ => N - 1 ≤ vs.length ∧ 1 ≤ vs.length

/-- Minimal fill of a non-root node as the specification states it: `N` keys. -/
def fillOK (N : Nat) (c : Node α) : Prop := N ≤ c.size

/-- Children `cs` with the separators `vs` that follow them, read from the lower bound
`lo`; `m` is the last separator (or `lo`). -/
def PreS (P : Option α → Node α → Option α → Prop) :
    Option α → List α → List (Node α) → Option α → Prop
  | lo, [], [], m => lo = m
  | lo, v :: vs, c :: cs, m => P lo c (some v) ∧ oLt lo (some v) ∧ PreS P (some v) vs cs m
  | _, _, _, _ => False

/-- Separators `vs` and children `cs` of an internal node inside the bounds `lo`, `hi`:
one more child than separators, child `i` satisfies `P` between the separators around
it, and the bounds and separators are strictly increasing. -/
def Seps (P : Option α → Node α → Option α → Prop) :
    Option α → List α → List (Node α) → Option α → Prop
  | lo, [], [c], hi => P lo c hi ∧ oLt lo hi
  | lo, v :: vs, c :: cs, hi => P lo c (some v) ∧ oLt lo (some v) ∧ Seps P (some v) vs cs hi
  | _, _, _, _ => False

/-- The upper bound of the child that precedes the separators `vs`. -/
def ubOf (vs : List α) (hi : Option α) : Option α :=
  match vs with
  | [] => hi
  | v :: _ => some v

/-- The separators `vs` with the children `cs` that follow them, up to `hi`. -/
def SufS (P : Option α → Node α → Option α → Prop) :
    List α → List (Node α) → Option α → Prop
  | [], [], _ => True
  | v :: vs, cs, hi => Seps P (some v) vs cs hi
  | _, _, _ => False

/-- Search-tree shape of a subtree of height `h` whose keys lie in `[lo, hi)`: leaves
are strictly ascending, all leaves are `h` levels down, separators bound the subtrees
(left strictly below, right at or above), and every node below the top one holds
between `lowOK` and `M` keys. The fill of the top node is stated separately. -/
def WF (N : Nat) : Nat → Option α → Node α → Option α → Prop
  | 0, lo, .ext _ vs _, hi => vs.Pairwise (· < ·) ∧ ∀ x ∈ vs, below lo x ∧ above x hi
  | 0, _, .int _ _, _ => False
  | _ + 1, _, .ext _ _ _, _ => False
  | h + 1, lo, .int vs cs, hi =>
    Seps (fun l c u => WF N h l c u ∧ lowOK N c ∧ c.size ≤ 2 * N) lo vs cs hi

/-- Postcondition of `add_elem` on a well-formed subtree `t` of height `h` with bounds
`lo`, `hi`: the node stays well formed (possibly one key over `M` when a split is
signalled), the returned iterator points at the key, an existing key changes nothing
and a new key is added to the stored keys. -/
def InsPost (N h : Nat) (lo hi : Option α) (t : Node α) (fresh : Nat) (k : α)
    (r : InsRes α) : Prop :=
  LPres fresh r.fresh t.leaves r.node.leaves ∧
  WF N h lo r.node hi ∧
  (∃ l ∈ r.node.leaves, r.it.current = some l.addr ∧ l.values[r.it.pos]? = some k) ∧
  (r.state = InsertState.EXISTS → r.node = t ∧ r.fresh = fresh ∧ k ∈ t.keys) ∧
  (r.state ≠ InsertState.EXISTS →
    k ∉ t.keys ∧ r.node.keys.Perm (k :: t.keys) ∧ t.size ≤ r.node.size) ∧
  (r.state ≠ InsertState.TRIGGER_SPLIT → r.node.size ≤ 2 * N) ∧
  (r.state = InsertState.TRIGGER_SPLIT → r.node.size = 2 * N + 1)

/-- Postcondition of `remove_elem` on a well-formed subtree `t` of height `h` with
bounds `lo`, `hi`: the node stays well formed, an absent key changes nothing, a present
key is removed from the stored keys, and `TRIGGER_MERGE` is signalled exactly for a
node left with fewer than `N` keys. -/
def EraPost (N h : Nat) (lo hi : Option α) (t : Node α) (fresh : Nat) (k : α)
    (r : EraRes α) : Prop :=
  LPres fresh r.fresh t.leaves r.node.leaves ∧
  WF N h lo r.node hi ∧
  r.node.size ≤ 2 * N ∧
  (r.state = EraseState.NOT_FOUND → r.node = t ∧ r.fresh = fresh ∧ k ∉ t.keys) ∧
  (r.state ≠ EraseState.NOT_FOUND → k ∈ t.keys ∧ t.keys.Perm (k :: r.node.keys)) ∧
  (r.state = EraseState.SUCCESS → N ≤ r.node.size ∨ r.node.size = t.size) ∧
  (r.state = EraseState.TRIGGER_MERGE → r.node.size < N)

/-- Fill of the root: an internal root has at least one key. -/
def rootOK : Node α → Prop
  | .ext _ _ _ => True
  | .int vs _ => 1 ≤ vs.length

end Spec

/-- Source class `ADS_set<Key, N>`: the root link, the element count `sz`, and the
allocator counter of the model. -/
structure ADS_set (α : Type) where
  root : Node α
  sz : Nat
  fresh : Nat
  deriving Repr

namespace ADS_set

variable {α : Type}

/-- Source default constructor: the root is a new empty leaf. -/
def empty : ADS_set α := ⟨.ext 0 [] none, 0, 1⟩

/-- Source `size()`. -/
def size (s : ADS_set α) : Nat := s.sz

/-- Source `end()`. -/
def endIt (_s : ADS_set α) : Iterator := Iterator.endIt

variable [LinearOrder α]

/-- Source `insert(const key_type&)`: the new set and the returned pair. -/
def insert (N : Nat) (s : ADS_set α) (key : α) : Option (ADS_set α × Iterator × Bool) :=
  match add_elem N s.root.height s.root s.fresh key with
  | none => none
  | some r =>
    match r.state with
    | InsertState.SUCCESS => some (⟨r.node, s.sz + 1, r.fresh⟩, r.it, true)
    | InsertState.EXISTS => some (⟨r.node, s.sz, r.fresh⟩, r.it, false)
    | InsertState.TRIGGER_SPLIT =>
      match splitDefault r.fresh r.node with
      | none => none
      | some sp =>
        match new_index sp.sep sp.right with
        | none => none
        | some idx =>
          let root1 : Node α := .int [idx] [sp.left, sp.right]
          match find root1.height root1 key with
          | none => none
          | some it => some (⟨root1, s.sz + 1, sp.fresh⟩, it, true)

/-- Source `erase(const key_type&)`: the new set and the returned count. -/
def erase (N : Nat) (s : ADS_set α) (key : α) : Option (ADS_set α × Nat) :=
  match remove_elem N s.root.height s.root s.fresh key with
  | none => none
  | some r =>
    match r.state with
    | EraseState.SUCCESS => some (⟨r.node, s.sz - 1, r.fresh⟩, 1)
    | EraseState.NOT_FOUND => some (⟨r.node, s.sz, r.fresh⟩, 0)
    | EraseState.TRIGGER_MERGE =>
      if r.node.size = 0 then
        match r.node with
        | .int _ cs =>
          match cs.get? 0 with
          | none => none
          | some c => some (⟨c, s.sz - 1, r.fresh⟩, 1)
        | .ext _ _ _ => some (⟨.ext r.fresh [] none, s.sz - 1, r.fresh + 1⟩, 1)
      else some (⟨r.node, s.sz - 1, r.fresh⟩, 1)

/-- Source `clear()`. -/
def clear (s : ADS_set α) : ADS_set α := ⟨.ext s.fresh [] none, 0, s.fresh + 1⟩

/-- Source `find(const key_type&)`. -/
def find (s : ADS_set α) (key : α) : Option Iterator :=
  ADS.find s.root.height s.root key

/-- Source `count(const key_type&)`. -/
def count (s : ADS_set α) (key : α) : Option Nat :=
  match s.find key with
  | none => none
  | some it => some (if it ≠ s.endIt then 1 else 0)

/-- Source `begin()`. -/
def begin (s : ADS_set α) : Option Iterator :=
  begin_it s.root.height s.root

/-- Source `Iterator::operator*`, reading the leaf through the set it points into. -/
def deref (s : ADS_set α) (it : Iterator) : Option α :=
  match it.current with
  | none => none
  | some a =>
    match s.root.leafAt a with
    | none => none
    | some l => l.values.get? it.pos

/-- Source `Iterator::operator++`. -/
def incr (s : ADS_set α) (it : Iterator) : Option Iterator :=
  match it.current with
  | none => some it
  | some a =>
    match s.root.leafAt a with
    | none => none
    | some l => if it.pos + 1 = l.values.length then some ⟨l.next, 0⟩ else some ⟨some a, it.pos + 1⟩

/-- The loop `for (it = from; it != end(); ++it)` collecting `*it`, run for at most
`fuel` tests of the loop condition. -/
def iterFrom (s : ADS_set α) : Nat → Iterator → Option (List α)
  | 0, _ => none
  | fuel + 1, it =>
    if it = s.endIt then some []
    else
      match s.deref it, s.incr it with
      | some x, some it1 =>
        match iterFrom s fuel it1 with
        | none => none
        | some xs => some (x :: xs)
      | _, _ => none

/-- The keys visited by iterating from `begin()` to `end()`, with at most `fuel` tests
of the loop condition. -/
def toList (s : ADS_set α) (fuel : Nat) : Option (List α) :=
  match s.begin with
  | none => none
  | some it => iterFrom s fuel it

/-- Source range/initializer-list constructor and `insert(first, last)`: insert the
elements one by one. -/
def insertAll (N : Nat) (s : ADS_set α) : List α → Option (ADS_set α)
  | [] => some s
  | x :: xs =>
    match insert N s x with
    | none => none
    | some (s1, _) => insertAll N s1 xs

/-- A sequence of `erase` calls, one key after the other. -/
def eraseAll (N : Nat) (s : ADS_set α) : List α → Option (ADS_set α)
  | [] => some s
  | x :: xs =>
    match erase N s x with
    | none => none
    | some (s1, _) => eraseAll N s1 xs

/-- Source `ADS_set(std::initializer_list<key_type>)`. -/
def ofList (N : Nat) (xs : List α) : Option (ADS_set α) := insertAll N empty xs

end ADS_set

namespace ADS_set

variable {α : Type} [LinearOrder α]

/-- Representation invariant of the facade: the root is a well-formed tree over the
unbounded key range, `sz` counts the stored keys, the leaves form one null-terminated
chain, and leaf addresses are distinct and below the allocator counter. -/
def Inv (N : Nat) (s : ADS_set α) : Prop :=
  ∃ h, WF N h none s.root none ∧ s.root.size ≤ 2 * N ∧ rootOK s.root ∧
    s.sz = s.root.keys.length ∧ (∃ e, Chain e s.root.leaves none) ∧
    AddrOK s.fresh s.root.leaves

/-- Sets reachable from the empty set by `insert` and `erase` calls. -/
inductive Reachable (N : Nat) : ADS_set α → Prop
  | empty : Reachable N ADS_set.empty
  | insert {s s1 : ADS_set α} {k : α} {it : Iterator} {b : Bool} :
      Reachable N s → ADS_set.insert N s k = some (s1, it, b) → Reachable N s1
  | erase {s s1 : ADS_set α} {k : α} {n : Nat} :
      Reachable N s → ADS_set.erase N s k = some (s1, n) → Reachable N s1

/-- Sets reachable from the empty set by `insert`, `erase` and `clear` calls. -/
inductive ReachableC (N : Nat) : ADS_set α → Prop
  | empty : ReachableC N ADS_set.empty
  | insert {s s1 : ADS_set α} {k : α} {it : Iterator} {b : Bool} :
      ReachableC N s → ADS_set.insert N s k = some (s1, it, b) → ReachableC N s1
  | erase {s s1 : ADS_set α} {k : α} {n : Nat} :
      ReachableC N s → ADS_set.erase N s k = some (s1, n) → ReachableC N s1
  | clear {s : ADS_set α} : ReachableC N s → ReachableC N (ADS_set.clear s)

/-- The set after inserting 1, 2, 3, 4, 5 with `N = 2`. -/
def sample5 : ADS_set Nat :=
  ⟨.int [4] [.ext 0 [1, 2, 3] (some 1), .ext 1 [4, 5] none], 5, 2⟩

/-- The set after `clear()` on `sample5` and then inserting 9, 8, 7, 6, 5 with `N = 2`:
two leaves, so the iteration crosses a `next` link. -/
def sampleRefill : ADS_set Nat :=
  ⟨.int [8] [.ext 2 [5, 6, 7] (some 3), .ext 3 [8, 9] none], 5, 4⟩

end ADS_set

end ADS

namespace ADS

/-! ## Further vocabulary: nodes of a tree, leaf depths, equality of sets -/

section Defs2

variable {α : Type}

mutual
/-- Every node of a subtree: the top node first, then the nodes below its children,
left to right. -/
def Node.nodes : Node α → List (Node α)
  | .ext a vs nx => [.ext a vs nx]
  | .int vs cs => .int vs cs :: nodesList cs
/-- Every node below a list of children. -/
def nodesList : List (Node α) → List (Node α)
  | [] => []
  | c :: cs => c.nodes ++ nodesList cs
end

mutual
/-- The depth of every leaf below a node, left to right; the node itself is at depth 0. -/
def Node.leafDepths : Node α → List Nat
  | .ext _ _ _ => [0]
  | .int _ cs => leafDepthsList cs
/-- The depth of every leaf below a list of children, counted from their parent. -/
def leafDepthsList : List (Node α) → List Nat
  | [] => []
  | c :: cs => c.leafDepths.map (· + 1) ++ leafDepthsList cs
end

/-- The links of a node: the children of an internal node, none for a leaf. -/
def Node.children : Node α → List (Node α)
  | .ext _ _ _ => []
  | .int _ cs => cs

/-- Every key held by a node of the tree, separator or data, is stored in a leaf below
that node. -/
def Stored (t : Node α) : Prop := ∀ n ∈ t.nodes, ∀ v ∈ n.values, v ∈ n.keys

end Defs2

section Defs3

variable {α : Type} [LinearOrder α]

/-- Separator invariant in its strict reading: in every internal node of the tree,
separator `i` equals the smallest key stored below child `i + 1`. -/
def SepIsMin (t : Node α) : Prop :=
  ∀ n ∈ t.nodes, ∀ vs cs, n = Node.int vs cs →
    ∀ i v c1, vs[i]? = some v → cs[i + 1]? = some c1 → c1.keys.min? = some v

/-- Separator invariant in its weak reading: in every internal node of the tree, child
`i + 1` stores a key and separator `i` is at most the smallest key stored below it. -/
def SepLowerBound (t : Node α) : Prop :=
  ∀ n ∈ t.nodes, ∀ vs cs, n = Node.int vs cs →
    ∀ i v c1, vs[i]? = some v → cs[i + 1]? = some c1 →
      ∃ m, c1.keys.min? = some m ∧ v ≤ m

end Defs3

namespace ADS_set

variable {α : Type} [LinearOrder α]

/-- The loop of source `operator==`: `itl` runs over the left set until `end()`, `itr`
over the right set in step; `eq(*itl, *itr)` is `std::equal_to` on the keys.  At most
`fuel` tests of the loop condition. -/
def eqLoop (a b : ADS_set α) : Nat → Iterator → Iterator → Option Bool
  | 0, _, _ => none
  | fuel + 1, itl, itr =>
    if itl = a.endIt then some true
    else
      match a.deref itl, b.deref itr with
      | some x, some y =>
        if x = y then
          match a.incr itl, b.incr itr with
          | some itl1, some itr1 => eqLoop a b fuel itl1 itr1
          | _, _ => none
        else some false
      | _, _ => none

/-- Source `operator==`. -/
def operator_eq (a b : ADS_set α) (fuel : Nat) : Option Bool :=
  if a.sz ≠ b.sz then some false
  else
    match a.begin, b.begin with
    | some itl, some itr => eqLoop a b fuel itl itr
    | _, _ => none

/-- Source `operator!=`. -/
def operator_ne (a b : ADS_set α) (fuel : Nat) : Option Bool :=
  (operator_eq a b fuel).map not

/-- Sets reachable from the empty set by `insert` calls only. -/
inductive ReachableI (N : Nat) : ADS_set α → Prop
  | empty : ReachableI N ADS_set.empty
  | insert {s s1 : ADS_set α} {k : α} {it : Iterator} {b : Bool} :
      ReachableI N s → ADS_set.insert N s k = some (s1, it, b) → ReachableI N s1

/-- The set after inserting 1, 2, 3, 4, 5, 6 and erasing 4 with `N = 2`. -/
def sample6 : ADS_set Nat :=
  ⟨.int [4] [.ext 0 [1, 2, 3] (some 1), .ext 1 [5, 6] none], 5, 2⟩

/-- The set after inserting 1, 2, 3, 5, 6 with `N = 2`: the keys of `sample6` under
another separator. -/
def sample6b : ADS_set Nat :=
  ⟨.int [5] [.ext 0 [1, 2, 3] (some 1), .ext 1 [5, 6] none], 5, 2⟩

/-- The set after inserting 1, ..., 9 with `N = 1`. -/
def sample9 : ADS_set Nat :=
  ⟨.int [5] [.int [3] [.ext 0 [1, 2] (some 1), .ext 1 [3, 4] (some 2)],
    .int [7, 9] [.ext 2 [5, 6] (some 3), .ext 3 [7, 8] (some 4), .ext 4 [9] none]], 9, 5⟩

/-- The set after inserting 1, ..., 9 and erasing 1 and 2 with `N = 1`; the second erase
merges the internal nodes `[]` and `[7, 9]` to three keys and splits the result again. -/
def sampleOver : ADS_set Nat :=
  ⟨.int [7] [.int [5] [.ext 0 [3, 4] (some 2), .ext 2 [5, 6] (some 3)],
    .int [9] [.ext 3 [7, 8] (some 4), .ext 4 [9] none]], 7, 5⟩

end ADS_set

end ADS

namespace ADS

/-! ## Further vocabulary: buffer capacities, descent paths, the leaf chain -/

section Defs4

variable {α : Type}

/-- The keys and links of a node fit its buffers: at most `M + 1` keys (capacity of
`values`) and at most `M + 2` links (capacity of `children`). -/
def Node.fits (N : Nat) (n : Node α) : Prop :=
  n.size ≤ 2 * N + 1 ∧ n.children.length ≤ 2 * N + 2

/-- The leftmost leaf: descend through `children[0]` at every level. -/
def leftmost : Nat → Node α → Option (Leaf α)
  | 0, _ => none
  | _ + 1, .ext a vs nx => some ⟨a, vs, nx⟩
  | f + 1, .int _ cs =>
    match cs.get? 0 with
    | none => none
    | some c => leftmost f c

/-- The leaves visited by following `next` from the pointer `p` until the null pointer,
each pointer being dereferenced in the tree `t`; at most `fuel` null tests. -/
def chainFrom (t : Node α) : Nat → Option Nat → Option (List (Leaf α))
  | 0, _ => none
  | _ + 1, none => some []
  | fuel + 1, some a =>
    match t.leafAt a with
    | none => none
    | some l =>
      match chainFrom t fuel l.next with
      | none => none
      | some ls => some (l :: ls)

variable [LinearOrder α]

/-- The nodes that `find`, `add_elem` and `remove_elem` visit for the key `k` below `t`:
`t` itself and, below an internal node, the nodes visited below `children[childpos]`. -/
inductive OnPath (k : α) : Node α → Node α → Prop
  | here (t : Node α) : OnPath k t t
  | down {vs : List α} {cs : List (Node α)} {c n : Node α} :
      cs.get? (find_child_pos vs k) = some c → OnPath k c n → OnPath k (.int vs cs) n

end Defs4

namespace ADS_set

/-- The set after inserting 1, ..., 20 with `N = 2`. -/
def sample20 : ADS_set Nat :=
  ⟨.int [10] [.int [4, 7] [.ext 0 [1, 2, 3] (some 1), .ext 1 [4, 5, 6] (some 2),
      .ext 2 [7, 8, 9] (some 3)],
    .int [13, 16, 19] [.ext 3 [10, 11, 12] (some 4), .ext 4 [13, 14, 15] (some 5),
      .ext 5 [16, 17, 18] (some 6), .ext 6 [19, 20] none]], 20, 7⟩

/-- The set after inserting 1, ..., 20 and erasing 1 with `N = 2`. -/
def sample21 : ADS_set Nat :=
  ⟨.int [10] [.int [4, 7] [.ext 0 [2, 3] (some 1), .ext 1 [4, 5, 6] (some 2),
      .ext 2 [7, 8, 9] (some 3)],
    .int [13, 16, 19] [.ext 3 [10, 11, 12] (some 4), .ext 4 [13, 14, 15] (some 5),
      .ext 5 [16, 17, 18] (some 6), .ext 6 [19, 20] none]], 19, 7⟩

/-- The left sibling that the root of `sample21` pairs during `erase(2)`: its routed
child after the child's own `remove_elem`, left with one key. -/
def pairL : Node Nat :=
  .int [7] [.ext 0 [3, 4, 5, 6] (some 2), .ext 2 [7, 8, 9] (some 3)]

/-- The right sibling that the root of `sample21` pairs during `erase(2)`. -/
def pairR : Node Nat :=
  .int [13, 16, 19] [.ext 3 [10, 11, 12] (some 4), .ext 4 [13, 14, 15] (some 5),
    .ext 5 [16, 17, 18] (some 6), .ext 6 [19, 20] none]

/-- The set after inserting 1, ..., 7, erasing 1 and 2, inserting 1 and erasing 7 with
`N = 2`: the erase of 2 redistributes by splitting the right leaf, the erase of 7 by
splitting the left leaf. -/
def sampleChain : ADS_set Nat :=
  ⟨.int [5] [.ext 0 [1, 3, 4] (some 3), .ext 3 [5, 6] none], 5, 4⟩

end ADS_set

end ADS

/-! ## Theorems -/

namespace ADS

/-! ### Bounds and the sorted-array search `findpos` -/

section Basics
variable {α : Type} [LinearOrder α]

@[simp] theorem below_none (x : α) : below (none : Option α) x := by simp [below]
@[simp] theorem below_some (l x : α) : below (some l) x ↔ l ≤ x := by simp [below]
@[simp] theorem above_none (x : α) : above x (none : Option α) := by simp [above]
@[simp] theorem above_some (x u : α) : above x (some u) ↔ x < u := by simp [above]
@[simp] theorem oLt_none_left (hi : Option α) : oLt (none : Option α) hi := by simp [oLt]
@[simp] theorem oLt_none_right (lo : Option α) : oLt lo (none : Option α) := by simp [oLt]
@[simp] theorem oLt_some_some (l u : α) : oLt (some l) (some u) ↔ l < u := by simp [oLt]

theorem oLt_some_left (l : α) (hi : Option α) : oLt (some l) hi ↔ above l hi := by
  simp [oLt, above]

theorem below_of_oLt {lo : Option α} {v x : α} (h : oLt lo (some v)) (hx : v ≤ x) :
    below lo x := by
  cases lo with
  | none => simp
  | some l => simp at h ⊢; exact le_of_lt (lt_of_lt_of_le h hx)

theorem below_trans {lo : Option α} {v x : α} (h : below lo v) (hx : v ≤ x) : below lo x := by
  cases lo with
  | none => simp
  | some l => simp at h ⊢; exact le_trans h hx

theorem above_trans {hi : Option α} {v x : α} (h : above v hi) (hx : x ≤ v) : above x hi := by
  cases hi with
  | none => simp
  | some u => simp at h ⊢; exact lt_of_le_of_lt hx h

theorem oLt_of_below_above {lo hi : Option α} {x : α} (h1 : below lo x) (h2 : above x hi) :
    oLt lo hi := by
  cases lo <;> cases hi <;> simp at *
  exact lt_of_le_of_lt h1 h2

theorem invert_invert (n : Int) : invert (invert n) = n := by
  simp [invert]

/-- Specification of the scan of `findpos` on a strictly ascending buffer. -/
theorem findposLoop_spec (k : α) : ∀ (rest : List α) (prev : α) (i : Nat),
    1 ≤ i → (prev :: rest).Pairwise (· < ·) → prev ≤ k →
    (∃ j : Nat, findposLoop k prev rest i = ((i - 1 + j : Nat) : Int) ∧
        (prev :: rest)[j]? = some k) ∨
    (∃ j : Nat, 1 ≤ j ∧ findposLoop k prev rest i = invert ((i - 1 + j : Nat) : Int) ∧
        j ≤ (prev :: rest).length ∧ (∀ x ∈ (prev :: rest).take j, x < k) ∧
        (∀ x ∈ (prev :: rest).drop j, k < x)) := by
  intro rest
  induction rest with
  | nil =>
    intro prev i hi _ hle
    by_cases hlt : prev < k
    · right
      refine ⟨1, le_refl _, ?_, by simp, by simpa using hlt, by simp⟩
      simp [findposLoop, hlt]
      congr 1
      omega
    · left
      have : prev = k := le_antisymm hle (not_lt.mp hlt)
      refine ⟨0, ?_, by simp [this]⟩
      simp [findposLoop, hlt]
      omega
  | cons v rest ih =>
    intro prev i hi hs hle
    have hs1 : (v :: rest).Pairwise (· < ·) := (List.pairwise_cons.mp hs).2
    have hpv : prev < v := (List.pairwise_cons.mp hs).1 v (by simp)
    by_cases hkv : k < v
    · by_cases hlt : prev < k
      · right
        refine ⟨1, le_refl _, ?_, by simp, by simpa using hlt, ?_⟩
        · simp [findposLoop, hkv, hlt]
          congr 1
          omega
        · intro x hx
          simp at hx
          rcases hx with rfl | hx
          · exact hkv
          · exact lt_trans hkv ((List.pairwise_cons.mp hs1).1 x hx)
      · left
        have : prev = k := le_antisymm hle (not_lt.mp hlt)
        refine ⟨0, ?_, by simp [this]⟩
        simp [findposLoop, hkv, hlt]
        omega
    · have hvk : v ≤ k := not_lt.mp hkv
      have := ih v (i + 1) (by omega) hs1 hvk
      rcases this with ⟨j, hj, hget⟩ | ⟨j, hj1, hj, hlen, htake, hdrop⟩
      · left
        refine ⟨j + 1, ?_, by simpa using hget⟩
        simp [findposLoop, hkv, hj]
        omega
      · right
        refine ⟨j + 1, by omega, ?_, by simpa using hlen, ?_, by simpa using hdrop⟩
        · simp [findposLoop, hkv, hj]
          congr 1
          omega
        · intro x hx
          simp at hx
          rcases hx with rfl | hx
          · exact lt_of_lt_of_le hpv hvk
          · exact htake x hx

/-- Specification of `findpos` on a strictly ascending buffer: either the index of the
key, or the encoded insertion index that separates smaller from greater keys. -/
theorem findpos_spec (vs : List α) (k : α) (hs : vs.Pairwise (· < ·)) :
    (∃ j : Nat, findpos vs k = (j : Int) ∧ vs[j]? = some k) ∨
    (∃ j : Nat, findpos vs k = invert (j : Int) ∧ j ≤ vs.length ∧
        (∀ x ∈ vs.take j, x < k) ∧ (∀ x ∈ vs.drop j, k < x)) := by
  cases vs with
  | nil => right; exact ⟨0, by simp [findpos, invert], by simp, by simp, by simp⟩
  | cons v0 rest =>
    by_cases h : k < v0
    · right
      refine ⟨0, by simp [findpos, h, invert], by simp, by simp, ?_⟩
      intro x hx
      simp at hx
      rcases hx with rfl | hx
      · exact h
      · exact lt_trans h ((List.pairwise_cons.mp hs).1 x hx)
    · have := findposLoop_spec k rest v0 1 (le_refl _) hs (not_lt.mp h)
      rcases this with ⟨j, hj, hget⟩ | ⟨j, _, hj, hlen, htake, hdrop⟩
      · left; exact ⟨j, by simp [findpos, h, hj], hget⟩
      · right; exact ⟨j, by simp [findpos, h, hj], hlen, htake, hdrop⟩

omit [LinearOrder α] in
theorem mem_of_getElem?_eq {l : List α} {j : Nat} {k : α} (h : l[j]? = some k) : k ∈ l := by
  rw [List.getElem?_eq_some] at h
  obtain ⟨hj, rfl⟩ := h
  exact List.getElem_mem _

theorem not_mem_of_split {vs : List α} {k : α} {j : Nat}
    (h1 : ∀ x ∈ vs.take j, x < k) (h2 : ∀ x ∈ vs.drop j, k < x) : k ∉ vs := by
  intro hk
  rw [← List.take_append_drop j vs, List.mem_append] at hk
  rcases hk with hk | hk
  · exact lt_irrefl _ (h1 k hk)
  · exact lt_irrefl _ (h2 k hk)

theorem findpos_nonneg_iff (vs : List α) (k : α) (hs : vs.Pairwise (· < ·)) :
    0 ≤ findpos vs k ↔ k ∈ vs := by
  rcases findpos_spec vs k hs with ⟨j, hj, hget⟩ | ⟨j, hj, _, h1, h2⟩
  · simp [hj, mem_of_getElem?_eq hget]
  · have := not_mem_of_split h1 h2
    simp [hj, invert, this]
    omega

theorem findpos_found (vs : List α) (k : α) (hs : vs.Pairwise (· < ·)) (h : 0 ≤ findpos vs k) :
    vs[(findpos vs k).toNat]? = some k := by
  rcases findpos_spec vs k hs with ⟨j, hj, hget⟩ | ⟨j, hj, _, h1, h2⟩
  · simpa [hj] using hget
  · exfalso; rw [hj] at h; simp [invert] at h; omega

theorem findpos_insert (vs : List α) (k : α) (hs : vs.Pairwise (· < ·)) (h : ¬ 0 ≤ findpos vs k) :
    (invert (findpos vs k)).toNat ≤ vs.length ∧
    (∀ x ∈ vs.take (invert (findpos vs k)).toNat, x < k) ∧
    (∀ x ∈ vs.drop (invert (findpos vs k)).toNat, k < x) := by
  rcases findpos_spec vs k hs with ⟨j, hj, hget⟩ | ⟨j, hj, hl, h1, h2⟩
  · exfalso; apply h; simp [hj]
  · simp [hj, invert_invert]; exact ⟨hl, h1, h2⟩

/-- In a strictly ascending list, the elements before the position of `k` are smaller
and those after it are greater. -/
theorem sorted_split_at {vs : List α} (hs : vs.Pairwise (· < ·)) {j : Nat} {k : α}
    (h : vs[j]? = some k) :
    (∀ x ∈ vs.take j, x < k) ∧ (∀ x ∈ vs.drop (j + 1), k < x) := by
  rw [List.getElem?_eq_some] at h
  obtain ⟨hj, rfl⟩ := h
  have hs2 : (vs.take j ++ vs[j] :: vs.drop (j + 1)).Pairwise (· < ·) := by
    rw [List.getElem_cons_drop, List.take_append_drop]; exact hs
  rw [List.pairwise_append] at hs2
  obtain ⟨_, h2, h3⟩ := hs2
  constructor
  · intro x hx; exact h3 x hx _ (List.mem_cons_self _ _)
  · intro x hx; exact (List.pairwise_cons.mp h2).1 x hx

/-- Routing: `find_child_pos` is the number of separators that are at most `k`. -/
theorem find_child_pos_spec (vs : List α) (k : α) (hs : vs.Pairwise (· < ·)) :
    find_child_pos vs k ≤ vs.length ∧
    (∀ x ∈ vs.take (find_child_pos vs k), x ≤ k) ∧
    (∀ x ∈ vs.drop (find_child_pos vs k), k < x) := by
  rcases findpos_spec vs k hs with ⟨j, hj, hget⟩ | ⟨j, hj, hl, h1, h2⟩
  · have hp : find_child_pos vs k = j + 1 := by
      simp only [find_child_pos, hj]
      have : ¬ ((j : Int) < -1) := by omega
      rw [if_neg this]
      omega
    rw [hp]
    obtain ⟨h1, h2⟩ := sorted_split_at hs hget
    have hlt : j < vs.length := by
      rw [List.getElem?_eq_some] at hget; exact hget.1
    refine ⟨hlt, ?_, h2⟩
    intro x hx
    rw [List.take_succ, List.mem_append] at hx
    rcases hx with hx | hx
    · exact le_of_lt (h1 x hx)
    · simp [hget] at hx; exact le_of_eq hx
  · have hp : find_child_pos vs k = j := by
      simp only [find_child_pos, hj, invert]
      by_cases h0 : j = 0
      · subst h0; simp
      · have : (-((j : Int) + 1) < -1) := by omega
        rw [if_pos this]
        omega
    rw [hp]
    exact ⟨hl, fun x hx => le_of_lt (h1 x hx), h2⟩

/-- A key strictly between the separators before and after position `p` is inserted
at position `p` by `findpos_autoinvert`. -/
theorem findpos_autoinvert_eq (vs : List α) (k : α) (hs : vs.Pairwise (· < ·)) (p : Nat)
    (hp : p ≤ vs.length) (h1 : ∀ x ∈ vs.take p, x < k) (h2 : ∀ x ∈ vs.drop p, k < x) :
    findpos_autoinvert vs k = p := by
  have hnot := not_mem_of_split h1 h2
  rcases findpos_spec vs k hs with ⟨j, hj, hget⟩ | ⟨j, hj, hl, h3, h4⟩
  · exact absurd (mem_of_getElem?_eq hget) hnot
  · have e : findpos_autoinvert vs k = j := by
      simp only [findpos_autoinvert, hj, invert]
      have : (-((j : Int) + 1) < 0) := by omega
      rw [if_pos this]
      omega
    rw [e]
    by_contra hne
    rcases Nat.lt_or_gt_of_ne hne with hlt | hgt
    · -- j < p: vs[j] is in take p (so < k) and in drop j (so > k)
      have hjl : j < vs.length := by omega
      have ha : vs[j] ∈ vs.take p := by
        rw [List.mem_take_iff_getElem]
        exact ⟨j, by simp; omega, rfl⟩
      have hb : vs[j] ∈ vs.drop j := by
        rw [List.drop_eq_getElem_cons hjl]; exact List.mem_cons_self _ _
      exact lt_irrefl _ (lt_trans (h1 _ ha) (h4 _ hb))
    · have hpl : p < vs.length := by omega
      have ha : vs[p] ∈ vs.take j := by
        rw [List.mem_take_iff_getElem]
        exact ⟨p, by simp; omega, rfl⟩
      have hb : vs[p] ∈ vs.drop p := by
        rw [List.drop_eq_getElem_cons hpl]; exact List.mem_cons_self _ _
      exact lt_irrefl _ (lt_trans (h3 _ ha) (h2 _ hb))

end Basics

/-! ### Leaves, keys, chains and separator lists -/

section Structure
variable {α : Type}

@[simp] theorem leavesList_nil : leavesList ([] : List (Node α)) = [] := by
  simp [leavesList]

@[simp] theorem leavesList_cons (c : Node α) (cs : List (Node α)) :
    leavesList (c :: cs) = c.leaves ++ leavesList cs := by
  simp [leavesList]

@[simp] theorem leaves_ext (a : Nat) (vs : List α) (nx : Option Nat) :
    (Node.ext a vs nx).leaves = [⟨a, vs, nx⟩] := by
  simp [Node.leaves]

@[simp] theorem leaves_int (vs : List α) (cs : List (Node α)) :
    (Node.int vs cs).leaves = leavesList cs := by
  simp [Node.leaves]

theorem leavesList_append (a b : List (Node α)) :
    leavesList (a ++ b) = leavesList a ++ leavesList b := by
  induction a with
  | nil => simp
  | cons c cs ih => simp [ih]

@[simp] theorem leafKeys_nil : leafKeys ([] : List (Leaf α)) = [] := by
  simp [leafKeys]

@[simp] theorem leafKeys_cons (l : Leaf α) (ls : List (Leaf α)) :
    leafKeys (l :: ls) = l.values ++ leafKeys ls := by
  simp [leafKeys]

theorem leafKeys_append (a b : List (Leaf α)) :
    leafKeys (a ++ b) = leafKeys a ++ leafKeys b := by
  simp [leafKeys]

@[simp] theorem keys_ext (a : Nat) (vs : List α) (nx : Option Nat) :
    (Node.ext a vs nx).keys = vs := by
  simp [Node.keys]

theorem keys_int (vs : List α) (cs : List (Node α)) :
    (Node.int vs cs).keys = leafKeys (leavesList cs) := by
  simp [Node.keys]

@[simp] theorem height_ext (a : Nat) (vs : List α) (nx : Option Nat) :
    (Node.ext a vs nx).height = 1 := by
  simp [Node.height]

@[simp] theorem height_int (vs : List α) (cs : List (Node α)) :
    (Node.int vs cs).height = heightList cs + 1 := by
  simp [Node.height]

@[simp] theorem heightList_nil : heightList ([] : List (Node α)) = 0 := by
  simp [heightList]

@[simp] theorem heightList_cons (c : Node α) (cs : List (Node α)) :
    heightList (c :: cs) = max c.height (heightList cs) := by
  simp [heightList]

theorem heightList_eq (cs : List (Node α)) (n : Nat) (hne : cs ≠ [])
    (h : ∀ c ∈ cs, c.height = n) : heightList cs = n := by
  induction cs with
  | nil => exact absurd rfl hne
  | cons c cs ih =>
    have hc : c.height = n := h c (by simp)
    cases cs with
    | nil => simp [hc]
    | cons d ds =>
      have := ih (by simp) (fun x hx => h x (by simp [hx]))
      simp only [heightList_cons] at this ⊢
      rw [this, hc]; simp

@[simp] theorem size_ext (a : Nat) (vs : List α) (nx : Option Nat) :
    (Node.ext a vs nx).size = vs.length := by
  simp [Node.size, Node.values]

@[simp] theorem size_int (vs : List α) (cs : List (Node α)) :
    (Node.int vs cs).size = vs.length := by
  simp [Node.size, Node.values]

@[simp] theorem Chain_nil (e x : Option Nat) : Chain e ([] : List (Leaf α)) x ↔ e = x :=
  Iff.rfl

@[simp] theorem Chain_cons (e x : Option Nat) (l : Leaf α) (ls : List (Leaf α)) :
    Chain e (l :: ls) x ↔ e = some l.addr ∧ Chain l.next ls x :=
  Iff.rfl

theorem Chain_append (e x : Option Nat) (l1 l2 : List (Leaf α)) :
    Chain e (l1 ++ l2) x ↔ ∃ m, Chain e l1 m ∧ Chain m l2 x := by
  induction l1 generalizing e with
  | nil => simp
  | cons l ls ih =>
    simp only [List.cons_append, Chain_cons, ih]
    constructor
    · rintro ⟨h1, m, h2, h3⟩; exact ⟨m, ⟨h1, h2⟩, h3⟩
    · rintro ⟨m, ⟨h1, h2⟩, h3⟩; exact ⟨h1, m, h2, h3⟩

end Structure

section SepsLemmas
variable {α : Type} [LinearOrder α]
variable {P Q : Option α → Node α → Option α → Prop}

theorem Seps_length : ∀ {vs : List α} {cs : List (Node α)} {lo hi : Option α},
    Seps P lo vs cs hi → cs.length = vs.length + 1 := by
  intro vs
  induction vs with
  | nil =>
    intro cs lo hi h
    match cs, h with
    | [c], _ => simp
  | cons v vs ih =>
    intro cs lo hi h
    match cs, h with
    | c :: cs, h =>
      simp only [Seps] at h
      simp [ih h.2.2]

theorem PreS_length : ∀ {vs : List α} {cs : List (Node α)} {lo m : Option α},
    PreS P lo vs cs m → cs.length = vs.length := by
  intro vs
  induction vs with
  | nil =>
    intro cs lo m h
    match cs, h with
    | [], _ => simp
  | cons v vs ih =>
    intro cs lo m h
    match cs, h with
    | c :: cs, h =>
      simp only [PreS] at h
      simp [ih h.2.2]

theorem Seps_nil_false {vs : List α} {lo hi : Option α} : ¬ Seps P lo vs [] hi := by
  cases vs <;> simp [Seps]

theorem Seps_mono (hPQ : ∀ l c u, P l c u → Q l c u) :
    ∀ {vs : List α} {cs : List (Node α)} {lo hi : Option α},
    Seps P lo vs cs hi → Seps Q lo vs cs hi := by
  intro vs
  induction vs with
  | nil =>
    intro cs lo hi h
    match cs, h with
    | [c], h => simp only [Seps] at h ⊢; exact ⟨hPQ _ _ _ h.1, h.2⟩
  | cons v vs ih =>
    intro cs lo hi h
    match cs, h with
    | c :: cs, h =>
      simp only [Seps] at h ⊢
      exact ⟨hPQ _ _ _ h.1, h.2.1, ih h.2.2⟩

theorem Seps_cons_iff (m hi : Option α) (vs : List α) (c : Node α) (cs : List (Node α)) :
    Seps P m vs (c :: cs) hi ↔
      P m c (ubOf vs hi) ∧ oLt m (ubOf vs hi) ∧ SufS P vs cs hi := by
  cases vs with
  | nil =>
    cases cs with
    | nil => simp [Seps, ubOf, SufS]
    | cons d ds => simp [Seps, ubOf, SufS]
  | cons v vs => simp [Seps, ubOf, SufS]

/-- Rebuild: children and separators up to `m`, followed by a node list from `m`. -/
theorem Seps_of_PreS : ∀ {vsA : List α} {csA : List (Node α)} {lo m : Option α}
    {vsB : List α} {csB : List (Node α)} {hi : Option α},
    PreS P lo vsA csA m → Seps P m vsB csB hi → Seps P lo (vsA ++ vsB) (csA ++ csB) hi := by
  intro vsA
  induction vsA with
  | nil =>
    intro csA lo m vsB csB hi h1 h2
    match csA, h1 with
    | [], h1 => simp only [PreS] at h1; subst h1; simpa using h2
  | cons v vs ih =>
    intro csA lo m vsB csB hi h1 h2
    match csA, h1 with
    | c :: cs, h1 =>
      simp only [PreS] at h1
      simp only [List.cons_append, Seps]
      exact ⟨h1.1, h1.2.1, ih h1.2.2 h2⟩

/-- Focus on child `p`: the children before it with their separators, the child
between its two bounds, and the separators and children after it. -/
theorem Seps_focus : ∀ (p : Nat) {vs : List α} {cs : List (Node α)} {lo hi : Option α},
    Seps P lo vs cs hi → p ≤ vs.length →
    ∃ m c, cs[p]? = some c ∧ PreS P lo (vs.take p) (cs.take p) m ∧
      P m c (ubOf (vs.drop p) hi) ∧ oLt m (ubOf (vs.drop p) hi) ∧
      SufS P (vs.drop p) (cs.drop (p + 1)) hi := by
  intro p
  induction p with
  | zero =>
    intro vs cs lo hi h _
    match cs, h with
    | [], h => exact absurd h Seps_nil_false
    | c :: cs, h =>
      rw [Seps_cons_iff] at h
      exact ⟨lo, c, by simp, by simp [PreS], by simpa using h.1, by simpa using h.2.1,
        by simpa using h.2.2⟩
  | succ p ih =>
    intro vs cs lo hi h hp
    match vs, cs, h, hp with
    | v :: vs, c :: cs, h, hp =>
      simp only [Seps] at h
      obtain ⟨m, d, h1, h2, h3, h4, h5⟩ := ih h.2.2 (by simpa using hp)
      refine ⟨m, d, by simpa using h1, ?_, by simpa using h3, by simpa using h4,
        by simpa using h5⟩
      simp only [List.take_succ_cons, PreS]
      exact ⟨h.1, h.2.1, h2⟩

theorem PreS_last : ∀ {vs : List α} {cs : List (Node α)} {lo m : Option α},
    PreS P lo vs cs m → (m = lo ∧ vs = []) ∨ (∃ v ∈ vs, m = some v) := by
  intro vs
  induction vs with
  | nil =>
    intro cs lo m h
    match cs, h with
    | [], h => simp only [PreS] at h; left; exact ⟨h.symm, rfl⟩
  | cons v vs ih =>
    intro cs lo m h
    match cs, h with
    | c :: cs, h =>
      simp only [PreS] at h
      right
      rcases ih h.2.2 with ⟨h1, _⟩ | ⟨w, hw, h1⟩
      · exact ⟨v, by simp, h1⟩
      · exact ⟨w, by simp [hw], h1⟩

/-- Every separator of a prefix is at most its last separator `m`, and the lower bound
is strictly below every separator. -/
theorem PreS_le_last : ∀ {vs : List α} {cs : List (Node α)} {lo m : Option α},
    PreS P lo vs cs m → ∀ v ∈ vs, (∃ mv, m = some mv ∧ v ≤ mv) ∧ oLt lo (some v) := by
  intro vs
  induction vs with
  | nil => intro cs lo m _ v hv; simp at hv
  | cons w vs ih =>
    intro cs lo m h v hv
    match cs, h with
    | c :: cs, h =>
      simp only [PreS] at h
      obtain ⟨_, hlo, hrest⟩ := h
      have hw : ∃ mv, m = some mv ∧ w ≤ mv := by
        rcases PreS_last hrest with ⟨h1, _⟩ | ⟨u, hu, h1⟩
        · exact ⟨w, h1, le_refl _⟩
        · obtain ⟨⟨mv, hmv, hle⟩, hlt⟩ := ih hrest u hu
          rw [h1] at hmv
          simp at hlt
          exact ⟨u, h1, le_of_lt hlt⟩
      simp at hv
      rcases hv with rfl | hv
      · exact ⟨hw, hlo⟩
      · obtain ⟨hmv, hlt⟩ := ih hrest v hv
        refine ⟨hmv, ?_⟩
        cases lo with
        | none => simp
        | some l => simp at hlo hlt ⊢; exact lt_trans hlo hlt

/-- The lower bound of a prefix is at most its last separator. -/
theorem PreS_below {vs : List α} {cs : List (Node α)} {lo m : Option α}
    (h : PreS P lo vs cs m) {x : α} (hx : below m x) : below lo x := by
  rcases PreS_last h with ⟨h1, _⟩ | ⟨u, hu, h1⟩
  · rw [h1] at hx; exact hx
  · subst h1
    simp at hx
    exact below_of_oLt (PreS_le_last h u hu).2 hx

/-- The separators of a node are strictly ascending, strictly between the bounds, and
the bounds themselves are strictly ordered. -/
theorem Seps_sorted : ∀ {vs : List α} {cs : List (Node α)} {lo hi : Option α},
    Seps P lo vs cs hi →
    vs.Pairwise (· < ·) ∧ (∀ v ∈ vs, oLt lo (some v) ∧ above v hi) ∧ oLt lo hi := by
  intro vs
  induction vs with
  | nil =>
    intro cs lo hi h
    match cs, h with
    | [c], h => simp only [Seps] at h; simp [h.2]
  | cons v vs ih =>
    intro cs lo hi h
    match cs, h with
    | c :: cs, h =>
      simp only [Seps] at h
      obtain ⟨_, hlo, hrest⟩ := h
      obtain ⟨hs, hb, hlt⟩ := ih hrest
      have hv : above v hi := by rw [← oLt_some_left]; exact hlt
      refine ⟨?_, ?_, ?_⟩
      · rw [List.pairwise_cons]
        refine ⟨fun w hw => ?_, hs⟩
        simpa using (hb w hw).1
      · intro w hw
        simp at hw
        rcases hw with rfl | hw
        · exact ⟨hlo, hv⟩
        · refine ⟨?_, (hb w hw).2⟩
          have := (hb w hw).1
          cases lo with
          | none => simp
          | some l => simp at hlo this ⊢; exact lt_trans hlo this
      · cases lo with
        | none => simp
        | some l =>
          cases hi with
          | none => simp
          | some u => simp at hlo hv ⊢; exact lt_trans hlo hv

theorem SufS_sorted {vs : List α} {cs : List (Node α)} {hi : Option α}
    (h : SufS P vs cs hi) : vs.Pairwise (· < ·) ∧ ∀ v ∈ vs, above v hi := by
  cases vs with
  | nil => simp
  | cons v vs =>
    simp only [SufS] at h
    obtain ⟨hs, hb, hlt⟩ := Seps_sorted h
    refine ⟨?_, ?_⟩
    · rw [List.pairwise_cons]
      exact ⟨fun w hw => by simpa using (hb w hw).1, hs⟩
    · intro w hw
      simp at hw
      rcases hw with rfl | hw
      · rw [← oLt_some_left]; exact hlt
      · exact (hb w hw).2

/-- The upper bound of the focused child is at most every later separator, and it is
below the upper bound of the node. -/
theorem ubOf_le {vs : List α} {cs : List (Node α)} {hi : Option α}
    (h : SufS P vs cs hi) {x : α} (hx : above x (ubOf vs hi)) :
    above x hi ∧ ∀ v ∈ vs, x < v := by
  cases vs with
  | nil => simpa [ubOf] using hx
  | cons v vs =>
    simp only [ubOf, above_some] at hx
    obtain ⟨hs, hb⟩ := SufS_sorted h
    refine ⟨above_trans (hb v (by simp)) (le_of_lt hx), ?_⟩
    intro w hw
    simp at hw
    rcases hw with rfl | hw
    · exact hx
    · exact lt_trans hx ((List.pairwise_cons.mp hs).1 w hw)

omit [LinearOrder α] in
theorem ubOf_mem (vs : List α) (hi : Option α) :
    ubOf vs hi = hi ∨ ∃ v ∈ vs, ubOf vs hi = some v := by
  cases vs with
  | nil => left; rfl
  | cons v vs => right; exact ⟨v, by simp, rfl⟩

/-- Split of an internal node at separator `at`. -/
theorem Seps_split : ∀ (i : Nat) {vs : List α} {cs : List (Node α)} {lo hi : Option α},
    Seps P lo vs cs hi → i < vs.length →
    ∃ s, vs[i]? = some s ∧ Seps P lo (vs.take i) (cs.take (i + 1)) (some s) ∧
      Seps P (some s) (vs.drop (i + 1)) (cs.drop (i + 1)) hi := by
  intro i
  induction i with
  | zero =>
    intro vs cs lo hi h hi0
    match vs, cs, h, hi0 with
    | v :: vs, c :: cs, h, _ =>
      simp only [Seps] at h
      exact ⟨v, by simp, by simpa [Seps] using ⟨h.1, h.2.1⟩, by simpa using h.2.2⟩
  | succ i ih =>
    intro vs cs lo hi h hi0
    match vs, cs, h, hi0 with
    | v :: vs, c :: cs, h, hi0 =>
      simp only [Seps] at h
      obtain ⟨s, h1, h2, h3⟩ := ih h.2.2 (by simpa using hi0)
      refine ⟨s, by simpa using h1, ?_, by simpa using h3⟩
      simp only [List.take_succ_cons, Seps]
      exact ⟨h.1, h.2.1, h2⟩

/-- Merge of two internal nodes around the pulled-down separator `s`. -/
theorem Seps_join : ∀ {vs1 : List α} {cs1 : List (Node α)} {lo hi : Option α} {s : α}
    {vs2 : List α} {cs2 : List (Node α)},
    Seps P lo vs1 cs1 (some s) → Seps P (some s) vs2 cs2 hi →
    Seps P lo (vs1 ++ s :: vs2) (cs1 ++ cs2) hi := by
  intro vs1
  induction vs1 with
  | nil =>
    intro cs1 lo hi s vs2 cs2 h1 h2
    match cs1, h1 with
    | [c], h1 =>
      simp only [Seps] at h1
      simp only [List.nil_append, List.singleton_append, Seps]
      exact ⟨h1.1, h1.2, h2⟩
  | cons v vs ih =>
    intro cs1 lo hi s vs2 cs2 h1 h2
    match cs1, h1 with
    | c :: cs, h1 =>
      simp only [Seps] at h1
      simp only [List.cons_append, Seps]
      exact ⟨h1.1, h1.2.1, ih h1.2.2 h2⟩

end SepsLemmas

/-! ### Consequences of well-formedness; correctness of `find` -/

section WFLemmas
variable {α : Type} [LinearOrder α]
variable {P : Option α → Node α → Option α → Prop}

theorem WF_zero_inv {N : Nat} {lo hi : Option α} {t : Node α} (h : WF N 0 lo t hi) :
    ∃ a vs nx, t = Node.ext a vs nx ∧ vs.Pairwise (· < ·) ∧
      ∀ x ∈ vs, below lo x ∧ above x hi := by
  cases t with
  | ext a vs nx => exact ⟨a, vs, nx, rfl, by simpa [WF] using h⟩
  | int vs cs => simp [WF] at h

theorem WF_succ_inv {N h : Nat} {lo hi : Option α} {t : Node α} (hw : WF N (h + 1) lo t hi) :
    ∃ vs cs, t = Node.int vs cs ∧
      Seps (fun l c u => WF N h l c u ∧ lowOK N c ∧ c.size ≤ 2 * N) lo vs cs hi := by
  cases t with
  | ext a vs nx => simp [WF] at hw
  | int vs cs => exact ⟨vs, cs, rfl, by simpa [WF] using hw⟩

theorem WF_ext_iff {N : Nat} {lo hi : Option α} {a : Nat} {vs : List α} {nx : Option Nat} :
    WF N 0 lo (Node.ext a vs nx) hi ↔
      vs.Pairwise (· < ·) ∧ ∀ x ∈ vs, below lo x ∧ above x hi := by
  simp [WF]

theorem WF_int_iff {N h : Nat} {lo hi : Option α} {vs : List α} {cs : List (Node α)} :
    WF N (h + 1) lo (Node.int vs cs) hi ↔
      Seps (fun l c u => WF N h l c u ∧ lowOK N c ∧ c.size ≤ 2 * N) lo vs cs hi := by
  simp [WF]

theorem Seps_forall : ∀ {vs : List α} {cs : List (Node α)} {lo hi : Option α},
    Seps P lo vs cs hi → ∀ c ∈ cs, ∃ l u, P l c u := by
  intro vs
  induction vs with
  | nil =>
    intro cs lo hi h c hc
    match cs, h with
    | [d], h =>
      simp only [Seps] at h
      simp at hc; subst hc
      exact ⟨_, _, h.1⟩
  | cons v vs ih =>
    intro cs lo hi h c hc
    match cs, h with
    | d :: ds, h =>
      simp only [Seps] at h
      simp at hc
      rcases hc with rfl | hc
      · exact ⟨_, _, h.1⟩
      · exact ih h.2.2 c hc

theorem Seps_keys
    (hP : ∀ l c u, P l c u → c.keys.Pairwise (· < ·) ∧ ∀ x ∈ c.keys, below l x ∧ above x u) :
    ∀ {vs : List α} {cs : List (Node α)} {lo hi : Option α},
    Seps P lo vs cs hi →
    (leafKeys (leavesList cs)).Pairwise (· < ·) ∧
      ∀ x ∈ leafKeys (leavesList cs), below lo x ∧ above x hi := by
  intro vs
  induction vs with
  | nil =>
    intro cs lo hi h
    match cs, h with
    | [c], h =>
      simp only [Seps] at h
      simpa [Node.keys] using hP _ _ _ h.1
  | cons v vs ih =>
    intro cs lo hi h
    match cs, h with
    | c :: cs, h =>
      simp only [Seps] at h
      obtain ⟨hc, hlo, hrest⟩ := h
      obtain ⟨hs1, hb1⟩ := hP _ _ _ hc
      obtain ⟨hs2, hb2⟩ := ih hrest
      have hv : above v hi := by
        rw [← oLt_some_left]; exact (Seps_sorted hrest).2.2
      simp only [leavesList_cons, leafKeys_append]
      refine ⟨?_, ?_⟩
      · rw [List.pairwise_append]
        refine ⟨hs1, hs2, ?_⟩
        intro x hx y hy
        have h1 := (hb1 x hx).2
        have h2 := (hb2 y hy).1
        simp at h1 h2
        exact lt_of_lt_of_le h1 h2
      · intro x hx
        rw [List.mem_append] at hx
        rcases hx with hx | hx
        · refine ⟨(hb1 x hx).1, ?_⟩
          have h1 := (hb1 x hx).2
          simp at h1
          exact above_trans hv (le_of_lt h1)
        · refine ⟨?_, (hb2 x hx).2⟩
          have h2 := (hb2 x hx).1
          simp at h2
          exact below_of_oLt hlo h2

/-- The keys of a well-formed subtree are strictly ascending and inside its bounds. -/
theorem WF_keys {N : Nat} : ∀ (h : Nat) {lo hi : Option α} {t : Node α},
    WF N h lo t hi → t.keys.Pairwise (· < ·) ∧ ∀ x ∈ t.keys, below lo x ∧ above x hi := by
  intro h
  induction h with
  | zero =>
    intro lo hi t hw
    obtain ⟨a, vs, nx, rfl, hs, hb⟩ := WF_zero_inv hw
    simpa using ⟨hs, hb⟩
  | succ h ih =>
    intro lo hi t hw
    obtain ⟨vs, cs, rfl, hseps⟩ := WF_succ_inv hw
    rw [keys_int]
    exact Seps_keys (fun l c u hc => ih hc.1) hseps

theorem WF_height {N : Nat} : ∀ (h : Nat) {lo hi : Option α} {t : Node α},
    WF N h lo t hi → t.height = h + 1 := by
  intro h
  induction h with
  | zero =>
    intro lo hi t hw
    obtain ⟨a, vs, nx, rfl, _⟩ := WF_zero_inv hw
    simp
  | succ h ih =>
    intro lo hi t hw
    obtain ⟨vs, cs, rfl, hseps⟩ := WF_succ_inv hw
    have hne : cs ≠ [] := by
      intro e; subst e; exact Seps_nil_false hseps
    rw [height_int, heightList_eq cs (h + 1) hne]
    intro c hc
    obtain ⟨l, u, hP⟩ := Seps_forall hseps c hc
    exact ih hP.1

theorem mem_leavesList {l : Leaf α} {cs : List (Node α)} :
    l ∈ leavesList cs ↔ ∃ c ∈ cs, l ∈ c.leaves := by
  induction cs with
  | nil => simp
  | cons c cs ih => simp [ih]

/-- Below a node that holds its minimal fill, no leaf is empty. -/
theorem leaves_values_ne {N : Nat} (hN : 1 ≤ N) : ∀ (h : Nat) {lo hi : Option α} {c : Node α},
    WF N h lo c hi → lowOK N c → ∀ l ∈ c.leaves, l.values ≠ [] := by
  intro h
  induction h with
  | zero =>
    intro lo hi c hw hl l hlm
    obtain ⟨a, vs, nx, rfl, _⟩ := WF_zero_inv hw
    simp at hlm; subst hlm
    simp only [lowOK] at hl
    intro e
    simp at e
    rw [e] at hl
    simp at hl
    omega
  | succ h ih =>
    intro lo hi c hw _ l hlm
    obtain ⟨vs, cs, rfl, hseps⟩ := WF_succ_inv hw
    rw [leaves_int, mem_leavesList] at hlm
    obtain ⟨d, hd, hld⟩ := hlm
    obtain ⟨l1, u1, hP⟩ := Seps_forall hseps d hd
    exact ih hP.1 hP.2.1 l hld

/-- Below an internal node, no leaf is empty. -/
theorem leaves_values_ne_int {N : Nat} (hN : 1 ≤ N) {h : Nat} {lo hi : Option α}
    {vs : List α} {cs : List (Node α)} (hw : WF N (h + 1) lo (Node.int vs cs) hi) :
    ∀ l ∈ (Node.int vs cs).leaves, l.values ≠ [] := by
  intro l hlm
  rw [WF_int_iff] at hw
  rw [leaves_int, mem_leavesList] at hlm
  obtain ⟨d, hd, hld⟩ := hlm
  obtain ⟨l1, u1, hP⟩ := Seps_forall hw d hd
  exact leaves_values_ne hN h hP.1 hP.2.1 l hld

theorem leaves_ne_nil {N : Nat} : ∀ (h : Nat) {lo hi : Option α} {t : Node α},
    WF N h lo t hi → t.leaves ≠ [] := by
  intro h
  induction h with
  | zero =>
    intro lo hi t hw
    obtain ⟨a, vs, nx, rfl, _⟩ := WF_zero_inv hw
    simp
  | succ h ih =>
    intro lo hi t hw
    obtain ⟨vs, cs, rfl, hseps⟩ := WF_succ_inv hw
    match cs, hseps with
    | [], hseps => exact absurd hseps Seps_nil_false
    | c :: cs, hseps =>
      obtain ⟨l1, u1, hP⟩ := Seps_forall hseps c (by simp)
      have := ih hP.1
      simp [this]

/-- Keys below the children of a prefix are strictly below its last separator. -/
theorem PreS_keys
    (hP : ∀ l c u, P l c u → ∀ x ∈ c.keys, below l x ∧ above x u) :
    ∀ {vs : List α} {cs : List (Node α)} {lo m : Option α},
    PreS P lo vs cs m → ∀ x ∈ leafKeys (leavesList cs), ∃ mv, m = some mv ∧ x < mv := by
  intro vs
  induction vs with
  | nil =>
    intro cs lo m h x hx
    match cs, h with
    | [], h => simp at hx
  | cons v vs ih =>
    intro cs lo m h x hx
    match cs, h with
    | c :: cs, h =>
      simp only [PreS] at h
      obtain ⟨hc, _, hrest⟩ := h
      simp only [leavesList_cons, leafKeys_append, List.mem_append] at hx
      rcases hx with hx | hx
      · have h1 := (hP _ _ _ hc x hx).2
        simp at h1
        rcases PreS_last hrest with ⟨h2, _⟩ | ⟨w, hw, h2⟩
        · exact ⟨v, h2, h1⟩
        · obtain ⟨⟨mv, hmv, _⟩, hlt⟩ := PreS_le_last hrest w hw
          simp at hlt
          exact ⟨w, h2, lt_trans h1 hlt⟩
      · exact ih hrest x hx

/-- Keys below the children of a suffix are at or above its first separator. -/
theorem SufS_keys
    (hP : ∀ l c u, P l c u → c.keys.Pairwise (· < ·) ∧ ∀ x ∈ c.keys, below l x ∧ above x u)
    {vs : List α} {cs : List (Node α)} {hi : Option α}
    (h : SufS P vs cs hi) : ∀ x ∈ leafKeys (leavesList cs), ∃ u, ubOf vs hi = some u ∧ u ≤ x := by
  intro x hx
  match vs, cs, h with
  | [], [], _ => simp at hx
  | v :: vs, cs, h =>
    simp only [SufS] at h
    have := ((Seps_keys hP h).2 x hx).1
    simp at this
    exact ⟨v, rfl, this⟩

theorem set_eq_take_cons_drop {β : Type} (l : List β) (p : Nat) (x : β) (hp : p < l.length) :
    l.set p x = l.take p ++ x :: l.drop (p + 1) := by
  rw [List.set_eq_take_append_cons_drop, if_pos hp]

theorem eq_take_cons_drop {β : Type} (l : List β) (p : Nat) (c : β) (h : l[p]? = some c) :
    l = l.take p ++ c :: l.drop (p + 1) := by
  rw [List.getElem?_eq_some] at h
  obtain ⟨hp, rfl⟩ := h
  rw [List.getElem_cons_drop, List.take_append_drop]

/-- Rebuild a node after its child `p` was replaced. -/
theorem Seps_set {vs : List α} {cs : List (Node α)} {lo hi m : Option α} {p : Nat}
    {c1 : Node α} (hp : p < cs.length)
    (h1 : PreS P lo (vs.take p) (cs.take p) m)
    (h2 : P m c1 (ubOf (vs.drop p) hi)) (h3 : oLt m (ubOf (vs.drop p) hi))
    (h4 : SufS P (vs.drop p) (cs.drop (p + 1)) hi) :
    Seps P lo vs (cs.set p c1) hi := by
  have := Seps_of_PreS h1 ((Seps_cons_iff _ _ _ _ _).mpr ⟨h2, h3, h4⟩)
  rw [List.take_append_drop, ← set_eq_take_cons_drop _ _ _ hp] at this
  exact this

/-- Descent by `find_child_pos`: the routed child exists, the probe lies inside its
bounds, and it is the only child that can hold the probe. -/
theorem descend {N h : Nat} {lo hi : Option α} {vs : List α} {cs : List (Node α)} {k : α}
    (hw : WF N (h + 1) lo (Node.int vs cs) hi) (hlo : below lo k) (hhi : above k hi) :
    ∃ m c, find_child_pos vs k ≤ vs.length ∧ cs[find_child_pos vs k]? = some c ∧
      PreS (fun l c u => WF N h l c u ∧ lowOK N c ∧ c.size ≤ 2 * N) lo
        (vs.take (find_child_pos vs k)) (cs.take (find_child_pos vs k)) m ∧
      WF N h m c (ubOf (vs.drop (find_child_pos vs k)) hi) ∧ lowOK N c ∧ c.size ≤ 2 * N ∧
      oLt m (ubOf (vs.drop (find_child_pos vs k)) hi) ∧
      SufS (fun l c u => WF N h l c u ∧ lowOK N c ∧ c.size ≤ 2 * N)
        (vs.drop (find_child_pos vs k)) (cs.drop (find_child_pos vs k + 1)) hi ∧
      below m k ∧ above k (ubOf (vs.drop (find_child_pos vs k)) hi) ∧
      (k ∈ (Node.int vs cs).keys ↔ k ∈ c.keys) := by
  rw [WF_int_iff] at hw
  obtain ⟨hsorted, _, _⟩ := Seps_sorted hw
  obtain ⟨hp, htake, hdrop⟩ := find_child_pos_spec vs k hsorted
  obtain ⟨m, c, hc, hpre, hwc, hlt, hsuf⟩ := Seps_focus (find_child_pos vs k) hw hp
  have hm : below m k := by
    rcases PreS_last hpre with ⟨h1, _⟩ | ⟨v, hv, h1⟩
    · rw [h1]; exact hlo
    · rw [h1]; simpa using htake v hv
  have hu : above k (ubOf (vs.drop (find_child_pos vs k)) hi) := by
    rcases ubOf_mem (vs.drop (find_child_pos vs k)) hi with h1 | ⟨v, hv, h1⟩
    · rw [h1]; exact hhi
    · rw [h1]; simpa using hdrop v hv
  refine ⟨m, c, hp, hc, hpre, hwc.1, hwc.2.1, hwc.2.2, hlt, hsuf, hm, hu, ?_⟩
  have hP : ∀ (l : Option α) (c : Node α) (u : Option α),
      (WF N h l c u ∧ lowOK N c ∧ c.size ≤ 2 * N) →
      c.keys.Pairwise (· < ·) ∧ ∀ x ∈ c.keys, below l x ∧ above x u :=
    fun l c u hc => WF_keys h hc.1
  have e := eq_take_cons_drop cs _ c hc
  rw [keys_int]
  conv_lhs => rw [e]
  rw [leavesList_append, leavesList_cons, leafKeys_append, leafKeys_append]
  simp only [List.mem_append]
  constructor
  · rintro (h1 | h1 | h1)
    · obtain ⟨mv, hmv, hlt⟩ := PreS_keys (fun l c u hc => (hP l c u hc).2) hpre k h1
      rw [hmv] at hm; simp at hm
      exact absurd (lt_of_lt_of_le hlt hm) (lt_irrefl _)
    · exact h1
    · obtain ⟨u, hu1, hle⟩ := SufS_keys hP hsuf k h1
      rw [hu1] at hu; simp at hu
      exact absurd (lt_of_lt_of_le hu hle) (lt_irrefl _)
  · intro h1; exact Or.inr (Or.inl h1)

/-- Source `find`: the descent ends in the leaf slot that holds the probe, or in the
end iterator when no leaf holds it. -/
theorem find_spec {N : Nat} : ∀ (h : Nat) {lo hi : Option α} {t : Node α} {k : α},
    WF N h lo t hi → below lo k → above k hi →
    ∃ it, find (h + 1) t k = some it ∧
      ((k ∈ t.keys ∧ ∃ l ∈ t.leaves, it.current = some l.addr ∧ l.values[it.pos]? = some k) ∨
       (k ∉ t.keys ∧ it = Iterator.endIt)) := by
  intro h
  induction h with
  | zero =>
    intro lo hi t k hw _ _
    obtain ⟨a, vs, nx, rfl, hs, _⟩ := WF_zero_inv hw
    by_cases hpos : 0 ≤ findpos vs k
    · have hmem := (findpos_nonneg_iff vs k hs).mp hpos
      refine ⟨⟨some a, (findpos vs k).toNat⟩, ?_, Or.inl ⟨by simpa using hmem, ?_⟩⟩
      · simp [find, not_lt.mpr hpos]
      · exact ⟨⟨a, vs, nx⟩, by simp, rfl, findpos_found vs k hs hpos⟩
    · have hmem : k ∉ vs := fun hm => hpos ((findpos_nonneg_iff vs k hs).mpr hm)
      refine ⟨Iterator.endIt, ?_, Or.inr ⟨by simpa using hmem, rfl⟩⟩
      simp [find, not_le.mp hpos]
  | succ h ih =>
    intro lo hi t k hw hlo hhi
    obtain ⟨vs, cs, rfl, _⟩ := WF_succ_inv hw
    obtain ⟨m, c, hp, hc, hpre, hwc, _, _, _, hsuf, hm, hu, hiff⟩ := descend hw hlo hhi
    obtain ⟨it, hfind, hres⟩ := ih hwc hm hu
    refine ⟨it, ?_, ?_⟩
    · simp only [find, List.get?_eq_getElem?, hc]
      exact hfind
    · rcases hres with ⟨hk, l, hl, h1, h2⟩ | ⟨hk, h1⟩
      · left
        refine ⟨hiff.mpr hk, l, ?_, h1, h2⟩
        rw [leaves_int, mem_leavesList]
        exact ⟨c, mem_of_getElem?_eq hc, hl⟩
      · right
        exact ⟨fun hk1 => hk (hiff.mp hk1), h1⟩

end WFLemmas

/-! ### Effect of operations on the leaf list -/

section LPresLemmas
variable {α : Type}

theorem LPres_refl (f : Nat) (ls : List (Leaf α)) : LPres f f ls ls :=
  ⟨le_refl _, fun _ _ h => h, fun l hl => Or.inl ⟨l, hl, rfl⟩, fun h _ => h⟩

theorem LPres_addrOK {f f1 : Nat} {ls ls1 : List (Leaf α)} (h : LPres f f1 ls ls1)
    (ha : AddrOK f ls) : AddrOK f1 ls1 := by
  refine ⟨h.nodup ha.1 ha.2, ?_⟩
  intro l1 hl1
  rcases h.addr l1 hl1 with ⟨l, hl, e⟩ | ⟨_, h2⟩
  · rw [← e]; exact lt_of_lt_of_le (ha.2 l hl) h.mono
  · exact h2

theorem LPres_trans {f f1 f2 : Nat} {ls ls1 ls2 : List (Leaf α)}
    (h1 : LPres f f1 ls ls1) (h2 : LPres f1 f2 ls1 ls2) : LPres f f2 ls ls2 := by
  refine ⟨le_trans h1.mono h2.mono, fun e x h => h2.chain e x (h1.chain e x h), ?_, ?_⟩
  · intro l2 hl2
    rcases h2.addr l2 hl2 with ⟨l1, hl1, e1⟩ | ⟨h3, h4⟩
    · rcases h1.addr l1 hl1 with ⟨l, hl, e⟩ | ⟨h5, h6⟩
      · exact Or.inl ⟨l, hl, e.trans e1⟩
      · right; rw [← e1]; exact ⟨h5, lt_of_lt_of_le h6 h2.mono⟩
    · right; exact ⟨le_trans h1.mono h3, h4⟩
  · intro hn hlt
    have := LPres_addrOK h1 ⟨hn, hlt⟩
    exact h2.nodup this.1 this.2

theorem LPres_context {f f1 : Nat} {ls ls1 : List (Leaf α)} (h : LPres f f1 ls ls1)
    (A B : List (Leaf α)) : LPres f f1 (A ++ ls ++ B) (A ++ ls1 ++ B) := by
  refine ⟨h.mono, ?_, ?_, ?_⟩
  · intro e x hc
    rw [Chain_append, ] at hc ⊢
    obtain ⟨m, hc1, hc2⟩ := hc
    rw [Chain_append] at hc1
    obtain ⟨m1, hc3, hc4⟩ := hc1
    exact ⟨m, (Chain_append _ _ _ _).mpr ⟨m1, hc3, h.chain _ _ hc4⟩, hc2⟩
  · intro l1 hl1
    simp only [List.mem_append] at hl1
    rcases hl1 with (hl1 | hl1) | hl1
    · exact Or.inl ⟨l1, by simp [hl1], rfl⟩
    · rcases h.addr l1 hl1 with ⟨l, hl, e⟩ | h2
      · exact Or.inl ⟨l, by simp [hl], e⟩
      · exact Or.inr h2
    · exact Or.inl ⟨l1, by simp [hl1], rfl⟩
  · intro hn hlt
    have hlt1 : ∀ l ∈ ls, l.addr < f := fun l hl => hlt l (by simp [hl])
    have hltA : ∀ l ∈ A, l.addr < f := fun l hl => hlt l (by simp [hl])
    have hltB : ∀ l ∈ B, l.addr < f := fun l hl => hlt l (by simp [hl])
    simp only [List.map_append, List.nodup_append, List.disjoint_left, List.mem_append,
      List.mem_map] at hn ⊢
    obtain ⟨⟨hA, hls, hAls⟩, hB, hAB⟩ := hn
    have key : ∀ a, (∃ l1 ∈ ls1, l1.addr = a) → (∃ l ∈ ls, l.addr = a) ∨ f ≤ a := by
      rintro a ⟨l1, hl1, rfl⟩
      rcases h.addr l1 hl1 with ⟨l, hl, e⟩ | h2
      · exact Or.inl ⟨l, hl, e⟩
      · exact Or.inr h2.1
    refine ⟨⟨hA, h.nodup hls hlt1, ?_⟩, hB, ?_⟩
    · rintro a ⟨l, hl, rfl⟩ h2
      rcases key _ h2 with h3 | h3
      · exact hAls ⟨l, hl, rfl⟩ h3
      · have := hltA l hl; omega
    · rintro a (⟨l, hl, rfl⟩ | h2) h3
      · exact hAB (Or.inl ⟨l, hl, rfl⟩) h3
      · rcases key _ h2 with h4 | h4
        · exact hAB (Or.inr h4) h3
        · obtain ⟨l, hl, rfl⟩ := h3
          have := hltB l hl; omega

theorem LPres_update (f a : Nat) (vs vs1 : List α) (nx : Option Nat) :
    LPres f f [(⟨a, vs, nx⟩ : Leaf α)] [⟨a, vs1, nx⟩] := by
  refine ⟨le_refl _, ?_, ?_, ?_⟩
  · intro e x h; simpa using h
  · intro l1 hl1; left; simp at hl1; subst hl1; exact ⟨⟨a, vs, nx⟩, by simp, rfl⟩
  · intro h _; simpa using h

theorem LPres_split (f a : Nat) (vs vs1 vs2 : List α) (nx : Option Nat) :
    LPres f (f + 1) [(⟨a, vs, nx⟩ : Leaf α)] [⟨a, vs1, some f⟩, ⟨f, vs2, nx⟩] := by
  refine ⟨by omega, ?_, ?_, ?_⟩
  · intro e x h; simpa using h
  · intro l1 hl1
    simp at hl1
    rcases hl1 with rfl | rfl
    · left; exact ⟨⟨a, vs, nx⟩, by simp, rfl⟩
    · right; simp
  · intro _ hlt
    have := hlt ⟨a, vs, nx⟩ (by simp)
    simp at this ⊢
    omega

theorem LPres_merge (f a b : Nat) (vs1 vs2 vs : List α) (nx1 nx2 : Option Nat) :
    LPres f f [(⟨a, vs1, nx1⟩ : Leaf α), ⟨b, vs2, nx2⟩]
      [⟨a, vs, if nx1 = some b then nx2 else nx1⟩] := by
  refine ⟨le_refl _, ?_, ?_, ?_⟩
  · intro e x h
    simp at h ⊢
    obtain ⟨h1, h2, h3⟩ := h
    simp [h1, h2, h3]
  · intro l1 hl1; left; simp at hl1; subst hl1; exact ⟨⟨a, vs1, nx1⟩, by simp, rfl⟩
  · intro h _; simp

/-- Leaves of an internal node around its child `p`. -/
theorem leavesList_focus {cs : List (Node α)} {p : Nat} {c : Node α} (h : cs[p]? = some c) :
    leavesList cs = leavesList (cs.take p) ++ c.leaves ++ leavesList (cs.drop (p + 1)) := by
  conv_lhs => rw [eq_take_cons_drop cs p c h]
  rw [leavesList_append, leavesList_cons, List.append_assoc]

theorem leavesList_set {cs : List (Node α)} {p : Nat} {c1 : Node α} (hp : p < cs.length) :
    leavesList (cs.set p c1) =
      leavesList (cs.take p) ++ c1.leaves ++ leavesList (cs.drop (p + 1)) := by
  rw [set_eq_take_cons_drop _ _ _ hp, leavesList_append, leavesList_cons, List.append_assoc]

theorem set_self {β : Type} {l : List β} {p : Nat} {c : β} (h : l[p]? = some c) :
    l.set p c = l := by
  rw [List.getElem?_eq_some] at h
  obtain ⟨hp, rfl⟩ := h
  rw [set_eq_take_cons_drop _ _ _ hp, List.getElem_cons_drop, List.take_append_drop]

theorem take_mid {β : Type} (A B : List β) (x : β) :
    (A ++ x :: B).take (A.length + 1) = A ++ [x] := by
  rw [List.take_append_eq_append_take]
  simp

theorem drop_mid {β : Type} (A B : List β) (x : β) :
    (A ++ x :: B).drop (A.length + 1) = B := by
  rw [List.drop_append_eq_append_drop]
  simp

theorem take_set_succ {β : Type} (cs : List β) (p : Nat) (x : β) (hp : p < cs.length) :
    (cs.set p x).take (p + 1) = cs.take p ++ [x] := by
  have h1 : (cs.take p).length = p := by simp; omega
  have := take_mid (cs.take p) (cs.drop (p + 1)) x
  rw [h1] at this
  rw [set_eq_take_cons_drop _ _ _ hp]
  exact this

theorem drop_set_succ {β : Type} (cs : List β) (p : Nat) (x : β) (hp : p < cs.length) :
    (cs.set p x).drop (p + 1) = cs.drop (p + 1) := by
  have h1 : (cs.take p).length = p := by simp; omega
  have := drop_mid (cs.take p) (cs.drop (p + 1)) x
  rw [h1] at this
  rw [set_eq_take_cons_drop _ _ _ hp]
  exact this

theorem writeAt_shift {β : Type} (cs : List β) (p : Nat) (x : β) (hp : p < cs.length) :
    writeAt (cs.take (p + 2) ++ cs.drop (p + 1)) (p + 1) x =
      some (cs.take (p + 1) ++ x :: cs.drop (p + 1)) := by
  unfold writeAt
  by_cases h : p + 1 < cs.length
  · have hlen : p + 1 < (cs.take (p + 2) ++ cs.drop (p + 1)).length := by
      simp; omega
    rw [if_pos hlen]
    congr 1
    have e : cs.take (p + 2) = cs.take (p + 1) ++ [cs[p + 1]] := by
      rw [List.take_succ, List.getElem?_eq_getElem h]; rfl
    rw [e, List.append_assoc, List.set_append_right _ _ (by simp)]
    simp
    have : p + 1 - min (p + 1) cs.length = 0 := by omega
    rw [this]; simp
  · have hlen : (cs.take (p + 2) ++ cs.drop (p + 1)).length = p + 1 := by
      simp; omega
    rw [if_neg (by omega), if_pos hlen.symm]
    congr 1
    have h1 : cs.take (p + 2) = cs := List.take_of_length_le (by omega)
    have h2 : cs.drop (p + 1) = [] := List.drop_of_length_le (by omega)
    have h3 : cs.take (p + 1) = cs := List.take_of_length_le (by omega)
    rw [h1, h2, h3]; simp

end LPresLemmas

/-! ### `split` -/

section SplitLemmas
variable {α : Type} [LinearOrder α]

theorem ite01 (h : Nat) : (if h = 0 then (0 : Nat) else 1) ≤ 1 := by
  split <;> omega

/-- Minimal fill in terms of the height: `N` keys in a leaf, `N - 1` (and at least
one) in an internal node. -/
theorem lowOK_iff {N h : Nat} {lo hi : Option α} {t : Node α} (hw : WF N h lo t hi) :
    lowOK N t ↔ N ≤ t.size + (if h = 0 then 0 else 1) ∧ (if h = 0 then 0 else 1) ≤ t.size := by
  cases h with
  | zero =>
    obtain ⟨a, vs, nx, rfl, _⟩ := WF_zero_inv hw
    simp [lowOK]
  | succ h =>
    obtain ⟨vs, cs, rfl, _⟩ := WF_succ_inv hw
    simp [lowOK]

theorem lowOK_of_size {N h : Nat} {lo hi lo1 hi1 : Option α} {t t1 : Node α}
    (hw : WF N h lo t hi) (hw1 : WF N h lo1 t1 hi1) (hl : lowOK N t)
    (hs : t.size ≤ t1.size) : lowOK N t1 := by
  cases h with
  | zero =>
    obtain ⟨a, vs, nx, rfl, _⟩ := WF_zero_inv hw
    obtain ⟨a1, vs1, nx1, rfl, _⟩ := WF_zero_inv hw1
    simp [lowOK] at *
    omega
  | succ h =>
    obtain ⟨vs, cs, rfl, _⟩ := WF_succ_inv hw
    obtain ⟨vs1, cs1, rfl, _⟩ := WF_succ_inv hw1
    simp [lowOK] at *
    omega

/-- Source `split(split_at)` on a well-formed node: both halves are well formed around
the separator that the caller installs, no key is lost, and a leaf split links the new
leaf into the chain. -/
theorem split_WF {N h : Nat} {lo hi : Option α} {t : Node α} (fresh i : Nat)
    (hw : WF N h lo t hi) (hi1 : i < t.size) (hleaf : h = 0 → i + 1 < t.size) :
    ∃ sp s, split fresh t i = some sp ∧ new_index sp.sep sp.right = some s ∧
      WF N h lo sp.left (some s) ∧ WF N h (some s) sp.right hi ∧
      oLt lo (some s) ∧ above s hi ∧
      sp.left.size + (if h = 0 then 0 else 1) = i + 1 ∧ sp.right.size + i + 1 = t.size ∧
      LPres fresh sp.fresh t.leaves (sp.left.leaves ++ sp.right.leaves) ∧
      sp.left.keys ++ sp.right.keys = t.keys ∧
      (h = 0 → sp.sep = none ∧ sp.right.values.head? = some s) ∧
      (h ≠ 0 → sp.sep = some s) := by
  cases h with
  | zero =>
    obtain ⟨a, vs, nx, rfl, hs, hb⟩ := WF_zero_inv hw
    simp only [size_ext] at hi1
    have hi2 : i + 1 < vs.length := by simpa using hleaf rfl
    have hget : vs[i + 1]? = some vs[i + 1] := List.getElem?_eq_getElem hi2
    obtain ⟨hl, hr⟩ := sorted_split_at hs hget
    have hdrop : vs.drop (i + 1) = vs[i + 1] :: vs.drop (i + 1 + 1) :=
      List.drop_eq_getElem_cons hi2
    have hmem : vs[i + 1] ∈ vs := List.getElem_mem _
    have hhead : (vs.drop (i + 1)).head? = some vs[i + 1] := by
      rw [hdrop]; rfl
    refine ⟨⟨.ext a (vs.take (i + 1)) (some fresh), .ext fresh (vs.drop (i + 1)) nx, none,
      fresh + 1⟩, vs[i + 1], ?_, ?_, ?_, ?_, ?_, (hb _ hmem).2, ?_, ?_, ?_, ?_, ?_, ?_⟩
    · simp [split, hi1]
    · simp only [new_index, Node.values]; exact hhead
    · rw [WF_ext_iff]
      refine ⟨hs.sublist (List.take_sublist _ _), fun x hx => ⟨(hb x (List.mem_of_mem_take hx)).1, ?_⟩⟩
      simpa using hl x hx
    · rw [WF_ext_iff]
      refine ⟨hs.sublist (List.drop_sublist _ _), fun x hx => ⟨?_, (hb x (List.mem_of_mem_drop hx)).2⟩⟩
      rw [hdrop] at hx
      simp only [List.mem_cons] at hx
      rcases hx with rfl | hx
      · simp
      · simpa using le_of_lt (hr x hx)
    · have h0 : vs[i] ∈ vs.take (i + 1) := by
        rw [List.mem_take_iff_getElem]
        exact ⟨i, by simp; omega, rfl⟩
      have h1 := hl _ h0
      have h2 := (hb _ (List.mem_of_mem_take h0)).1
      cases lo with
      | none => simp
      | some l => simp at h2 ⊢; exact lt_of_le_of_lt h2 h1
    · simp; omega
    · simp; omega
    · simpa using LPres_split fresh a vs (vs.take (i + 1)) (vs.drop (i + 1)) nx
    · simp
    · intro _; exact ⟨rfl, by simpa [Node.values] using hhead⟩
    · intro h0; exact absurd rfl h0
  | succ h =>
    obtain ⟨vs, cs, rfl, hseps⟩ := WF_succ_inv hw
    simp only [size_int] at hi1
    obtain ⟨s, hs1, hs2, hs3⟩ := Seps_split i hseps hi1
    obtain ⟨_, hb, _⟩ := Seps_sorted hseps
    have hmem : s ∈ vs := mem_of_getElem?_eq hs1
    refine ⟨⟨.int (vs.take i) (cs.take (i + 1)), .int (vs.drop (i + 1)) (cs.drop (i + 1)),
      vs.get? i, fresh⟩, s, ?_, ?_, ?_, ?_, (hb s hmem).1, (hb s hmem).2, ?_, ?_, ?_, ?_, ?_, ?_⟩
    · simp [split, hi1]
    · simp [new_index, hs1]
    · rw [WF_int_iff]; exact hs2
    · rw [WF_int_iff]; exact hs3
    · simp; omega
    · simp; omega
    · simp only [leaves_int, ← leavesList_append, List.take_append_drop]
      exact LPres_refl _ _
    · simp only [keys_int, ← leafKeys_append, ← leavesList_append, List.take_append_drop]
    · intro h0; omega
    · intro _; simpa using hs1

/-- Inserting a key at its insertion index keeps a leaf strictly ascending. -/
theorem pairwise_insert {vs : List α} {k : α} {j : Nat} (hs : vs.Pairwise (· < ·))
    (h1 : ∀ x ∈ vs.take j, x < k) (h2 : ∀ x ∈ vs.drop j, k < x) :
    (vs.take j ++ k :: vs.drop j).Pairwise (· < ·) := by
  rw [List.pairwise_append]
  refine ⟨hs.sublist (List.take_sublist _ _), ?_, ?_⟩
  · rw [List.pairwise_cons]
    exact ⟨h2, hs.sublist (List.drop_sublist _ _)⟩
  · intro x hx y hy
    simp only [List.mem_cons] at hy
    rcases hy with rfl | hy
    · exact h1 x hx
    · exact lt_trans (h1 x hx) (h2 y hy)

omit [LinearOrder α] in
theorem perm_insert (vs : List α) (k : α) (j : Nat) :
    (vs.take j ++ k :: vs.drop j).Perm (k :: vs) := by
  have : (vs.take j ++ k :: vs.drop j).Perm (k :: (vs.take j ++ vs.drop j)) :=
    List.perm_middle
  rwa [List.take_append_drop] at this

end SplitLemmas

/-! ### `add_elem` -/

section AddElem
variable {α : Type} [LinearOrder α]

theorem add_elem_leaf {N : Nat} {lo hi : Option α} {a : Nat} {vs : List α} {nx : Option Nat}
    (fresh : Nat) {k : α} (hw : WF N 0 lo (Node.ext a vs nx) hi) (hsz : vs.length ≤ 2 * N)
    (hlo : below lo k) (hhi : above k hi) :
    ∃ r, add_elem N 1 (Node.ext a vs nx) fresh k = some r ∧
      InsPost N 0 lo hi (Node.ext a vs nx) fresh k r := by
  rw [WF_ext_iff] at hw
  obtain ⟨hs, hb⟩ := hw
  by_cases hpos : 0 ≤ findpos vs k
  · have hmem := (findpos_nonneg_iff vs k hs).mp hpos
    refine ⟨⟨.ext a vs nx, fresh, ⟨some a, (findpos vs k).toNat⟩, InsertState.EXISTS⟩, ?_, ?_⟩
    · simp [add_elem, hpos]
    · refine ⟨LPres_refl _ _, WF_ext_iff.mpr ⟨hs, hb⟩, ?_, ?_, ?_, ?_, ?_⟩
      · exact ⟨⟨a, vs, nx⟩, by simp, rfl, findpos_found vs k hs hpos⟩
      · intro _; exact ⟨rfl, rfl, by simpa using hmem⟩
      · intro h; exact absurd rfl h
      · intro _; simpa using hsz
      · intro h; cases h
  · obtain ⟨hj, h1, h2⟩ := findpos_insert vs k hs hpos
    have hmem : k ∉ vs := fun hm => hpos ((findpos_nonneg_iff vs k hs).mpr hm)
    generalize hjdef : (invert (findpos vs k)).toNat = j at hj h1 h2
    have hins : insert_at N vs k j = some (vs.take j ++ k :: vs.drop j) := by
      simp [insert_at, hj, hsz]
    have hlen : (vs.take j ++ k :: vs.drop j).length = vs.length + 1 := by
      simp; omega
    refine ⟨⟨.ext a (vs.take j ++ k :: vs.drop j) nx, fresh, ⟨some a, j⟩,
      if (vs.take j ++ k :: vs.drop j).length ≤ 2 * N then InsertState.SUCCESS
      else InsertState.TRIGGER_SPLIT⟩, ?_, ?_⟩
    · simp only [add_elem, hpos, if_false, hjdef, hins]
    · refine ⟨?_, ?_, ?_, ?_, ?_, ?_, ?_⟩
      · simpa using LPres_update fresh a vs (vs.take j ++ k :: vs.drop j) nx
      · rw [WF_ext_iff]
        refine ⟨pairwise_insert hs h1 h2, ?_⟩
        intro x hx
        rw [List.mem_append, List.mem_cons] at hx
        rcases hx with hx | rfl | hx
        · exact hb x (List.mem_of_mem_take hx)
        · exact ⟨hlo, hhi⟩
        · exact hb x (List.mem_of_mem_drop hx)
      · refine ⟨⟨a, vs.take j ++ k :: vs.drop j, nx⟩, by simp, rfl, ?_⟩
        simp only []
        rw [List.getElem?_append_right (by simp), List.length_take, min_eq_left hj]
        simp
      · intro h
        simp only [] at h
        split at h <;> cases h
      · intro _
        refine ⟨by simpa using hmem, by simpa using perm_insert vs k j, ?_⟩
        simp only [size_ext, hlen]; omega
      · intro h
        simp only [size_ext]
        simp only [] at h
        by_contra hc
        rw [if_neg hc] at h
        exact h rfl
      · intro h
        simp only [size_ext]
        simp only [] at h
        by_cases hc : (vs.take j ++ k :: vs.drop j).length ≤ 2 * N
        · rw [if_pos hc] at h; cases h
        · rw [hlen] at hc ⊢; omega

omit [LinearOrder α] in
theorem leafKeys_perm_context {A B X Y : List (Leaf α)} {k : α}
    (h : (leafKeys Y).Perm (k :: leafKeys X)) :
    (leafKeys (A ++ Y ++ B)).Perm (k :: leafKeys (A ++ X ++ B)) := by
  simp only [leafKeys_append]
  have h1 : (leafKeys A ++ leafKeys Y ++ leafKeys B).Perm
      (leafKeys A ++ (k :: leafKeys X) ++ leafKeys B) :=
    (List.Perm.append_left _ h).append_right _
  refine h1.trans ?_
  simp only [List.append_assoc, List.cons_append]
  exact List.perm_middle

theorem add_elem_spec {N : Nat} (hN : 1 ≤ N) :
    ∀ (h : Nat) {lo hi : Option α} {t : Node α} (fresh : Nat) {k : α},
    WF N h lo t hi → t.size ≤ 2 * N → below lo k → above k hi →
    ∃ r, add_elem N (h + 1) t fresh k = some r ∧ InsPost N h lo hi t fresh k r := by
  intro h
  induction h with
  | zero =>
    intro lo hi t fresh k hw hsz hlo hhi
    obtain ⟨a, vs, nx, rfl, _⟩ := WF_zero_inv hw
    exact add_elem_leaf fresh hw (by simpa using hsz) hlo hhi
  | succ h ih =>
    intro lo hi t fresh k hw hsz hlo hhi
    obtain ⟨vs, cs, rfl, hseps⟩ := WF_succ_inv hw
    simp only [size_int] at hsz
    obtain ⟨m, c, hp, hc, hpre, hwc, hlowc, hsizec, hlt, hsuf, hm, hu, hiff⟩ :=
      descend hw hlo hhi
    generalize hpdef : find_child_pos vs k = p at hp hc hpre hwc hlt hsuf hu
    obtain ⟨r, hr, hL, hwr, hit, hex, hnex, hnsp, hspl⟩ := ih fresh hwc hsizec hm hu
    have hplen : p < cs.length := by
      rw [List.getElem?_eq_some] at hc; exact hc.1
    have hleaves : (Node.int vs cs).leaves =
        leavesList (cs.take p) ++ c.leaves ++ leavesList (cs.drop (p + 1)) := by
      rw [leaves_int]; exact leavesList_focus hc
    by_cases hst : r.state = InsertState.TRIGGER_SPLIT
    · -- the child overflowed: split it and install the separator
      have hrsz := hspl hst
      have hne : r.state ≠ InsertState.EXISTS := by rw [hst]; simp
      obtain ⟨hknot, hperm, _⟩ := hnex hne
      have hidx : (r.node.size - 1) / 2 = N := by rw [hrsz]; omega
      obtain ⟨sp, s, hsplit, hnew, hwl, hwrt, hlos, hsu, hlsz, hrsz2, hLs, hkeys, _, _⟩ :=
        split_WF r.fresh N hwr (by omega) (fun _ => by omega)
      have hsorted := (Seps_sorted hseps).1
      have hnewpos : findpos_autoinvert vs s = p := by
        apply findpos_autoinvert_eq vs s hsorted p hp
        · intro x hx
          obtain ⟨⟨mv, hmv, hle⟩, _⟩ := PreS_le_last hpre x hx
          rw [hmv] at hlos; simp at hlos
          exact lt_of_le_of_lt hle hlos
        · exact (ubOf_le hsuf hsu).2
      have hins : insert_at_int N vs (cs.set p sp.left) s p =
          some (vs.take p ++ s :: vs.drop p,
            (cs.set p sp.left).take (p + 2) ++ (cs.set p sp.left).drop (p + 1)) := by
        simp [insert_at_int, insert_at, hp, hsz]
      have hcs2 : (cs.set p sp.left).take (p + 1) ++ sp.right :: (cs.set p sp.left).drop (p + 1)
          = cs.take p ++ sp.left :: sp.right :: cs.drop (p + 1) := by
        rw [take_set_succ _ _ _ hplen, drop_set_succ _ _ _ hplen]
        simp
      have hwrite : writeAt ((cs.set p sp.left).take (p + 2) ++ (cs.set p sp.left).drop (p + 1))
          (p + 1) sp.right = some (cs.take p ++ sp.left :: sp.right :: cs.drop (p + 1)) := by
        rw [writeAt_shift _ _ _ (by simpa using hplen), hcs2]
      -- sizes of the two halves
      have hlowl := lowOK_iff hwl
      have hlowr := lowOK_iff hwrt
      have he := ite01 h
      rw [hrsz] at hrsz2
      generalize (if h = 0 then 0 else 1) = e at hlsz hlowl hlowr he
      have hlsz2 : sp.left.size ≤ 2 * N ∧ sp.right.size ≤ 2 * N := by omega
      replace hlowl : lowOK N sp.left := hlowl.mpr (by omega)
      replace hlowr : lowOK N sp.right := hlowr.mpr (by omega)
      have hwnew : WF N (h + 1) lo
          (Node.int (vs.take p ++ s :: vs.drop p)
            (cs.take p ++ sp.left :: sp.right :: cs.drop (p + 1))) hi := by
        rw [WF_int_iff]
        apply Seps_of_PreS hpre
        rw [Seps_cons_iff]
        refine ⟨⟨hwl, hlowl, hlsz2.1⟩, hlos, ?_⟩
        show Seps _ (some s) (vs.drop p) (sp.right :: cs.drop (p + 1)) hi
        rw [Seps_cons_iff]
        refine ⟨⟨hwrt, hlowr, hlsz2.2⟩, ?_, hsuf⟩
        rw [oLt_some_left]; exact hsu
      have hnewleaves : (Node.int (vs.take p ++ s :: vs.drop p)
            (cs.take p ++ sp.left :: sp.right :: cs.drop (p + 1))).leaves =
          leavesList (cs.take p) ++ (sp.left.leaves ++ sp.right.leaves) ++
            leavesList (cs.drop (p + 1)) := by
        simp [leavesList_append, List.append_assoc]
      have hLnew : LPres fresh sp.fresh (Node.int vs cs).leaves
          (Node.int (vs.take p ++ s :: vs.drop p)
            (cs.take p ++ sp.left :: sp.right :: cs.drop (p + 1))).leaves := by
        rw [hleaves, hnewleaves]
        exact LPres_trans (LPres_context hL _ _) (LPres_context hLs _ _)
      have hpermnew : (Node.int (vs.take p ++ s :: vs.drop p)
            (cs.take p ++ sp.left :: sp.right :: cs.drop (p + 1))).keys.Perm
          (k :: (Node.int vs cs).keys) := by
        simp only [Node.keys]
        rw [hleaves, hnewleaves]
        apply leafKeys_perm_context
        rw [leafKeys_append]
        have : leafKeys sp.left.leaves ++ leafKeys sp.right.leaves = r.node.keys := hkeys
        rw [this]
        exact hperm
      have hkin : k ∈ (Node.int (vs.take p ++ s :: vs.drop p)
            (cs.take p ++ sp.left :: sp.right :: cs.drop (p + 1))).keys :=
        hpermnew.symm.subset (by simp)
      obtain ⟨it, hfind, hres⟩ := find_spec (h + 1) hwnew hlo hhi
      have hit2 : ∃ l ∈ (Node.int (vs.take p ++ s :: vs.drop p)
            (cs.take p ++ sp.left :: sp.right :: cs.drop (p + 1))).leaves,
          it.current = some l.addr ∧ l.values[it.pos]? = some k := by
        rcases hres with ⟨_, h2⟩ | ⟨h1, _⟩
        · exact h2
        · exact absurd hkin h1
      have hlen1 : (vs.take p ++ s :: vs.drop p).length = vs.length + 1 := by
        simp; omega
      refine ⟨⟨Node.int (vs.take p ++ s :: vs.drop p)
            (cs.take p ++ sp.left :: sp.right :: cs.drop (p + 1)), sp.fresh, it,
          if (vs.take p ++ s :: vs.drop p).length ≤ 2 * N then InsertState.SUCCESS
          else InsertState.TRIGGER_SPLIT⟩, ?_, hLnew, hwnew, hit2, ?_, ?_, ?_, ?_⟩
      · simp only [add_elem, List.get?_eq_getElem?, hpdef, hc, hr, hst, if_true, splitDefault,
          hidx, hsplit, hnew, hnewpos, hins, hwrite, hfind]
      · intro h1
        simp only [] at h1
        split at h1 <;> cases h1
      · intro _
        refine ⟨fun hk => hknot (hiff.mp hk), hpermnew, ?_⟩
        simp only [size_int, hlen1]; omega
      · intro h1
        simp only [size_int]
        simp only [] at h1
        by_contra hcn
        rw [if_neg hcn] at h1
        exact h1 rfl
      · intro h1
        simp only [size_int]
        simp only [] at h1
        by_cases hcn : (vs.take p ++ s :: vs.drop p).length ≤ 2 * N
        · rw [if_pos hcn] at h1; cases h1
        · rw [hlen1] at hcn ⊢; omega
    · -- the child absorbed the key (or held it already)
      have hrsz := hnsp hst
      have hlowr : lowOK N r.node := by
        by_cases hex1 : r.state = InsertState.EXISTS
        · rw [(hex hex1).1]; exact hlowc
        · exact lowOK_of_size hwc hwr hlowc (hnex hex1).2.2
      have hwnew : WF N (h + 1) lo (Node.int vs (cs.set p r.node)) hi := by
        rw [WF_int_iff]
        exact Seps_set hplen hpre ⟨hwr, hlowr, hrsz⟩ hlt hsuf
      have hnewleaves : (Node.int vs (cs.set p r.node)).leaves =
          leavesList (cs.take p) ++ r.node.leaves ++ leavesList (cs.drop (p + 1)) := by
        rw [leaves_int]; exact leavesList_set hplen
      refine ⟨⟨Node.int vs (cs.set p r.node), r.fresh, r.it, r.state⟩, ?_, ?_, hwnew, ?_, ?_,
        ?_, ?_, ?_⟩
      · simp only [add_elem, List.get?_eq_getElem?, hpdef, hc, hr, hst, if_false]
      · rw [hleaves, hnewleaves]; exact LPres_context hL _ _
      · obtain ⟨l, hl, h1, h2⟩ := hit
        refine ⟨l, ?_, h1, h2⟩
        rw [hnewleaves]; simp [hl]
      · intro h1
        obtain ⟨e1, e2, e3⟩ := hex h1
        refine ⟨?_, e2, hiff.mpr e3⟩
        simp only []
        rw [e1, set_self hc]
      · intro h1
        obtain ⟨e1, e2, _⟩ := hnex h1
        refine ⟨fun hk => e1 (hiff.mp hk), ?_, le_refl _⟩
        simp only [Node.keys]
        rw [hleaves, hnewleaves]
        exact leafKeys_perm_context e2
      · intro _; simpa using hsz
      · intro h1; exact absurd h1 hst

end AddElem

/-! ### `prepare_merge`, `merge` and redistribution of a sibling pair -/

section PairLemmas
variable {α : Type} [LinearOrder α]

/-- Source `prepare_merge` followed by `merge` on two neighbouring well-formed
siblings around their separator `id`: the result holds the keys (and links) of both,
is well formed between the outer bounds, and the leaf chain skips the absorbed leaf. -/
theorem pull_merge_spec {N h : Nat} {m u : Option α} {id : α} {L R : Node α} (f : Nat)
    (hwL : WF N h m L (some id)) (hwR : WF N h (some id) R u)
    (hmid : oLt m (some id)) (hidu : above id u)
    (hcap : L.size + (if h = 0 then 0 else 1) + R.size ≤ 2 * N + 1) :
    ∃ L2, pull_merge N L R id = some L2 ∧ WF N h m L2 u ∧
      L2.size = L.size + (if h = 0 then 0 else 1) + R.size ∧
      LPres f f (L.leaves ++ R.leaves) L2.leaves ∧ L2.keys = L.keys ++ R.keys := by
  cases h with
  | zero =>
    obtain ⟨a, lv, lnx, rfl, hsl, hbl⟩ := WF_zero_inv hwL
    obtain ⟨b, rv, rnx, rfl, hsr, hbr⟩ := WF_zero_inv hwR
    simp only [size_ext, if_true, Nat.add_zero] at hcap
    refine ⟨.ext a (lv ++ rv) (if lnx = some b then rnx else lnx), ?_, ?_, ?_, ?_, ?_⟩
    · simp [pull_merge, prepare_merge, merge, hcap]
    · rw [WF_ext_iff]
      refine ⟨?_, ?_⟩
      · rw [List.pairwise_append]
        refine ⟨hsl, hsr, fun x hx y hy => ?_⟩
        have h1 := (hbl x hx).2
        have h2 := (hbr y hy).1
        simp at h1 h2
        exact lt_of_lt_of_le h1 h2
      · intro x hx
        rw [List.mem_append] at hx
        rcases hx with hx | hx
        · refine ⟨(hbl x hx).1, ?_⟩
          have h1 := (hbl x hx).2
          simp at h1
          exact above_trans hidu (le_of_lt h1)
        · refine ⟨?_, (hbr x hx).2⟩
          have h2 := (hbr x hx).1
          simp at h2
          exact below_of_oLt hmid h2
    · simp
    · simpa using LPres_merge f a b lv rv (lv ++ rv) lnx rnx
    · simp
  | succ h =>
    obtain ⟨lv, lc, rfl, hsl⟩ := WF_succ_inv hwL
    obtain ⟨rv, rc, rfl, hsr⟩ := WF_succ_inv hwR
    have hlen1 := Seps_length hsl
    have hlen2 := Seps_length hsr
    simp only [size_int] at hcap
    have h0 : ¬ (h + 1 = 0) := by omega
    simp only [h0, if_false] at hcap
    refine ⟨.int (lv ++ id :: rv) (lc ++ rc), ?_, ?_, ?_, ?_, ?_⟩
    · have e1 : lc.take (lv.length + 1) = lc := List.take_of_length_le (by omega)
      have e2 : rc.take (rv.length + 1) = rc := List.take_of_length_le (by omega)
      have c1 : lv.length ≤ 2 * N := by omega
      have c2 : lv.length + 1 + rv.length ≤ 2 * N + 1 := by omega
      have c3 : lv.length + 1 ≤ lc.length := by omega
      simp [pull_merge, prepare_merge, merge, c1, c2, c3, e1, e2]
    · rw [WF_int_iff]; exact Seps_join hsl hsr
    · simp; omega
    · simp only [leaves_int, leavesList_append]; exact LPres_refl _ _
    · simp only [keys_int, leavesList_append, leafKeys_append]

theorem type_of_WF {N h : Nat} {lo hi : Option α} {t : Node α} (hw : WF N h lo t hi) :
    (if t.type = NodeType.INTERNAL then 1 else 0) = (if h = 0 then 0 else 1) := by
  cases h with
  | zero =>
    obtain ⟨a, vs, nx, rfl, _⟩ := WF_zero_inv hw
    simp [Node.type]
  | succ h =>
    obtain ⟨vs, cs, rfl, _⟩ := WF_succ_inv hw
    simp [Node.type]

theorem new_index_merged {N h : Nat} {m u m1 u1 m2 u2 : Option α} {X R R2 : Node α} {s : α}
    {sep : Option α}
    (hwX : WF N h m X u) (hwR : WF N h m1 R u1) (hwR2 : WF N h m2 R2 u2)
    (hkeys : R2.keys = X.keys ++ R.keys)
    (h0 : h = 0 → sep = none ∧ X.values.head? = some s) (h1 : h ≠ 0 → sep = some s) :
    new_index sep R2 = some s := by
  cases h with
  | zero =>
    obtain ⟨e1, e2⟩ := h0 rfl
    obtain ⟨a1, v1, n1, rfl, _⟩ := WF_zero_inv hwR2
    obtain ⟨a2, v2, n2, rfl, _⟩ := WF_zero_inv hwX
    obtain ⟨a3, v3, n3, rfl, _⟩ := WF_zero_inv hwR
    simp only [keys_ext] at hkeys
    simp only [Node.values] at e2
    subst hkeys e1
    simp only [new_index, Node.values]
    cases v2 with
    | nil => simp at e2
    | cons x xs => simpa using e2
  | succ h =>
    rw [h1 (by omega)]
    rfl

/-- The redistribution block of the `N > 1` branch of `InternalNode::remove_elem` on a
pair of siblings, one of which holds fewer than `N` keys: both resulting nodes are well
formed around the new separator, hold at most `M` keys and at least the minimal fill
the code maintains, and no key is lost. -/
theorem redistribute_spec {N h : Nat} (hN : 1 < N) {m u : Option α} {id : α} {L R : Node α}
    (f : Nat)
    (hwL : WF N h m L (some id)) (hwR : WF N h (some id) R u)
    (hmid : oLt m (some id)) (hidu : above id u)
    (hLsz : L.size ≤ 2 * N) (hRsz : R.size ≤ 2 * N)
    (hunder : (L.size < N ∧ lowOK N R) ∨ (R.size < N ∧ lowOK N L))
    (htot : L.size + R.size + (if h = 0 then 0 else 1) > 2 * N) :
    ∃ L1 R1 idx f1,
      redistribute N f L R id ((L.size + R.size + (if h = 0 then 0 else 1) - 1) / 2) =
        some (L1, R1, idx, f1) ∧
      WF N h m L1 (some idx) ∧ WF N h (some idx) R1 u ∧ oLt m (some idx) ∧ above idx u ∧
      L1.size ≤ 2 * N ∧ R1.size ≤ 2 * N ∧ lowOK N L1 ∧ lowOK N R1 ∧
      LPres f f1 (L.leaves ++ R.leaves) (L1.leaves ++ R1.leaves) ∧
      L1.keys ++ R1.keys = L.keys ++ R.keys := by
  have hlowL := lowOK_iff hwL
  have hlowR := lowOK_iff hwR
  have he := ite01 h
  have he0 : h = 0 → (if h = 0 then 0 else 1) = 0 := fun h0 => by simp [h0]
  generalize hsa : (L.size + R.size + (if h = 0 then 0 else 1) - 1) / 2 = sa
  by_cases hlt : sa < L.size
  · -- split left, merge right into the split result
    have hleaf : h = 0 → sa + 1 < L.size := by
      intro h0
      have := he0 h0
      generalize (if h = 0 then 0 else 1) = e at *
      rcases hunder with ⟨h1, _⟩ | ⟨h1, _⟩ <;> omega
    obtain ⟨sp, s, hsplit, hnew, hwl, hwx, hlos, hsid, hlsz, hxsz, hLs, hkeys, hhead, hsep⟩ :=
      split_WF f sa hwL hlt hleaf
    have hsid1 : oLt (some s) (some id) := by simpa using hsid
    have hcap : sp.right.size + (if h = 0 then 0 else 1) + R.size ≤ 2 * N + 1 := by
      generalize (if h = 0 then 0 else 1) = e at *
      omega
    obtain ⟨R2, hpm, hwR2, hR2sz, hLm, hkeys2⟩ :=
      pull_merge_spec sp.fresh hwx hwR hsid1 hidu hcap
    have hidx : new_index sp.sep R2 = some s :=
      new_index_merged hwx hwR hwR2 hkeys2 hhead hsep
    have hsu : above s u := by
      have h1 : s < id := by simpa using hsid
      exact above_trans hidu (le_of_lt h1)
    have hlowl := lowOK_iff hwl
    have hlowR2 := lowOK_iff hwR2
    have hRlt : R.size < N := by
      rcases hunder with ⟨h1, _⟩ | ⟨h1, _⟩
      · generalize (if h = 0 then 0 else 1) = e at *
        omega
      · exact h1
    generalize (if h = 0 then 0 else 1) = e at *
    refine ⟨sp.left, R2, s, sp.fresh, ?_, hwl, hwR2, hlos, hsu, ?_, ?_, ?_, ?_, ?_, ?_⟩
    · simp only [redistribute, hlt, if_true, hsplit, hpm, hidx]
    · omega
    · omega
    · rw [hlowl]; omega
    · rw [hlowR2]; omega
    · have h1 := LPres_context hLs [] R.leaves
      have h2 := LPres_context hLm sp.left.leaves []
      simp only [List.nil_append, List.append_nil, List.append_assoc] at h1 h2
      exact LPres_trans h1 h2
    · rw [hkeys2, ← List.append_assoc, hkeys]
  · -- split right, merge its trimmed part into left
    have hge : L.size ≤ sa := not_lt.mp hlt
    have hi1 : sa - L.size < R.size := by
      generalize (if h = 0 then 0 else 1) = e at *
      omega
    have hleaf : h = 0 → sa - L.size + 1 < R.size := by
      intro h0
      have := he0 h0
      generalize (if h = 0 then 0 else 1) = e at *
      omega
    obtain ⟨sp, s, hsplit, hnew, hwx, hwr, hids, hsu, hxsz, hrsz, hLs, hkeys, _, _⟩ :=
      split_WF f (sa - L.size) hwR hi1 hleaf
    obtain ⟨si, hsi⟩ : ∃ si, si = sa - L.size := ⟨_, rfl⟩
    have hsi2 : si + L.size = sa := by omega
    rw [← hsi] at hxsz hrsz hi1
    clear hsi hleaf
    have hids1 : above id (some s) := by simpa using hids
    have hsum : L.size + R.size + (if h = 0 then 0 else 1) ≤ 3 * N := by
      generalize (if h = 0 then 0 else 1) = e at *
      rcases hunder with ⟨h1, _⟩ | ⟨h1, _⟩ <;> omega
    have hcap : L.size + (if h = 0 then 0 else 1) + sp.left.size ≤ 2 * N + 1 := by
      generalize (if h = 0 then 0 else 1) = e at *
      omega
    obtain ⟨L2, hpm, hwL2, hL2sz, hLm, hkeys2⟩ :=
      pull_merge_spec sp.fresh hwL hwx hmid hids1 hcap
    have hms : oLt m (some s) := by
      have h1 : id < s := by simpa using hids
      cases m with
      | none => simp
      | some l => simp at hmid ⊢; exact lt_trans hmid h1
    have hlowL2 := lowOK_iff hwL2
    have hlowr := lowOK_iff hwr
    generalize (if h = 0 then 0 else 1) = e at *
    refine ⟨L2, sp.right, s, sp.fresh, ?_, hwL2, hwr, hms, hsu, ?_, ?_, ?_, ?_, ?_, ?_⟩
    · simp only [redistribute, hlt, if_false, hsplit, hpm, hnew]
    · omega
    · omega
    · rw [hlowL2]; omega
    · rw [hlowr]; omega
    · have h1 := LPres_context hLs L.leaves []
      have h2 := LPres_context hLm [] sp.right.leaves
      simp only [List.nil_append, List.append_nil, List.append_assoc] at h1 h2
      have h3 : LPres f sp.fresh (L.leaves ++ R.leaves)
          (L.leaves ++ (sp.left.leaves ++ sp.right.leaves)) := h1
      have h4 : LPres sp.fresh sp.fresh (L.leaves ++ (sp.left.leaves ++ sp.right.leaves))
          (L2.leaves ++ sp.right.leaves) := by
        simpa only [List.append_assoc] using h2
      exact LPres_trans h3 h4
    · rw [hkeys2, List.append_assoc, hkeys]

end PairLemmas

/-! ### Rebalancing inside an internal node -/

section ListMid
variable {β : Type}

theorem get_mid (A B : List β) (x : β) : (A ++ x :: B)[A.length]? = some x := by
  rw [List.getElem?_append_right (le_refl _)]
  simp

theorem get_mid_succ (A B : List β) (x y : β) : (A ++ x :: y :: B)[A.length + 1]? = some y := by
  rw [List.getElem?_append_right (by omega)]
  simp

theorem set_mid (A B : List β) (x x1 : β) : (A ++ x :: B).set A.length x1 = A ++ x1 :: B := by
  rw [List.set_append_right _ _ (le_refl _)]
  simp

theorem set_mid_succ (A B : List β) (x y y1 : β) :
    (A ++ x :: y :: B).set (A.length + 1) y1 = A ++ x :: y1 :: B := by
  rw [List.set_append_right _ _ (by omega)]
  simp

theorem eraseIdx_mid (A B : List β) (x : β) : (A ++ x :: B).eraseIdx A.length = A ++ B := by
  rw [List.eraseIdx_append_of_length_le (le_refl _)]
  simp

theorem eraseIdx_mid_succ (A B : List β) (x y : β) :
    (A ++ x :: y :: B).eraseIdx (A.length + 1) = A ++ x :: B := by
  rw [List.eraseIdx_append_of_length_le (by omega)]
  simp

end ListMid

section Rebalance
variable {α : Type} [LinearOrder α]
variable {P : Option α → Node α → Option α → Prop}

theorem SufS_length {vs : List α} {cs : List (Node α)} {hi : Option α}
    (h : SufS P vs cs hi) : cs.length = vs.length := by
  match vs, cs, h with
  | [], [], _ => rfl
  | v :: vs, cs, h =>
    simp only [SufS] at h
    simpa using Seps_length h

/-- Focus on the pair of children around separator `q - 1`. -/
theorem Seps_focus_pair : ∀ (n : Nat) {vs : List α} {cs : List (Node α)} {lo hi : Option α},
    Seps P lo vs cs hi → n < vs.length →
    ∃ m id cL cR vsA vsB A B, vs = vsA ++ id :: vsB ∧ cs = A ++ cL :: cR :: B ∧
      A.length = n ∧ vsA.length = n ∧ PreS P lo vsA A m ∧
      P m cL (some id) ∧ oLt m (some id) ∧
      P (some id) cR (ubOf vsB hi) ∧ oLt (some id) (ubOf vsB hi) ∧ SufS P vsB B hi := by
  intro n
  induction n with
  | zero =>
    intro vs cs lo hi h hn
    match vs, cs, h, hn with
    | v :: vs, c :: cs, h, _ =>
      simp only [Seps] at h
      obtain ⟨h1, h2, h3⟩ := h
      match cs, h3 with
      | [], h3 => exact absurd h3 Seps_nil_false
      | d :: ds, h3 =>
        rw [Seps_cons_iff] at h3
        exact ⟨lo, v, c, d, [], vs, [], ds, rfl, rfl, rfl, rfl, by simp [PreS], h1, h2,
          h3.1, h3.2.1, h3.2.2⟩
  | succ n ih =>
    intro vs cs lo hi h hn
    match vs, cs, h, hn with
    | v :: vs, c :: cs, h, hn =>
      simp only [Seps] at h
      obtain ⟨h1, h2, h3⟩ := h
      obtain ⟨m, id, cL, cR, vsA, vsB, A, B, e1, e2, e3, e4, h4, h5, h6, h7, h8, h9⟩ :=
        ih h3 (by simpa using hn)
      refine ⟨m, id, cL, cR, v :: vsA, vsB, c :: A, B, by simp [e1], by simp [e2],
        by simp [e3], by simp [e4], ?_, h5, h6, h7, h8, h9⟩
      simp only [PreS]
      exact ⟨h1, h2, h4⟩

theorem erase_at_mid (vsA vsB : List α) (id : α) :
    erase_at (vsA ++ id :: vsB) vsA.length = vsA ++ vsB := by
  unfold erase_at
  rw [eraseIdx_mid]
  apply List.take_of_length_le
  simp

theorem Seps_rebuild_one {lo hi m : Option α} {vsA vsB : List α} {A B : List (Node α)}
    {L2 : Node α} (hpre : PreS P lo vsA A m) (hL : P m L2 (ubOf vsB hi))
    (hlt : oLt m (ubOf vsB hi)) (hsuf : SufS P vsB B hi) :
    Seps P lo (vsA ++ vsB) (A ++ L2 :: B) hi :=
  Seps_of_PreS hpre ((Seps_cons_iff _ _ _ _ _).mpr ⟨hL, hlt, hsuf⟩)

theorem Seps_rebuild_pair {lo hi m : Option α} {vsA vsB : List α} {A B : List (Node α)}
    {L1 R1 : Node α} {idx : α} (hpre : PreS P lo vsA A m) (hL : P m L1 (some idx))
    (hlt : oLt m (some idx)) (hR : P (some idx) R1 (ubOf vsB hi))
    (hlt2 : oLt (some idx) (ubOf vsB hi)) (hsuf : SufS P vsB B hi) :
    Seps P lo (vsA ++ idx :: vsB) (A ++ L1 :: R1 :: B) hi := by
  apply Seps_of_PreS hpre
  rw [Seps_cons_iff]
  refine ⟨hL, hlt, ?_⟩
  show Seps P (some idx) vsB (R1 :: B) hi
  rw [Seps_cons_iff]
  exact ⟨hR, hlt2, hsuf⟩

/-- The `N > 1` branch of `InternalNode::remove_elem` after `TRIGGER_MERGE`, on an
internal node whose children are well formed except that one child of the handled
pair holds fewer than `N` keys. -/
theorem rebalance_spec {N h : Nat} (hN : 1 < N) {lo hi m : Option α} {vsA vsB : List α}
    {A B : List (Node α)} {id : α} {L R : Node α} (f p0 : Nat)
    (hp0 : (if p0 < 1 then 1 else p0) = A.length + 1) (hlenA : vsA.length = A.length)
    (hpre : PreS (fun l c u => WF N h l c u ∧ lowOK N c ∧ c.size ≤ 2 * N) lo vsA A m)
    (hwL : WF N h m L (some id)) (hwR : WF N h (some id) R (ubOf vsB hi))
    (hmid : oLt m (some id)) (hidu : oLt (some id) (ubOf vsB hi))
    (hsuf : SufS (fun l c u => WF N h l c u ∧ lowOK N c ∧ c.size ≤ 2 * N) vsB B hi)
    (hLsz : L.size ≤ 2 * N) (hRsz : R.size ≤ 2 * N)
    (hunder : (L.size < N ∧ lowOK N R) ∨ (R.size < N ∧ lowOK N L)) :
    ∃ vs1 cs1 f1, rebalance N f (vsA ++ id :: vsB) (A ++ L :: R :: B) p0 = some (vs1, cs1, f1) ∧
      WF N (h + 1) lo (Node.int vs1 cs1) hi ∧
      vs1.length ≤ (vsA ++ id :: vsB).length ∧
      LPres f f1 (leavesList (A ++ L :: R :: B)) (leavesList cs1) ∧
      leafKeys (leavesList cs1) = leafKeys (leavesList (A ++ L :: R :: B)) := by
  have hidu1 : above id (ubOf vsB hi) := by rw [← oLt_some_left]; exact hidu
  have hg1 : (vsA ++ id :: vsB)[A.length]? = some id := by
    rw [← hlenA]; exact get_mid _ _ _
  have hg2 : (A ++ L :: R :: B)[A.length]? = some L := get_mid _ _ _
  have hg3 : (A ++ L :: R :: B)[A.length + 1]? = some R := get_mid_succ _ _ _ _
  have hty := type_of_WF hwR
  have hlenB := SufS_length hsuf
  by_cases htot : L.size + R.size + (if h = 0 then 0 else 1) > 2 * N
  · obtain ⟨L1, R1, idx, f1, hred, hwL1, hwR1, hlt1, hlt2, hs1, hs2, hl1, hl2, hLP, hkeys⟩ :=
      redistribute_spec hN f hwL hwR hmid hidu1 hLsz hRsz hunder htot
    refine ⟨vsA ++ idx :: vsB, A ++ L1 :: R1 :: B, f1, ?_, ?_, by simp, ?_, ?_⟩
    · simp only [rebalance, hp0, Nat.add_sub_cancel, List.get?_eq_getElem?, hg1, hg2, hg3, hty,
        htot, if_true, hred]
      congr 2
      · rw [← hlenA]; exact set_mid _ _ _ _
      · congr 1
        rw [set_mid, set_mid_succ]
    · rw [WF_int_iff]
      exact Seps_rebuild_pair hpre ⟨hwL1, hl1, hs1⟩ hlt1 ⟨hwR1, hl2, hs2⟩
        (by rw [oLt_some_left]; exact hlt2) hsuf
    · have := LPres_context hLP (leavesList A) (leavesList B)
      simpa [leavesList_append, List.append_assoc] using this
    · simp only [leavesList_append, leavesList_cons, leafKeys_append]
      have h1 : leafKeys L1.leaves ++ leafKeys R1.leaves =
          leafKeys L.leaves ++ leafKeys R.leaves := hkeys
      rw [← List.append_assoc (leafKeys L1.leaves), h1, List.append_assoc]
  · have hcap : L.size + (if h = 0 then 0 else 1) + R.size ≤ 2 * N + 1 := by omega
    obtain ⟨L2, hpm, hwL2, hL2sz, hLP, hkeys⟩ :=
      pull_merge_spec f hwL hwR hmid hidu1 hcap
    have hlow2 : lowOK N L2 := by
      rw [lowOK_iff hwL2, hL2sz]
      have hlowL := lowOK_iff hwL
      have hlowR := lowOK_iff hwR
      have he := ite01 h
      generalize (if h = 0 then 0 else 1) = e at *
      rcases hunder with ⟨_, h2⟩ | ⟨_, h2⟩
      · have := hlowR.mp h2; omega
      · have := hlowL.mp h2; omega
    refine ⟨vsA ++ vsB, A ++ L2 :: B, f, ?_, ?_, by simp, ?_, ?_⟩
    · simp only [rebalance, hp0, Nat.add_sub_cancel, List.get?_eq_getElem?, hg1, hg2, hg3, hty,
        htot, if_false, hpm, erase_at_int]
      congr 2
      · rw [← hlenA]; exact erase_at_mid _ _ _
      · congr 1
        rw [set_mid, eraseIdx_mid_succ]
        apply List.take_of_length_le
        simp; omega
    · rw [WF_int_iff]
      exact Seps_rebuild_one hpre ⟨hwL2, hlow2, by omega⟩
        (oLt_of_below_above (x := id) (by
          cases m with
          | none => simp
          | some l => simp at hmid ⊢; exact le_of_lt hmid) hidu1) hsuf
    · have := LPres_context hLP (leavesList A) (leavesList B)
      simpa [leavesList_append, List.append_assoc] using this
    · simp only [leavesList_append, leavesList_cons, leafKeys_append]
      have h1 : leafKeys L2.leaves = leafKeys L.leaves ++ leafKeys R.leaves := hkeys
      rw [h1, List.append_assoc]

/-- The `N = 1` branch of `InternalNode::remove_elem` after `TRIGGER_MERGE`. -/
theorem rebalance1_spec {h : Nat} {lo hi m : Option α} {vsA vsB : List α}
    {A B : List (Node α)} {id : α} {L R : Node α} (f p0 : Nat)
    (hp0 : (if p0 = 0 then p0 + 1 else p0) = A.length + 1) (hlenA : vsA.length = A.length)
    (hpre : PreS (fun l c u => WF 1 h l c u ∧ lowOK 1 c ∧ c.size ≤ 2 * 1) lo vsA A m)
    (hwL : WF 1 h m L (some id)) (hwR : WF 1 h (some id) R (ubOf vsB hi))
    (hmid : oLt m (some id)) (hidu : oLt (some id) (ubOf vsB hi))
    (hsuf : SufS (fun l c u => WF 1 h l c u ∧ lowOK 1 c ∧ c.size ≤ 2 * 1) vsB B hi)
    (hLsz : L.size ≤ 2 * 1) (hRsz : R.size ≤ 2 * 1)
    (hunder : (L.size < 1 ∧ lowOK 1 R) ∨ (R.size < 1 ∧ lowOK 1 L)) :
    ∃ vs1 cs1 f1, rebalance1 1 f (vsA ++ id :: vsB) (A ++ L :: R :: B) p0 = some (vs1, cs1, f1) ∧
      WF 1 (h + 1) lo (Node.int vs1 cs1) hi ∧
      vs1.length ≤ (vsA ++ id :: vsB).length ∧
      LPres f f1 (leavesList (A ++ L :: R :: B)) (leavesList cs1) ∧
      leafKeys (leavesList cs1) = leafKeys (leavesList (A ++ L :: R :: B)) := by
  have hidu1 : above id (ubOf vsB hi) := by rw [← oLt_some_left]; exact hidu
  have hg1 : (vsA ++ id :: vsB)[A.length]? = some id := by
    rw [← hlenA]; exact get_mid _ _ _
  have hg2 : (A ++ L :: R :: B)[A.length]? = some L := get_mid _ _ _
  have hg3 : (A ++ L :: R :: B)[A.length + 1]? = some R := get_mid_succ _ _ _ _
  have hlenB := SufS_length hsuf
  have hlowL := lowOK_iff hwL
  have hlowR := lowOK_iff hwR
  have he := ite01 h
  have hcap : L.size + (if h = 0 then 0 else 1) + R.size ≤ 2 * 1 + 1 := by
    generalize (if h = 0 then 0 else 1) = e at *
    omega
  obtain ⟨L2, hpm, hwL2, hL2sz, hLP, hkeys⟩ :=
    pull_merge_spec f hwL hwR hmid hidu1 hcap
  have hmu : oLt m (ubOf vsB hi) :=
    oLt_of_below_above (x := id) (by
      cases m with
      | none => simp
      | some l => simp at hmid ⊢; exact le_of_lt hmid) hidu1
  by_cases hbig : L2.size > 2 * 1
  · obtain ⟨sp, s, hsplit, hnew, hwl, hwr, hlos, hsu, hlsz, hrsz, hLs, hkeys2, _, _⟩ :=
      split_WF f 1 hwL2 (by omega) (fun _ => by omega)
    have hlowl := lowOK_iff hwl
    have hlowr := lowOK_iff hwr
    have hsz : sp.left.size ≤ 2 * 1 ∧ sp.right.size ≤ 2 * 1 ∧ lowOK 1 sp.left ∧
        lowOK 1 sp.right := by
      rw [hlowl, hlowr]
      generalize (if h = 0 then 0 else 1) = e at *
      omega
    refine ⟨vsA ++ s :: vsB, A ++ sp.left :: sp.right :: B, sp.fresh, ?_, ?_, by simp, ?_, ?_⟩
    · simp only [rebalance1, hp0, Nat.add_sub_cancel, List.get?_eq_getElem?, hg1, hg2, hg3,
        hpm, hbig, if_true, hsplit, hnew]
      congr 2
      · rw [← hlenA]; exact set_mid _ _ _ _
      · congr 1
        rw [set_mid, set_mid_succ]
    · rw [WF_int_iff]
      exact Seps_rebuild_pair hpre ⟨hwl, hsz.2.2.1, hsz.1⟩ hlos ⟨hwr, hsz.2.2.2, hsz.2.1⟩
        (by rw [oLt_some_left]; exact hsu) hsuf
    · have h1 := LPres_context (LPres_trans hLP hLs) (leavesList A) (leavesList B)
      simpa [leavesList_append, List.append_assoc] using h1
    · simp only [leavesList_append, leavesList_cons, leafKeys_append]
      have h1 : leafKeys sp.left.leaves ++ leafKeys sp.right.leaves = leafKeys L2.leaves :=
        hkeys2
      have h2 : leafKeys L2.leaves = leafKeys L.leaves ++ leafKeys R.leaves := hkeys
      rw [← List.append_assoc (leafKeys sp.left.leaves), h1, h2, List.append_assoc]
  · have hlow2 : lowOK 1 L2 := by
      rw [lowOK_iff hwL2, hL2sz]
      generalize (if h = 0 then 0 else 1) = e at *
      rcases hunder with ⟨_, h2⟩ | ⟨_, h2⟩
      · have := hlowR.mp h2; omega
      · have := hlowL.mp h2; omega
    refine ⟨vsA ++ vsB, A ++ L2 :: B, f, ?_, ?_, by simp, ?_, ?_⟩
    · simp only [rebalance1, hp0, Nat.add_sub_cancel, List.get?_eq_getElem?, hg1, hg2, hg3,
        hpm, hbig, if_false, erase_at_int]
      congr 2
      · rw [← hlenA]; exact erase_at_mid _ _ _
      · congr 1
        rw [set_mid, eraseIdx_mid_succ]
        apply List.take_of_length_le
        simp; omega
    · rw [WF_int_iff]
      exact Seps_rebuild_one hpre ⟨hwL2, hlow2, by omega⟩ hmu hsuf
    · have := LPres_context hLP (leavesList A) (leavesList B)
      simpa [leavesList_append, List.append_assoc] using this
    · simp only [leavesList_append, leavesList_cons, leafKeys_append]
      have h1 : leafKeys L2.leaves = leafKeys L.leaves ++ leafKeys R.leaves := hkeys
      rw [h1, List.append_assoc]

end Rebalance

/-! ### `remove_elem` -/

section RemoveElem
variable {α : Type} [LinearOrder α]

omit [LinearOrder α] in
theorem rootOK_of_lowOK {N : Nat} {c : Node α} (h : lowOK N c) : rootOK c := by
  cases c with
  | ext a vs nx => simp [rootOK]
  | int vs cs => simp only [lowOK] at h; simpa [rootOK] using h.2

omit [LinearOrder α] in
theorem perm_eraseIdx {vs : List α} {j : Nat} {k : α} (h : vs[j]? = some k) :
    vs.Perm (k :: vs.eraseIdx j) := by
  have e := eq_take_cons_drop vs j k h
  rw [List.eraseIdx_eq_take_drop_succ]
  conv_lhs => rw [e]
  exact List.perm_middle

theorem erase_at_eq {vs : List α} {j : Nat} (hj : j < vs.length) :
    erase_at vs j = vs.eraseIdx j := by
  unfold erase_at
  apply List.take_of_length_le
  rw [List.length_eraseIdx, if_pos hj]

theorem remove_elem_leaf {N : Nat} {lo hi : Option α} {a : Nat} {vs : List α}
    {nx : Option Nat} (fresh : Nat) {k : α} (hw : WF N 0 lo (Node.ext a vs nx) hi)
    (hsz : vs.length ≤ 2 * N) :
    ∃ r, remove_elem N 1 (Node.ext a vs nx) fresh k = some r ∧
      EraPost N 0 lo hi (Node.ext a vs nx) fresh k r := by
  rw [WF_ext_iff] at hw
  obtain ⟨hs, hb⟩ := hw
  by_cases hpos : 0 ≤ findpos vs k
  · have hget := findpos_found vs k hs hpos
    generalize (findpos vs k).toNat = j at hget
    have hj : j < vs.length := by
      rw [List.getElem?_eq_some] at hget; exact hget.1
    have hlen : (vs.eraseIdx j).length = vs.length - 1 := by
      rw [List.length_eraseIdx, if_pos hj]
    have hsub : (vs.eraseIdx j).Sublist vs := List.eraseIdx_sublist _ _
    refine ⟨⟨.ext a (vs.eraseIdx j) nx, fresh,
      if (vs.eraseIdx j).length ≥ N then EraseState.SUCCESS else EraseState.TRIGGER_MERGE⟩,
      ?_, ?_⟩
    · have hnot : ¬ findpos vs k < 0 := not_lt.mpr hpos
      simp only [remove_elem, hnot, if_false]
      have := findpos_found vs k hs hpos
      have hj2 : (findpos vs k).toNat < vs.length := by
        rw [List.getElem?_eq_some] at this; exact this.1
      rw [erase_at_eq hj2]
      have : (findpos vs k).toNat = j := by
        rcases findpos_spec vs k hs with ⟨i, hi, hgi⟩ | ⟨i, hi, _⟩
        · rw [hi]
          simp only [Int.toNat_ofNat]
          rw [List.getElem?_eq_some] at hgi hget
          obtain ⟨h1, h2⟩ := hgi
          obtain ⟨h3, h4⟩ := hget
          by_contra hne
          have := List.pairwise_iff_getElem.mp hs
          rcases Nat.lt_or_gt_of_ne hne with hlt | hgt
          · have := this i j h1 h3 hlt
            rw [h2, h4] at this
            exact lt_irrefl _ this
          · have := this j i h3 h1 hgt
            rw [h2, h4] at this
            exact lt_irrefl _ this
        · exfalso; rw [hi] at hpos; simp [invert] at hpos; omega
      rw [this]
    · refine ⟨?_, ?_, ?_, ?_, ?_, ?_, ?_⟩
      · simpa using LPres_update fresh a vs (vs.eraseIdx j) nx
      · rw [WF_ext_iff]
        exact ⟨hs.sublist hsub, fun x hx => hb x (hsub.subset hx)⟩
      · simp only [size_ext, hlen]; omega
      · intro h
        simp only [] at h
        split at h <;> cases h
      · intro _
        refine ⟨by simpa using mem_of_getElem?_eq hget, ?_⟩
        simpa using perm_eraseIdx hget
      · intro h
        left
        simp only [size_ext]
        simp only [] at h
        by_contra hc
        rw [if_neg hc] at h
        cases h
      · intro h
        simp only [size_ext]
        simp only [] at h
        by_contra hc
        rw [if_pos (not_lt.mp hc)] at h
        cases h
  · have hmem : k ∉ vs := fun hm => hpos ((findpos_nonneg_iff vs k hs).mpr hm)
    refine ⟨⟨.ext a vs nx, fresh, EraseState.NOT_FOUND⟩, ?_, ?_⟩
    · simp [remove_elem, not_le.mp hpos]
    · refine ⟨LPres_refl _ _, WF_ext_iff.mpr ⟨hs, hb⟩, by simpa using hsz, ?_, ?_, ?_, ?_⟩
      · intro _; exact ⟨rfl, rfl, by simpa using hmem⟩
      · intro h; exact absurd rfl h
      · intro h; cases h
      · intro h; cases h

theorem remove_elem_spec {N : Nat} (hN : 1 ≤ N) :
    ∀ (h : Nat) {lo hi : Option α} {t : Node α} (fresh : Nat) {k : α},
    WF N h lo t hi → t.size ≤ 2 * N → rootOK t → below lo k → above k hi →
    ∃ r, remove_elem N (h + 1) t fresh k = some r ∧ EraPost N h lo hi t fresh k r := by
  intro h
  induction h with
  | zero =>
    intro lo hi t fresh k hw hsz _ _ _
    obtain ⟨a, vs, nx, rfl, _⟩ := WF_zero_inv hw
    exact remove_elem_leaf fresh hw (by simpa using hsz)
  | succ h ih =>
    intro lo hi t fresh k hw hsz hroot hlo hhi
    obtain ⟨vs, cs, rfl, hseps⟩ := WF_succ_inv hw
    simp only [size_int] at hsz
    simp only [rootOK] at hroot
    obtain ⟨m, c, hp, hc, hpre, hwc, hlowc, hsizec, hlt, hsuf, hm, hu, hiff⟩ :=
      descend hw hlo hhi
    obtain ⟨_, htake, _⟩ := find_child_pos_spec vs k (Seps_sorted hseps).1
    generalize hpdef : find_child_pos vs k = p at hp hc hpre hwc hlt hsuf hu htake
    obtain ⟨r, hr, hL, hwr, hrsz, hnf, hfound, hsucc, hmerge⟩ :=
      ih fresh hwc hsizec (rootOK_of_lowOK hlowc) hm hu
    have hplen : p < cs.length := by
      rw [List.getElem?_eq_some] at hc; exact hc.1
    have hleaves : (Node.int vs cs).leaves =
        leavesList (cs.take p) ++ c.leaves ++ leavesList (cs.drop (p + 1)) := by
      rw [leaves_int]; exact leavesList_focus hc
    have hmidleaves : leavesList (cs.set p r.node) =
        leavesList (cs.take p) ++ r.node.leaves ++ leavesList (cs.drop (p + 1)) :=
      leavesList_set hplen
    have hLmid : LPres fresh r.fresh (Node.int vs cs).leaves (leavesList (cs.set p r.node)) := by
      rw [hleaves, hmidleaves]; exact LPres_context hL _ _
    by_cases hst : r.state = EraseState.TRIGGER_MERGE
    · -- the child underflowed: rebalance it with a sibling
      have hne : r.state ≠ EraseState.NOT_FOUND := by rw [hst]; simp
      obtain ⟨hkin, hperm⟩ := hfound hne
      have hunderflow := hmerge hst
      have hpermmid : (Node.int vs cs).keys.Perm (k :: leafKeys (leavesList (cs.set p r.node))) := by
        simp only [Node.keys]
        rw [hleaves, hmidleaves]
        exact leafKeys_perm_context hperm
      have hn : (if p < 1 then 1 else p) - 1 < vs.length := by
        split <;> omega
      obtain ⟨m2, id, cL, cR, vsA, vsB, A, B, e1, e2, e3, e4, hpre2, hPL, hmid, hPR, hidu,
        hsuf2⟩ := Seps_focus_pair _ hseps hn
      have key : ∃ L R, cs.set p r.node = A ++ L :: R :: B ∧
          WF N h m2 L (some id) ∧ WF N h (some id) R (ubOf vsB hi) ∧
          L.size ≤ 2 * N ∧ R.size ≤ 2 * N ∧
          ((L.size < N ∧ lowOK N R) ∨ (R.size < N ∧ lowOK N L)) := by
        by_cases hp0 : p = 0
        · subst hp0
          simp only [Nat.lt_one_iff, if_true, Nat.sub_self] at e3 e4
          have hA : A = [] := List.length_eq_zero.mp e3
          have hvA : vsA = [] := List.length_eq_zero.mp e4
          subst hA hvA
          simp only [List.nil_append] at e1 e2
          subst e1 e2
          simp only [PreS] at hpre2
          subst hpre2
          have hcc : c = cL := by simpa using hc.symm
          subst hcc
          have hu2 : above k (some id) := by simpa [ubOf] using hu
          obtain ⟨r2, hr2, _, hwr2, _⟩ :=
            ih fresh hPL.1 hsizec (rootOK_of_lowOK hlowc) hlo hu2
          have : r2 = r := Option.some.inj (hr2.symm.trans hr)
          subst this
          exact ⟨r2.node, cR, by simp, hwr2, hPR.1, hrsz, hPR.2.2, Or.inl ⟨hunderflow, hPR.2.1⟩⟩
        · have hp1 : (if p < 1 then 1 else p) - 1 = p - 1 := by
            split <;> omega
          rw [hp1] at e3 e4
          have hpA : p = A.length + 1 := by omega
          subst e1 e2
          have hcc : c = cR := by
            rw [hpA, get_mid_succ] at hc
            exact (Option.some.inj hc).symm
          subst hcc
          have hidk : below (some id) k := by
            simp only [below_some]
            apply htake
            have : (vsA ++ id :: vsB).take p = vsA ++ [id] := by
              have hp2 : p = vsA.length + 1 := by omega
              rw [hp2]; exact take_mid _ _ _
            rw [this]; simp
          have hu2 : above k (ubOf vsB hi) := by
            have : (vsA ++ id :: vsB).drop p = vsB := by
              have hp2 : p = vsA.length + 1 := by omega
              rw [hp2]; exact drop_mid _ _ _
            rw [this] at hu; exact hu
          obtain ⟨r2, hr2, _, hwr2, _⟩ :=
            ih fresh hPR.1 hsizec (rootOK_of_lowOK hlowc) hidk hu2
          have : r2 = r := Option.some.inj (hr2.symm.trans hr)
          subst this
          refine ⟨cL, r2.node, ?_, hPL.1, hwr2, hPL.2.2, hrsz, Or.inr ⟨hunderflow, hPL.2.1⟩⟩
          rw [hpA]; exact set_mid_succ _ _ _ _ _
      obtain ⟨L, R, hset, hwL, hwR, hLsz, hRsz, hunder⟩ := key
      have hlenA : vsA.length = A.length := e4.trans e3.symm
      have hpA1 : (if p < 1 then 1 else p) = A.length + 1 := by
        rw [e3]; split <;> omega
      have hpA2 : (if p = 0 then p + 1 else p) = A.length + 1 := by
        rw [e3]; split <;> split <;> omega
      have hreb : ∃ vs1 cs1 f1,
          (if N > 1 then rebalance N r.fresh vs (cs.set p r.node) p
            else rebalance1 N r.fresh vs (cs.set p r.node) p) = some (vs1, cs1, f1) ∧
          WF N (h + 1) lo (Node.int vs1 cs1) hi ∧ vs1.length ≤ vs.length ∧
          LPres r.fresh f1 (leavesList (cs.set p r.node)) (leavesList cs1) ∧
          leafKeys (leavesList cs1) = leafKeys (leavesList (cs.set p r.node)) := by
        rw [hset, e1]
        by_cases hN1 : N > 1
        · rw [if_pos hN1]
          exact rebalance_spec hN1 r.fresh p hpA1 hlenA hpre2 hwL hwR hmid hidu hsuf2 hLsz hRsz
            hunder
        · rw [if_neg hN1]
          have hN2 : N = 1 := by omega
          subst hN2
          exact rebalance1_spec r.fresh p hpA2 hlenA hpre2 hwL hwR hmid hidu hsuf2 hLsz hRsz
            hunder
      obtain ⟨vs1, cs1, f1, hrebeq, hwnew, hlen1, hLreb, hkeysreb⟩ := hreb
      refine ⟨⟨Node.int vs1 cs1, f1,
        if vs1.length ≥ N then EraseState.SUCCESS else EraseState.TRIGGER_MERGE⟩, ?_, ?_⟩
      · simp only [remove_elem, List.get?_eq_getElem?, hpdef, hc, hr, hst, if_true, hrebeq]
      · refine ⟨?_, hwnew, ?_, ?_, ?_, ?_, ?_⟩
        · rw [leaves_int]; exact LPres_trans hLmid hLreb
        · simp only [size_int]; omega
        · intro h1
          simp only [] at h1
          split at h1 <;> cases h1
        · intro _
          refine ⟨hiff.mpr hkin, ?_⟩
          rw [keys_int vs1 cs1, hkeysreb]
          exact hpermmid
        · intro h1
          left
          simp only [size_int]
          simp only [] at h1
          by_contra hcn
          rw [if_neg hcn] at h1
          cases h1
        · intro h1
          simp only [size_int]
          simp only [] at h1
          by_contra hcn
          rw [if_pos (not_lt.mp hcn)] at h1
          cases h1
    · -- the child is still filled (or did not hold the key)
      have hlowr : lowOK N r.node := by
        by_cases hnf1 : r.state = EraseState.NOT_FOUND
        · rw [(hnf hnf1).1]; exact hlowc
        · have hs1 : r.state = EraseState.SUCCESS := by
            cases hrs : r.state with
            | SUCCESS => rfl
            | NOT_FOUND => exact absurd hrs hnf1
            | TRIGGER_MERGE => exact absurd hrs hst
          have hlc := (lowOK_iff hwc).mp hlowc
          rw [lowOK_iff hwr]
          have he := ite01 h
          generalize (if h = 0 then 0 else 1) = e at *
          rcases hsucc hs1 with h1 | h1 <;> omega
      have hwnew : WF N (h + 1) lo (Node.int vs (cs.set p r.node)) hi := by
        rw [WF_int_iff]
        exact Seps_set hplen hpre ⟨hwr, hlowr, hrsz⟩ hlt hsuf
      refine ⟨⟨Node.int vs (cs.set p r.node), r.fresh, r.state⟩, ?_, ?_, hwnew, ?_, ?_, ?_,
        ?_, ?_⟩
      · simp only [remove_elem, List.get?_eq_getElem?, hpdef, hc, hr, hst, if_false]
      · rw [leaves_int]; exact hLmid
      · simpa using hsz
      · intro h1
        obtain ⟨e1, e2, e3⟩ := hnf h1
        refine ⟨?_, e2, fun hk => e3 (hiff.mp hk)⟩
        simp only []
        rw [e1, set_self hc]
      · intro h1
        obtain ⟨e1, e2⟩ := hfound h1
        refine ⟨hiff.mpr e1, ?_⟩
        simp only [Node.keys]
        rw [hleaves, leaves_int, hmidleaves]
        exact leafKeys_perm_context e2
      · intro _; right; simp
      · intro h1; exact absurd h1 hst

end RemoveElem

/-! ### Iteration along the leaf chain -/

section Iteration
variable {α : Type}

theorem find_addr_of_nodup {pre post : List (Leaf α)} {l : Leaf α}
    (hn : ((pre ++ l :: post).map Leaf.addr).Nodup) :
    (pre ++ l :: post).find? (fun x => x.addr == l.addr) = some l := by
  rw [List.find?_append]
  have h1 : pre.find? (fun x => x.addr == l.addr) = none := by
    rw [List.find?_eq_none]
    intro x hx hxa
    simp only [beq_iff_eq] at hxa
    rw [List.map_append, List.nodup_append] at hn
    exact hn.2.2 (List.mem_map.mpr ⟨x, hx, hxa⟩) (by simp)
  rw [h1]
  simp

theorem leafAt_of_mem {t : Node α} {l : Leaf α} (hn : (t.leaves.map Leaf.addr).Nodup)
    (hl : l ∈ t.leaves) : t.leafAt l.addr = some l := by
  obtain ⟨pre, post, e⟩ := List.append_of_mem hl
  unfold Node.leafAt
  rw [e] at hn ⊢
  exact find_addr_of_nodup hn

variable [LinearOrder α]

/-- The loop over the leaf chain, started inside leaf `l` at position `pos`, yields the
rest of `l` followed by the keys of all later leaves. -/
theorem iterFrom_chain (s : ADS_set α) (hn : (s.root.leaves.map Leaf.addr).Nodup)
    (hne : ∀ l ∈ s.root.leaves, l.values ≠ []) :
    ∀ (fuel : Nat) (pre post : List (Leaf α)) (l : Leaf α) (pos : Nat) (e : Option Nat),
    s.root.leaves = pre ++ l :: post → Chain e (pre ++ l :: post) none →
    pos < l.values.length →
    (l.values.length - pos) + (leafKeys post).length < fuel →
    ADS_set.iterFrom s fuel ⟨some l.addr, pos⟩ = some (l.values.drop pos ++ leafKeys post) := by
  intro fuel
  induction fuel with
  | zero => intro pre post l pos e _ _ _ hf; omega
  | succ fuel ih =>
    intro pre post l pos e hls hch hpos hf
    have hat : s.root.leafAt l.addr = some l := by
      unfold Node.leafAt
      rw [hls] at hn ⊢
      exact find_addr_of_nodup hn
    have hne1 : (⟨some l.addr, pos⟩ : Iterator) ≠ s.endIt := by
      simp [ADS_set.endIt, Iterator.endIt]
    have hderef : s.deref ⟨some l.addr, pos⟩ = some l.values[pos] := by
      simp [ADS_set.deref, hat, List.getElem?_eq_getElem hpos]
    have hdrop : l.values.drop pos = l.values[pos] :: l.values.drop (pos + 1) :=
      List.drop_eq_getElem_cons hpos
    rw [Chain_append] at hch
    obtain ⟨m, _, hch2⟩ := hch
    simp only [Chain_cons] at hch2
    obtain ⟨_, hch3⟩ := hch2
    by_cases hlast : pos + 1 = l.values.length
    · have hincr : s.incr ⟨some l.addr, pos⟩ = some ⟨l.next, 0⟩ := by
        simp [ADS_set.incr, hat, hlast]
      have hd2 : l.values.drop (pos + 1) = [] := by
        apply List.drop_of_length_le; omega
      cases post with
      | nil =>
        simp only [Chain_nil] at hch3
        have hend : (⟨l.next, 0⟩ : Iterator) = s.endIt := by
          simp [ADS_set.endIt, Iterator.endIt, hch3]
        have hfuel : 0 < fuel := by omega
        obtain ⟨f2, rfl⟩ : ∃ f2, fuel = f2 + 1 := ⟨fuel - 1, by omega⟩
        simp only [ADS_set.iterFrom, hne1, if_false, hderef, hincr, hend, if_true, hdrop, hd2,
          leafKeys_nil, List.append_nil]
      | cons l2 post2 =>
        simp only [Chain_cons] at hch3
        obtain ⟨hnx, _⟩ := hch3
        have hl2 : l2 ∈ s.root.leaves := by rw [hls]; simp
        have hpos2 : 0 < l2.values.length := List.length_pos.mpr (hne l2 hl2)
        have hls2 : s.root.leaves = (pre ++ [l]) ++ l2 :: post2 := by
          rw [hls]; simp
        have hch4 : Chain e ((pre ++ [l]) ++ l2 :: post2) none := by
          rw [← hls2, hls, Chain_append]
          exact ⟨m, by assumption, by simp only [Chain_cons]; exact ⟨by assumption, hnx, by assumption⟩⟩
        have := ih (pre ++ [l]) post2 l2 0 e hls2 hch4 hpos2 (by
          simp only [leafKeys_cons, List.length_append] at hf; omega)
        simp only [ADS_set.iterFrom, hne1, if_false, hderef, hincr, hnx, this, hdrop, hd2]
        simp
    · have hincr : s.incr ⟨some l.addr, pos⟩ = some ⟨some l.addr, pos + 1⟩ := by
        simp [ADS_set.incr, hat, hlast]
      have hch5 : Chain e (pre ++ l :: post) none := by
        rw [Chain_append]
        exact ⟨m, by assumption, by simp only [Chain_cons]; exact ⟨by assumption, hch3⟩⟩
      have := ih pre post l (pos + 1) e hls hch5 (by omega) (by omega)
      simp only [ADS_set.iterFrom, hne1, if_false, hderef, hincr, this]
      rw [hdrop]
      rfl

/-- Source `begin_it`: the descent through child 0 ends at the first leaf. -/
theorem begin_it_spec {N : Nat} : ∀ (h : Nat) {lo hi : Option α} {t : Node α},
    WF N h lo t hi → ∃ l rest, t.leaves = l :: rest ∧
      begin_it (h + 1) t = some (if l.values.length = 0 then Iterator.endIt
        else ⟨some l.addr, 0⟩) := by
  intro h
  induction h with
  | zero =>
    intro lo hi t hw
    obtain ⟨a, vs, nx, rfl, _⟩ := WF_zero_inv hw
    refine ⟨⟨a, vs, nx⟩, [], by simp, ?_⟩
    simp only [begin_it]
    split <;> simp_all
  | succ h ih =>
    intro lo hi t hw
    obtain ⟨vs, cs, rfl, hseps⟩ := WF_succ_inv hw
    match cs, hseps with
    | [], hseps => exact absurd hseps Seps_nil_false
    | c :: cs, hseps =>
      obtain ⟨l1, u1, hP⟩ := Seps_forall hseps c (by simp)
      obtain ⟨l, rest, e, hb⟩ := ih hP.1
      refine ⟨l, rest ++ leavesList cs, by simp [e], ?_⟩
      simp only [begin_it, List.get?_eq_getElem?, List.getElem?_cons_zero]
      exact hb

end Iteration

/-! ### The facade: `insert`, `erase`, `find`, `count`, iteration -/

namespace ADS_set

section Facade
variable {α : Type} [LinearOrder α]

theorem rootOK_of_size {N h : Nat} {lo hi lo1 hi1 : Option α} {t t1 : Node α}
    (hw : WF N h lo t hi) (hw1 : WF N h lo1 t1 hi1) (hl : rootOK t)
    (hs : t.size ≤ t1.size) : rootOK t1 := by
  cases h with
  | zero =>
    obtain ⟨a1, vs1, nx1, rfl, _⟩ := WF_zero_inv hw1
    simp [rootOK]
  | succ h =>
    obtain ⟨vs, cs, rfl, _⟩ := WF_succ_inv hw
    obtain ⟨vs1, cs1, rfl, _⟩ := WF_succ_inv hw1
    simp [rootOK] at *
    omega

theorem Inv_empty (N : Nat) : Inv N (empty : ADS_set α) := by
  refine ⟨0, ?_, by simp [empty], by simp [empty, rootOK], by simp [empty], ⟨some 0, ?_⟩, ?_⟩
  · simp [empty, WF]
  · simp [empty]
  · simp [empty, AddrOK]

theorem Inv_clear {N : Nat} (s : ADS_set α) : Inv N (clear s) := by
  refine ⟨0, ?_, by simp [clear], by simp [clear, rootOK], by simp [clear], ⟨some s.fresh, ?_⟩, ?_⟩
  · simp [clear, WF]
  · simp [clear]
  · simp [clear, AddrOK]

/-- The keys of a set satisfying the invariant are strictly ascending. -/
theorem Inv_sorted {N : Nat} {s : ADS_set α} (hI : Inv N s) : s.root.keys.Pairwise (· < ·) := by
  obtain ⟨h, hw, _⟩ := hI
  exact (WF_keys h hw).1

/-- Source `insert` on a set satisfying the invariant. -/
theorem insert_spec {N : Nat} (hN : 1 ≤ N) {s : ADS_set α} (hI : Inv N s) (k : α) :
    ∃ s1 it b, insert N s k = some (s1, it, b) ∧ Inv N s1 ∧
      (b = true ↔ k ∉ s.root.keys) ∧
      (b = true → s1.root.keys.Perm (k :: s.root.keys) ∧ s1.sz = s.sz + 1) ∧
      (b = false → s1 = s) ∧
      (∃ l ∈ s1.root.leaves, it.current = some l.addr ∧ l.values[it.pos]? = some k) := by
  obtain ⟨h, hw, hsz, hroot, hcount, ⟨e, hch⟩, haddr⟩ := hI
  obtain ⟨r, hr, hL, hwr, hit, hex, hnex, hnsp, hspl⟩ :=
    add_elem_spec hN h s.fresh hw hsz (below_none k) (above_none k)
  have hheight := WF_height h hw
  cases hst : r.state with
  | SUCCESS =>
    have hne : r.state ≠ InsertState.EXISTS := by rw [hst]; simp
    obtain ⟨hknot, hperm, hgrow⟩ := hnex hne
    refine ⟨⟨r.node, s.sz + 1, r.fresh⟩, r.it, true, ?_, ?_, ?_, ?_, ?_, hit⟩
    · simp only [insert, hheight, hr, hst]
    · refine ⟨h, hwr, hnsp (by rw [hst]; simp), rootOK_of_size hw hwr hroot hgrow, ?_,
        ⟨e, hL.chain _ _ hch⟩, LPres_addrOK hL haddr⟩
      simp only [hperm.length_eq, List.length_cons, hcount]
    · simp [hknot]
    · intro _; exact ⟨hperm, rfl⟩
    · intro hb; cases hb
  | EXISTS =>
    obtain ⟨e1, e2, hkin⟩ := hex hst
    have hs1 : (⟨r.node, s.sz, r.fresh⟩ : ADS_set α) = s := by
      rw [e1, e2]
    refine ⟨⟨r.node, s.sz, r.fresh⟩, r.it, false, ?_, ?_, ?_, ?_, ?_, hit⟩
    · simp only [insert, hheight, hr, hst]
    · rw [hs1]; exact ⟨h, hw, hsz, hroot, hcount, ⟨e, hch⟩, haddr⟩
    · simp [hkin]
    · intro hb; cases hb
    · intro _; exact hs1
  | TRIGGER_SPLIT =>
    have hne : r.state ≠ InsertState.EXISTS := by rw [hst]; simp
    obtain ⟨hknot, hperm, hgrow⟩ := hnex hne
    have hrsz := hspl hst
    have hidx : (r.node.size - 1) / 2 = N := by rw [hrsz]; omega
    obtain ⟨sp, x, hsplit, hnew, hwl, hwrt, hlos, hsu, hlsz, hrsz2, hLs, hkeys, _, _⟩ :=
      split_WF r.fresh N hwr (by omega) (fun _ => by omega)
    have hlowl := lowOK_iff hwl
    have hlowr := lowOK_iff hwrt
    have he := ite01 h
    rw [hrsz] at hrsz2
    generalize (if h = 0 then 0 else 1) = e1 at hlsz hlowl hlowr he
    have hlsz2 : sp.left.size ≤ 2 * N ∧ sp.right.size ≤ 2 * N := by omega
    replace hlowl : lowOK N sp.left := hlowl.mpr (by omega)
    replace hlowr : lowOK N sp.right := hlowr.mpr (by omega)
    have hwnew : WF N (h + 1) none (Node.int [x] [sp.left, sp.right]) none := by
      rw [WF_int_iff]
      simp only [Seps]
      exact ⟨⟨hwl, hlowl, hlsz2.1⟩, hlos, ⟨hwrt, hlowr, hlsz2.2⟩, by simp⟩
    have hnewleaves : (Node.int [x] [sp.left, sp.right]).leaves =
        sp.left.leaves ++ sp.right.leaves := by simp
    have hpermnew : (Node.int [x] [sp.left, sp.right]).keys.Perm (k :: s.root.keys) := by
      have : (Node.int [x] [sp.left, sp.right]).keys = r.node.keys := by
        simp only [Node.keys, hnewleaves, leafKeys_append]; exact hkeys
      rw [this]; exact hperm
    have hkin : k ∈ (Node.int [x] [sp.left, sp.right]).keys := hpermnew.symm.subset (by simp)
    obtain ⟨it, hfind, hres⟩ := find_spec (h + 1) hwnew (below_none k) (above_none k)
    have hit2 : ∃ l ∈ (Node.int [x] [sp.left, sp.right]).leaves,
        it.current = some l.addr ∧ l.values[it.pos]? = some k := by
      rcases hres with ⟨_, h2⟩ | ⟨h1, _⟩
      · exact h2
      · exact absurd hkin h1
    have hh2 := WF_height (h + 1) hwnew
    have hLnew : LPres s.fresh sp.fresh s.root.leaves (Node.int [x] [sp.left, sp.right]).leaves := by
      rw [hnewleaves]; exact LPres_trans hL hLs
    refine ⟨⟨Node.int [x] [sp.left, sp.right], s.sz + 1, sp.fresh⟩, it, true, ?_, ?_, ?_, ?_, ?_,
      hit2⟩
    · simp only [insert, hheight, hr, hst, splitDefault, hidx, hsplit, hnew, hh2, hfind]
    · refine ⟨h + 1, hwnew, by simp; omega, by simp [rootOK], ?_, ⟨e, hLnew.chain _ _ hch⟩,
        LPres_addrOK hLnew haddr⟩
      simp only [hpermnew.length_eq, List.length_cons, hcount]
    · simp [hknot]
    · intro _; exact ⟨hpermnew, rfl⟩
    · intro hb; cases hb

/-- Source `erase` on a set satisfying the invariant. -/
theorem erase_spec {N : Nat} (hN : 1 ≤ N) {s : ADS_set α} (hI : Inv N s) (k : α) :
    ∃ s1 n, erase N s k = some (s1, n) ∧ Inv N s1 ∧
      (n = 1 ↔ k ∈ s.root.keys) ∧ (n = 0 ∨ n = 1) ∧
      (n = 1 → s.root.keys.Perm (k :: s1.root.keys) ∧ s1.sz + 1 = s.sz) ∧
      (n = 0 → s1 = s) := by
  obtain ⟨h, hw, hsz, hroot, hcount, ⟨e, hch⟩, haddr⟩ := hI
  obtain ⟨r, hr, hL, hwr, hrsz, hnf, hfound, hsucc, hmerge⟩ :=
    remove_elem_spec hN h s.fresh hw hsz hroot (below_none k) (above_none k)
  have hheight := WF_height h hw
  cases hst : r.state with
  | NOT_FOUND =>
    obtain ⟨e1, e2, hknot⟩ := hnf hst
    have hs1 : (⟨r.node, s.sz, r.fresh⟩ : ADS_set α) = s := by
      rw [e1, e2]
    refine ⟨⟨r.node, s.sz, r.fresh⟩, 0, ?_, ?_, ?_, Or.inl rfl, ?_, ?_⟩
    · simp only [erase, hheight, hr, hst]
    · rw [hs1]; exact ⟨h, hw, hsz, hroot, hcount, ⟨e, hch⟩, haddr⟩
    · simp [hknot]
    · intro hn; cases hn
    · intro _; exact hs1
  | SUCCESS =>
    have hne : r.state ≠ EraseState.NOT_FOUND := by rw [hst]; simp
    obtain ⟨hkin, hperm⟩ := hfound hne
    have hlen : s.sz = r.node.keys.length + 1 := by
      rw [hcount, hperm.length_eq]; simp
    have hroot1 : rootOK r.node := by
      rcases hsucc hst with h1 | h1
      · cases hn : r.node with
        | ext a vs nx => simp [rootOK]
        | int vs cs => rw [hn] at h1; simp [rootOK] at *; omega
      · exact rootOK_of_size hw hwr hroot (le_of_eq h1.symm)
    refine ⟨⟨r.node, s.sz - 1, r.fresh⟩, 1, ?_, ?_, ?_, Or.inr rfl, ?_, ?_⟩
    · simp only [erase, hheight, hr, hst]
    · refine ⟨h, hwr, hrsz, hroot1, ?_, ⟨e, hL.chain _ _ hch⟩, LPres_addrOK hL haddr⟩
      simp only [hlen]; omega
    · simp [hkin]
    · intro _; refine ⟨hperm, ?_⟩; simp only [hlen]; omega
    · intro hn; cases hn
  | TRIGGER_MERGE =>
    have hne : r.state ≠ EraseState.NOT_FOUND := by rw [hst]; simp
    obtain ⟨hkin, hperm⟩ := hfound hne
    have hlen : s.sz = r.node.keys.length + 1 := by
      rw [hcount, hperm.length_eq]; simp
    by_cases hz : r.node.size = 0
    · cases h with
      | zero =>
        obtain ⟨a, vs, nx, hn, _⟩ := WF_zero_inv hwr
        have hvs : vs = [] := by
          rw [hn] at hz; simpa using hz
        subst hvs
        refine ⟨⟨.ext r.fresh [] none, s.sz - 1, r.fresh + 1⟩, 1, ?_, ?_, ?_, Or.inr rfl, ?_, ?_⟩
        · simp only [erase, hheight, hr, hst, hz, if_true, hn, size_ext, List.length_nil]
        · refine ⟨0, by simp [WF], by simp, by simp [rootOK], ?_, ⟨some r.fresh, by simp⟩,
            by simp [AddrOK]⟩
          rw [hn] at hlen
          simp at hlen ⊢
          omega
        · simp [hkin]
        · intro _
          rw [hn] at hperm hlen
          simp only [keys_ext] at hperm hlen ⊢
          exact ⟨hperm, by simp at hlen ⊢; omega⟩
        · intro hn1; cases hn1
      | succ h =>
        obtain ⟨vs, cs, hn, hseps⟩ := WF_succ_inv hwr
        have hvs : vs = [] := by
          rw [hn] at hz; simpa using hz
        subst hvs
        match cs, hseps with
        | [c], hseps =>
          simp only [Seps] at hseps
          obtain ⟨⟨hwc, hlowc, hcsz⟩, _⟩ := hseps
          have hleaves : r.node.leaves = c.leaves := by rw [hn]; simp
          have hkeys : r.node.keys = c.keys := by simp only [Node.keys, hleaves]
          rw [hleaves] at hL
          rw [hkeys] at hperm hlen
          refine ⟨⟨c, s.sz - 1, r.fresh⟩, 1, ?_, ?_, ?_, Or.inr rfl, ?_, ?_⟩
          · simp only [erase, hheight, hr, hst, hz, if_true, hn, List.get?_eq_getElem?,
              List.getElem?_cons_zero, size_int, List.length_nil]
          · refine ⟨h, hwc, hcsz, rootOK_of_lowOK hlowc, ?_, ⟨e, hL.chain _ _ hch⟩,
              LPres_addrOK hL haddr⟩
            simp only [hlen]; omega
          · simp [hkin]
          · intro _; refine ⟨hperm, ?_⟩; simp only [hlen]; omega
          · intro hn1; cases hn1
    · have hroot1 : rootOK r.node := by
        cases hn : r.node with
        | ext a vs nx => simp [rootOK]
        | int vs cs =>
          rw [hn] at hz
          simp only [size_int] at hz
          simp only [rootOK]
          omega
      refine ⟨⟨r.node, s.sz - 1, r.fresh⟩, 1, ?_, ?_, ?_, Or.inr rfl, ?_, ?_⟩
      · simp only [erase, hheight, hr, hst, hz, if_false]
      · refine ⟨h, hwr, hrsz, hroot1, ?_, ⟨e, hL.chain _ _ hch⟩, LPres_addrOK hL haddr⟩
        simp only [hlen]; omega
      · simp [hkin]
      · intro _; refine ⟨hperm, ?_⟩; simp only [hlen]; omega
      · intro hn; cases hn

/-- Every reachable set satisfies the invariant. -/
theorem ReachableC_inv {N : Nat} (hN : 1 ≤ N) {s : ADS_set α} (hs : ReachableC N s) :
    Inv N s := by
  induction hs with
  | empty => exact Inv_empty N
  | insert _ heq ih =>
    obtain ⟨s1, it, b, h1, h2, _⟩ := insert_spec hN ih _
    rw [heq] at h1
    cases h1
    exact h2
  | erase _ heq ih =>
    obtain ⟨s1, n, h1, h2, _⟩ := erase_spec hN ih _
    rw [heq] at h1
    cases h1
    exact h2
  | clear _ _ => exact Inv_clear _

theorem Reachable_toC {N : Nat} {s : ADS_set α} (hs : Reachable N s) : ReachableC N s := by
  induction hs with
  | empty => exact ReachableC.empty
  | insert _ heq ih => exact ReachableC.insert ih heq
  | erase _ heq ih => exact ReachableC.erase ih heq

theorem Reachable_inv {N : Nat} (hN : 1 ≤ N) {s : ADS_set α} (hs : Reachable N s) :
    Inv N s := ReachableC_inv hN (Reachable_toC hs)

/-- Iterating from `begin()` to `end()` yields the stored keys. -/
theorem toList_spec {N : Nat} (hN : 1 ≤ N) {s : ADS_set α} (hI : Inv N s) (fuel : Nat)
    (hf : s.sz < fuel) : s.toList fuel = some s.root.keys := by
  obtain ⟨h, hw, hsz, hroot, hcount, ⟨e, hch⟩, haddr⟩ := hI
  have hheight := WF_height h hw
  obtain ⟨l, rest, hls, hb⟩ := begin_it_spec h hw
  by_cases hl0 : l.values.length = 0
  · -- only an empty root leaf can be empty
    cases h with
    | zero =>
      obtain ⟨a, vs, nx, hn, _⟩ := WF_zero_inv hw
      rw [hn] at hls
      simp at hls
      obtain ⟨rfl, rfl⟩ := hls
      simp only [] at hl0
      have hvs : vs = [] := List.length_eq_zero.mp hl0
      obtain ⟨f2, rfl⟩ : ∃ f2, fuel = f2 + 1 := ⟨fuel - 1, by omega⟩
      simp only [toList, ADS_set.begin, hheight, hb, hl0, if_true, iterFrom, endIt]
      rw [hn, hvs]; simp
    | succ h =>
      exfalso
      obtain ⟨vs, cs, hn, _⟩ := WF_succ_inv hw
      rw [hn] at hw
      have := leaves_values_ne_int hN hw l (by rw [← hn, hls]; simp)
      exact this (List.length_eq_zero.mp hl0)
  · have hne : ∀ l ∈ s.root.leaves, l.values ≠ [] := by
      cases h with
      | zero =>
        obtain ⟨a, vs, nx, hn, _⟩ := WF_zero_inv hw
        rw [hn] at hls ⊢
        simp at hls
        obtain ⟨rfl, rfl⟩ := hls
        intro l1 hl1
        simp at hl1; subst hl1
        intro hc
        simp only [] at hc hl0
        rw [hc] at hl0; simp at hl0
      | succ h =>
        obtain ⟨vs, cs, hn, _⟩ := WF_succ_inv hw
        rw [hn] at hw ⊢
        exact leaves_values_ne_int hN hw
    have hch2 : Chain e ([] ++ l :: rest) none := by
      rw [List.nil_append, ← hls]; exact hch
    have := iterFrom_chain s haddr.1 hne fuel [] rest l 0 e (by simpa using hls) hch2
      (by omega) (by
        have : s.root.keys = l.values ++ leafKeys rest := by
          simp only [Node.keys, hls, leafKeys_cons]
        rw [hcount, this] at hf
        simp only [List.length_append] at hf
        omega)
    simp only [toList, ADS_set.begin, hheight, hb, hl0, if_false, this]
    simp only [Node.keys, hls, leafKeys_cons, List.drop_zero]

/-- Source `find` and `count` on a set satisfying the invariant. -/
theorem find_count_spec {N : Nat} {s : ADS_set α} (hI : Inv N s) (k : α) :
    ∃ it, s.find k = some it ∧
      (k ∈ s.root.keys → it ≠ s.endIt ∧ s.deref it = some k ∧ s.count k = some 1) ∧
      (k ∉ s.root.keys → it = s.endIt ∧ s.count k = some 0) := by
  obtain ⟨h, hw, hsz, hroot, hcount, ⟨e, hch⟩, haddr⟩ := hI
  have hheight := WF_height h hw
  obtain ⟨it, hfind, hres⟩ := find_spec h hw (below_none k) (above_none k)
  have hf : s.find k = some it := by
    simp only [ADS_set.find, hheight]; exact hfind
  refine ⟨it, hf, ?_, ?_⟩
  · intro hk
    rcases hres with ⟨_, l, hl, h1, h2⟩ | ⟨h1, _⟩
    · have hne : it ≠ s.endIt := by
        intro hc
        rw [hc] at h1
        simp [endIt, Iterator.endIt] at h1
      refine ⟨hne, ?_, ?_⟩
      · simp only [deref, h1, leafAt_of_mem haddr.1 hl, List.get?_eq_getElem?, h2]
      · simp only [count, hf, hne, ne_eq, not_false_eq_true, if_true]
    · exact absurd hk h1
  · intro hk
    rcases hres with ⟨h1, _⟩ | ⟨_, h1⟩
    · exact absurd h1 hk
    · refine ⟨h1, ?_⟩
      simp only [count, hf, h1, endIt, ne_eq, not_true_eq_false, if_false]

end Facade
end ADS_set

/-! ### The claims -/

open ADS_set

section ClaimLemmas
variable {α : Type} [LinearOrder α]

theorem count_eq {N : Nat} {s : ADS_set α} (hI : Inv N s) (k : α) :
    s.count k = some (if k ∈ s.root.keys then 1 else 0) := by
  obtain ⟨it, _, h1, h2⟩ := find_count_spec hI k
  by_cases hk : k ∈ s.root.keys
  · rw [if_pos hk]; exact (h1 hk).2.2
  · rw [if_neg hk]; exact (h2 hk).2

theorem count_one_iff {N : Nat} {s : ADS_set α} (hI : Inv N s) (k : α) :
    s.count k = some 1 ↔ k ∈ s.root.keys := by
  rw [count_eq hI k]
  by_cases hk : k ∈ s.root.keys <;> simp [hk]

theorem count_zero_iff {N : Nat} {s : ADS_set α} (hI : Inv N s) (k : α) :
    s.count k = some 0 ↔ k ∉ s.root.keys := by
  rw [count_eq hI k]
  by_cases hk : k ∈ s.root.keys <;> simp [hk]

theorem count_congr {N : Nat} {s s1 : ADS_set α} (hI : Inv N s) (hI1 : Inv N s1) (j : α)
    (h : j ∈ s1.root.keys ↔ j ∈ s.root.keys) : s1.count j = s.count j := by
  rw [count_eq hI j, count_eq hI1 j]
  by_cases hj : j ∈ s.root.keys
  · rw [if_pos hj, if_pos (h.mpr hj)]
  · rw [if_neg hj, if_neg (fun hc => hj (h.mp hc))]

theorem sorted_perm_eq {l1 l2 : List α} (hp : l1.Perm l2) (h1 : l1.Pairwise (· < ·))
    (h2 : l2.Pairwise (· < ·)) : l1 = l2 :=
  @List.eq_of_perm_of_sorted α (· ≤ ·) _ l1 l2 hp (h1.imp le_of_lt) (h2.imp le_of_lt)

theorem keys_eq_sort {N : Nat} {s : ADS_set α} (hI : Inv N s) (xs : List α)
    (h : ∀ x, x ∈ s.root.keys ↔ x ∈ xs) :
    s.root.keys = xs.toFinset.sort (· ≤ ·) := by
  have hs := Inv_sorted hI
  have hnd : s.root.keys.Nodup := hs.imp ne_of_lt
  apply sorted_perm_eq _ hs (Finset.sort_sorted_lt _)
  apply List.perm_of_nodup_nodup_toFinset_eq hnd (Finset.sort_nodup _ _)
  rw [Finset.sort_toFinset]
  ext x
  simp [h]

theorem insertAll_spec {N : Nat} (hN : 1 ≤ N) : ∀ (xs : List α) {s : ADS_set α}, Inv N s →
    ∃ s1, insertAll N s xs = some s1 ∧ Inv N s1 ∧
      ∀ x, x ∈ s1.root.keys ↔ x ∈ s.root.keys ∨ x ∈ xs := by
  intro xs
  induction xs with
  | nil => intro s hI; exact ⟨s, rfl, hI, by simp⟩
  | cons y ys ih =>
    intro s hI
    obtain ⟨s1, it, b, h1, hI1, hb, hins, hnot, _⟩ := insert_spec hN hI y
    obtain ⟨s2, h2, hI2, hmem⟩ := ih hI1
    refine ⟨s2, ?_, hI2, ?_⟩
    · simp only [insertAll, h1]; exact h2
    · intro x
      rw [hmem x]
      have hkeys : x ∈ s1.root.keys ↔ x ∈ s.root.keys ∨ x = y := by
        cases b with
        | true =>
          have := (hins rfl).1
          rw [this.mem_iff]; simp [or_comm]
        | false =>
          have e := hnot rfl
          have hy : y ∈ s.root.keys := by
            by_contra hc
            exact absurd (hb.mpr hc) (by simp)
          rw [e]
          constructor
          · intro hx; exact Or.inl hx
          · rintro (hx | rfl)
            · exact hx
            · exact hy
      rw [hkeys]
      simp only [List.mem_cons]
      tauto

theorem insertAll_step {N : Nat} {s : ADS_set α} (s1 : ADS_set α) {x : α} {xs : List α}
    (h : ∃ it b, insert N s x = some (s1, it, b)) :
    insertAll N s (x :: xs) = insertAll N s1 xs := by
  obtain ⟨it, b, h⟩ := h
  simp only [insertAll, h]

theorem eraseAll_step {N : Nat} {s : ADS_set α} (s1 : ADS_set α) {x : α} {xs : List α}
    (h : ∃ n, erase N s x = some (s1, n)) :
    eraseAll N s (x :: xs) = eraseAll N s1 xs := by
  obtain ⟨n, h⟩ := h
  simp only [eraseAll, h]

theorem reachable_insertAll {N : Nat} : ∀ (xs : List α) {s s1 : ADS_set α},
    Reachable N s → insertAll N s xs = some s1 → Reachable N s1 := by
  intro xs
  induction xs with
  | nil => intro s s1 hs h; simp only [insertAll] at h; cases h; exact hs
  | cons y ys ih =>
    intro s s1 hs h
    simp only [insertAll] at h
    cases hi : insert N s y with
    | none => rw [hi] at h; cases h
    | some r =>
      obtain ⟨s2, it, b⟩ := r
      rw [hi] at h
      exact ih (Reachable.insert hs hi) h

theorem reachable_eraseAll {N : Nat} : ∀ (xs : List α) {s s1 : ADS_set α},
    Reachable N s → eraseAll N s xs = some s1 → Reachable N s1 := by
  intro xs
  induction xs with
  | nil => intro s s1 hs h; simp only [eraseAll] at h; cases h; exact hs
  | cons y ys ih =>
    intro s s1 hs h
    simp only [eraseAll] at h
    cases hi : erase N s y with
    | none => rw [hi] at h; cases h
    | some r =>
      obtain ⟨s2, n⟩ := r
      rw [hi] at h
      exact ih (Reachable.erase hs hi) h

theorem sample5_reachable : Reachable 2 sample5 :=
  reachable_insertAll [1, 2, 3, 4, 5] Reachable.empty (by rfl)

theorem reachableC_insertAll {N : Nat} : ∀ (xs : List α) {s s1 : ADS_set α},
    ReachableC N s → insertAll N s xs = some s1 → ReachableC N s1 := by
  intro xs
  induction xs with
  | nil =>
    intro s s1 hs h
    simp only [insertAll] at h
    cases h
    exact hs
  | cons x xs ih =>
    intro s s1 hs h
    simp only [insertAll] at h
    split at h
    · cases h
    · rename_i s2 p hi
      obtain ⟨it, b⟩ := p
      exact ih (ReachableC.insert hs hi) h

theorem sampleRefill_reachable : ReachableC 2 sampleRefill :=
  reachableC_insertAll [9, 8, 7, 6, 5] (ReachableC.clear (Reachable_toC sample5_reachable))
    (by rfl)

end ClaimLemmas

section Claims
variable {α : Type} [LinearOrder α]

/-- C1: for every `N ≥ 1` and every key sequence `xs`, the set built by inserting the
elements of `xs` one by one into the empty set exists, iterates from `begin` to `end`
as exactly the strictly ascending list of the distinct keys of `xs`, its `size()` is the
number of distinct keys, and any reordering of `xs` gives the same iteration. -/
theorem C1_construct_sorted_distinct {N : Nat} (hN : 1 ≤ N) (xs : List α) :
    ∃ s, ofList N xs = some s ∧
      (∀ fuel, s.size < fuel → s.toList fuel = some (xs.toFinset.sort (· ≤ ·))) ∧
      s.size = xs.toFinset.card ∧
      (∀ ys, ys.Perm xs → ∃ s2, ofList N ys = some s2 ∧ s2.size = s.size ∧
        ∀ fuel, s.size < fuel → s2.toList fuel = s.toList fuel) := by
  have key : ∀ zs : List α, ∃ s, ofList N zs = some s ∧ Inv N s ∧
      s.root.keys = zs.toFinset.sort (· ≤ ·) ∧ s.size = zs.toFinset.card := by
    intro zs
    obtain ⟨s, h1, hI, hmem⟩ := insertAll_spec hN zs (Inv_empty N : Inv N (ADS_set.empty : ADS_set α))
    have hk := keys_eq_sort hI zs (fun x => by rw [hmem x]; simp [ADS_set.empty])
    refine ⟨s, h1, hI, hk, ?_⟩
    obtain ⟨_, _, _, _, hc, _⟩ := hI
    simp only [ADS_set.size, hc, hk, Finset.length_sort]
  obtain ⟨s, h1, hI, hk, hsz⟩ := key xs
  refine ⟨s, h1, ?_, hsz, ?_⟩
  · intro fuel hf
    rw [toList_spec hN hI fuel hf, hk]
  · intro ys hp
    obtain ⟨s2, h2, hI2, hk2, hsz2⟩ := key ys
    have hfin : ys.toFinset = xs.toFinset := by
      ext x; simp [hp.mem_iff]
    refine ⟨s2, h2, by rw [hsz2, hsz, hfin], ?_⟩
    intro fuel hf
    have hf2 : s2.sz < fuel := by
      have : s2.size = s.size := by rw [hsz2, hsz, hfin]
      simp only [ADS_set.size] at this hf
      omega
    rw [toList_spec hN hI fuel hf, toList_spec hN hI2 fuel hf2, hk, hk2, hfin]

/-- Witness for C1 at `N = 2`, `xs = [3, 1, 4, 1, 5, 9, 2, 6, 5, 3, 5]`. -/
theorem C1_witness :
    (1 ≤ 2) ∧ ∃ s, ofList 2 [3, 1, 4, 1, 5, 9, 2, 6, 5, 3, 5] = some s ∧
      (∀ fuel, s.size < fuel →
        s.toList fuel = some (([3, 1, 4, 1, 5, 9, 2, 6, 5, 3, 5] : List Nat).toFinset.sort (· ≤ ·))) ∧
      s.size = ([3, 1, 4, 1, 5, 9, 2, 6, 5, 3, 5] : List Nat).toFinset.card ∧
      (∀ ys, ys.Perm [3, 1, 4, 1, 5, 9, 2, 6, 5, 3, 5] → ∃ s2, ofList 2 ys = some s2 ∧
        s2.size = s.size ∧ ∀ fuel, s.size < fuel → s2.toList fuel = s.toList fuel) :=
  ⟨by decide, C1_construct_sorted_distinct (by decide) [3, 1, 4, 1, 5, 9, 2, 6, 5, 3, 5]⟩

/-- C2: on every set reachable by `insert` and `erase` calls, `insert(k)` returns, reports
`inserted = true` exactly when `count(k)` was 0 before; afterwards `count(k) = 1`,
`count(j)` is unchanged for every other key `j`, and `size()` has grown by 1 if
`inserted` is true and is unchanged otherwise. -/
theorem C2_insert_contract {N : Nat} (hN : 1 ≤ N) {s : ADS_set α} (hs : Reachable N s) (k : α) :
    ∃ s1 it b, insert N s k = some (s1, it, b) ∧ (b = true ↔ s.count k = some 0) ∧
      s1.count k = some 1 ∧ (∀ j, j ≠ k → s1.count j = s.count j) ∧
      s1.size = (if b = true then s.size + 1 else s.size) := by
  have hI := Reachable_inv hN hs
  obtain ⟨s1, it, b, h1, hI1, hb, hins, hnot, _⟩ := insert_spec hN hI k
  refine ⟨s1, it, b, h1, ?_, ?_, ?_, ?_⟩
  · rw [hb, count_zero_iff hI]
  · rw [count_one_iff hI1]
    cases b with
    | true => exact (hins rfl).1.symm.subset (by simp)
    | false =>
      rw [hnot rfl]
      by_contra hc
      exact absurd (hb.mpr hc) (by simp)
  · intro j hj
    apply count_congr hI hI1
    cases b with
    | true =>
      rw [(hins rfl).1.mem_iff]
      simp [hj]
    | false => rw [hnot rfl]
  · cases b with
    | true => simpa [ADS_set.size] using (hins rfl).2
    | false => rw [hnot rfl]; simp

/-- Witness for C2: inserting 6 into the set holding 1..5 (`N = 2`). -/
theorem C2_witness :
    (1 ≤ 2) ∧ Reachable 2 sample5 ∧
    ∃ s1 it b, insert 2 sample5 6 = some (s1, it, b) ∧ (b = true ↔ sample5.count 6 = some 0) ∧
      s1.count 6 = some 1 ∧ (∀ j, j ≠ 6 → s1.count j = sample5.count j) ∧
      s1.size = (if b = true then sample5.size + 1 else sample5.size) :=
  ⟨by decide, sample5_reachable, C2_insert_contract (by decide) sample5_reachable 6⟩

/-- C3: on every reachable set that holds `k` (`count(k) = 1`), `erase(k)` returns 1;
afterwards `count(k) = 0`, `size()` has dropped by exactly 1, and the iteration from
`begin` to `end` is the previous iteration with `k` removed. -/
theorem C3_erase_present {N : Nat} (hN : 1 ≤ N) {s : ADS_set α} (hs : Reachable N s) (k : α)
    (hk : s.count k = some 1) :
    ∃ s1 l, erase N s k = some (s1, 1) ∧ s1.count k = some 0 ∧ s1.size + 1 = s.size ∧
      k ∈ l ∧
      (∀ fuel, s.size < fuel → s.toList fuel = some l ∧ s1.toList fuel = some (l.erase k)) := by
  have hI := Reachable_inv hN hs
  have hkin := (count_one_iff hI k).mp hk
  obtain ⟨s1, n, h1, hI1, hn, _, hdel, _⟩ := erase_spec hN hI k
  have hn1 : n = 1 := hn.mpr hkin
  subst hn1
  obtain ⟨hperm, hsz⟩ := hdel rfl
  have hs0 := Inv_sorted hI
  have hs1 := Inv_sorted hI1
  have hkeys : s1.root.keys = s.root.keys.erase k := by
    apply sorted_perm_eq _ hs1 (hs0.sublist (List.erase_sublist _ _))
    have h2 := List.perm_cons_erase hkin
    exact (List.Perm.cons_inv (hperm.symm.trans h2))
  have hnd : s.root.keys.Nodup := hs0.imp ne_of_lt
  refine ⟨s1, s.root.keys, h1, ?_, hsz, hkin, ?_⟩
  · rw [count_zero_iff hI1, hkeys]
    exact fun hc => (List.Nodup.mem_erase_iff hnd).mp hc |>.1 rfl
  · intro fuel hf
    simp only [ADS_set.size] at hf
    refine ⟨toList_spec hN hI fuel hf, ?_⟩
    rw [toList_spec hN hI1 fuel (by omega), hkeys]

/-- Witness for C3: erasing 3 from the set holding 1..5 (`N = 2`). -/
theorem C3_witness :
    (1 ≤ 2) ∧ Reachable 2 sample5 ∧ sample5.count 3 = some 1 ∧
    ∃ s1 l, erase 2 sample5 3 = some (s1, 1) ∧ s1.count 3 = some 0 ∧
      s1.size + 1 = sample5.size ∧ 3 ∈ l ∧
      (∀ fuel, sample5.size < fuel →
        sample5.toList fuel = some l ∧ s1.toList fuel = some (l.erase 3)) :=
  ⟨by decide, sample5_reachable, by rfl,
    C3_erase_present (by decide) sample5_reachable 3 (by rfl)⟩

/-- C4: on every reachable set, `erase(k)` returns 0 if and only if no key of the set
(no key of its `begin`-to-`end` iteration) equals `k`, and in that case the set is left
entirely unchanged (same nodes, same keys, same size). -/
theorem C4_erase_absent {N : Nat} (hN : 1 ≤ N) {s : ADS_set α} (hs : Reachable N s) (k : α) :
    ∃ s1 n l, erase N s k = some (s1, n) ∧ s.toList (s.size + 1) = some l ∧
      (n = 0 ↔ k ∉ l) ∧ (n = 0 → s1 = s) := by
  have hI := Reachable_inv hN hs
  obtain ⟨s1, n, h1, _, hn, h01, _, hsame⟩ := erase_spec hN hI k
  refine ⟨s1, n, s.root.keys, h1, toList_spec hN hI _ (by simp [ADS_set.size]), ?_, hsame⟩
  rw [← hn]
  rcases h01 with h0 | h0 <;> simp [h0]

/-- Witness for C4: erasing the absent key 7 from the set holding 1..5 (`N = 2`). -/
theorem C4_witness :
    (1 ≤ 2) ∧ Reachable 2 sample5 ∧
    ∃ s1 n l, erase 2 sample5 7 = some (s1, n) ∧ sample5.toList (sample5.size + 1) = some l ∧
      (n = 0 ↔ 7 ∉ l) ∧ (n = 0 → s1 = sample5) :=
  ⟨by decide, sample5_reachable, C4_erase_absent (by decide) sample5_reachable 7⟩

/-- C5: on every set reached from the empty set by `insert`, `erase` and `clear` calls
(`N ≥ 1`), iterating from `begin()` with `operator++` until `end()` terminates (within
`size() + 1` tests of the loop condition), yields keys in strictly ascending order,
and visits exactly `size()` elements. -/
theorem C5_iteration_sorted {N : Nat} (hN : 1 ≤ N) {s : ADS_set α} (hs : ReachableC N s) :
    ∃ l, (∀ fuel, s.size < fuel → s.toList fuel = some l) ∧ l.Pairwise (· < ·) ∧
      l.length = s.size := by
  have hI := ReachableC_inv hN hs
  refine ⟨s.root.keys, fun fuel hf => toList_spec hN hI fuel hf, Inv_sorted hI, ?_⟩
  obtain ⟨_, _, _, _, hc, _⟩ := hI
  simp only [ADS_set.size, hc]

/-- Witness for C5: the set holding 1..5, cleared and refilled with 9, 8, 7, 6, 5
(`N = 2`); its iteration 5, 6, 7, 8, 9 runs over two leaves. -/
theorem C5_witness :
    (1 ≤ 2) ∧ ReachableC 2 sampleRefill ∧
    sampleRefill.toList 6 = some [5, 6, 7, 8, 9] ∧
    ∃ l, (∀ fuel, sampleRefill.size < fuel → sampleRefill.toList fuel = some l) ∧
      l.Pairwise (· < ·) ∧ l.length = sampleRefill.size :=
  ⟨by decide, sampleRefill_reachable, by rfl,
    C5_iteration_sorted (by decide) sampleRefill_reachable⟩

/-- C6: on every reachable set and for every probe `k`, `find(k)` returns a non-end
iterator whose dereference is `k` if some key of the `begin`-to-`end` iteration equals
`k`, and `end()` otherwise; `count(k)` is 1 in the first case and 0 in the second. -/
theorem C6_find_routes {N : Nat} (hN : 1 ≤ N) {s : ADS_set α} (hs : Reachable N s) (k : α) :
    ∃ it l, s.find k = some it ∧ s.toList (s.size + 1) = some l ∧
      (k ∈ l → it ≠ s.endIt ∧ s.deref it = some k ∧ s.count k = some 1) ∧
      (k ∉ l → it = s.endIt ∧ s.count k = some 0) := by
  have hI := Reachable_inv hN hs
  obtain ⟨it, h1, h2, h3⟩ := find_count_spec hI k
  exact ⟨it, s.root.keys, h1, toList_spec hN hI _ (by simp [ADS_set.size]), h2, h3⟩

/-- Witness for C6: looking up 4 in the set holding 1..5 (`N = 2`). -/
theorem C6_witness :
    (1 ≤ 2) ∧ Reachable 2 sample5 ∧
    ∃ it l, sample5.find 4 = some it ∧ sample5.toList (sample5.size + 1) = some l ∧
      (4 ∈ l → it ≠ sample5.endIt ∧ sample5.deref it = some 4 ∧ sample5.count 4 = some 1) ∧
      (4 ∉ l → it = sample5.endIt ∧ sample5.count 4 = some 0) :=
  ⟨by decide, sample5_reachable, C6_find_routes (by decide) sample5_reachable 4⟩

/-- C7: on every reachable set, the iterator returned by `insert(k)` is not the end
iterator and dereferences (in the set after the call) to `k`, whether `k` was present
or new and whichever nodes the insertion splits. -/
theorem C7_insert_iterator {N : Nat} (hN : 1 ≤ N) {s : ADS_set α} (hs : Reachable N s) (k : α) :
    ∃ s1 it b, insert N s k = some (s1, it, b) ∧ it ≠ s1.endIt ∧ s1.deref it = some k := by
  have hI := Reachable_inv hN hs
  obtain ⟨s1, it, b, h1, hI1, _, _, _, l, hl, hc, hv⟩ := insert_spec hN hI k
  refine ⟨s1, it, b, h1, ?_, ?_⟩
  · intro he
    rw [he] at hc
    simp [ADS_set.endIt, Iterator.endIt] at hc
  · obtain ⟨_, _, _, _, _, _, haddr⟩ := hI1
    simp only [deref, hc, leafAt_of_mem haddr.1 hl, List.get?_eq_getElem?, hv]

/-- Witness for C7: inserting 6 into the set holding 1..5 (`N = 2`); the key goes into
the right leaf `[4, 5]`. -/
theorem C7_witness :
    (1 ≤ 2) ∧ Reachable 2 sample5 ∧
    ∃ s1 it b, insert 2 sample5 6 = some (s1, it, b) ∧ it ≠ s1.endIt ∧ s1.deref it = some 6 :=
  ⟨by decide, sample5_reachable, C7_insert_iterator (by decide) sample5_reachable 6⟩

/-- C8: `insert` is idempotent: on every reachable set, a second `insert(k)` right after
the first leaves the state identical (same tree, same size, same allocator state) and
reports `inserted = false`. -/
theorem C8_insert_idempotent {N : Nat} (hN : 1 ≤ N) {s : ADS_set α} (hs : Reachable N s)
    (k : α) :
    ∃ s1 it1 b1 it2, insert N s k = some (s1, it1, b1) ∧
      insert N s1 k = some (s1, it2, false) := by
  have hI := Reachable_inv hN hs
  obtain ⟨s1, it, b, h1, hI1, hb, hins, hnot, _⟩ := insert_spec hN hI k
  have hkin : k ∈ s1.root.keys := by
    cases b with
    | true => exact (hins rfl).1.symm.subset (by simp)
    | false =>
      rw [hnot rfl]
      by_contra hc
      exact absurd (hb.mpr hc) (by simp)
  obtain ⟨s2, it2, b2, h2, _, hb2, _, hnot2, _⟩ := insert_spec hN hI1 k
  have hb2f : b2 = false := by
    cases b2 with
    | true => exact absurd hkin (hb2.mp rfl)
    | false => rfl
  subst hb2f
  rw [hnot2 rfl] at h2
  exact ⟨s1, it, b, it2, h1, h2⟩

/-- Witness for C8: inserting 6 twice into the set holding 1..5 (`N = 2`). -/
theorem C8_witness :
    (1 ≤ 2) ∧ Reachable 2 sample5 ∧
    ∃ s1 it1 b1 it2, insert 2 sample5 6 = some (s1, it1, b1) ∧
      insert 2 s1 6 = some (s1, it2, false) :=
  ⟨by decide, sample5_reachable, C8_insert_idempotent (by decide) sample5_reachable 6⟩

/-- C9: on every reachable set that does not hold `k`, `insert(k)` followed by
`erase(k)` yields a set with the same size, the same `begin`-to-`end` iteration and the
same membership as before, and `erase` returns 1. -/
theorem C9_insert_then_erase {N : Nat} (hN : 1 ≤ N) {s : ADS_set α} (hs : Reachable N s)
    (k : α) (hk : s.count k = some 0) :
    ∃ s1 it s2, insert N s k = some (s1, it, true) ∧ erase N s1 k = some (s2, 1) ∧
      s2.size = s.size ∧ (∀ fuel, s.size < fuel → s2.toList fuel = s.toList fuel) ∧
      (∀ j, s2.count j = s.count j) := by
  have hI := Reachable_inv hN hs
  have hknot := (count_zero_iff hI k).mp hk
  obtain ⟨s1, it, b, h1, hI1, hb, hins, _, _⟩ := insert_spec hN hI k
  have hbt : b = true := hb.mpr hknot
  subst hbt
  obtain ⟨hperm1, hsz1⟩ := hins rfl
  have hkin : k ∈ s1.root.keys := hperm1.symm.subset (by simp)
  obtain ⟨s2, n, h2, hI2, hn, _, hdel, _⟩ := erase_spec hN hI1 k
  have hn1 : n = 1 := hn.mpr hkin
  subst hn1
  obtain ⟨hperm2, hsz2⟩ := hdel rfl
  have hkeys : s2.root.keys = s.root.keys :=
    sorted_perm_eq (List.Perm.cons_inv (hperm2.symm.trans hperm1)) (Inv_sorted hI2)
      (Inv_sorted hI)
  have hsz : s2.sz = s.sz := by omega
  refine ⟨s1, it, s2, h1, h2, hsz, ?_, ?_⟩
  · intro fuel hf
    simp only [ADS_set.size] at hf
    rw [toList_spec hN hI fuel hf, toList_spec hN hI2 fuel (by omega), hkeys]
  · intro j
    exact count_congr hI hI2 j (by rw [hkeys])

/-- Witness for C9: inserting and erasing 9 on the set holding 1..5 (`N = 2`). -/
theorem C9_witness :
    (1 ≤ 2) ∧ Reachable 2 sample5 ∧ sample5.count 9 = some 0 ∧
    ∃ s1 it s2, insert 2 sample5 9 = some (s1, it, true) ∧ erase 2 s1 9 = some (s2, 1) ∧
      s2.size = sample5.size ∧
      (∀ fuel, sample5.size < fuel → s2.toList fuel = sample5.toList fuel) ∧
      (∀ j, s2.count j = sample5.count j) :=
  ⟨by decide, sample5_reachable, by rfl,
    C9_insert_then_erase (by decide) sample5_reachable 9 (by rfl)⟩

end Claims

/-! ### A reachable tree with an under-filled internal node -/

open ADS_set

/-- C10 (failing input): with `N = 2`, inserting 1, 2, ..., 20 and then erasing 1 and 2
leaves the internal node `[19]`, a child of the root, with one key, fewer than `N`: the
redistribution in `InternalNode::remove_elem` splits the right sibling one slot too far
to the right when the left sibling is the one that underflowed. -/
theorem C10_internal_underflow :
    ∃ s20 s22 : ADS_set Nat,
      insertAll 2 ADS_set.empty
        [1, 2, 3, 4, 5, 6, 7, 8, 9, 10, 11, 12, 13, 14, 15, 16, 17, 18, 19, 20] = some s20 ∧
      eraseAll 2 s20 [1, 2] = some s22 ∧
      s22.root =
        .int [16]
          [.int [7, 10, 13]
            [.ext 0 [3, 4, 5, 6] (some 2), .ext 2 [7, 8, 9] (some 3),
             .ext 3 [10, 11, 12] (some 4), .ext 4 [13, 14, 15] (some 5)],
           .int [19] [.ext 5 [16, 17, 18] (some 6), .ext 6 [19, 20] none]] ∧
      s22.root.balanced 2 = false := by
  refine ⟨
    ⟨.int [10] [.int [4, 7] [.ext 0 [1, 2, 3] (some 1), .ext 1 [4, 5, 6] (some 2), .ext 2 [7,
      8, 9] (some 3)], .int [13, 16, 19] [.ext 3 [10, 11, 12] (some 4), .ext 4 [13, 14, 15]
      (some 5), .ext 5 [16, 17, 18] (some 6), .ext 6 [19, 20] none]], 20, 7⟩,
    ⟨.int [16] [.int [7, 10, 13] [.ext 0 [3, 4, 5, 6] (some 2), .ext 2 [7, 8, 9] (some 3), .ext
      3 [10, 11, 12] (some 4), .ext 4 [13, 14, 15] (some 5)], .int [19] [.ext 5 [16, 17, 18]
      (some 6), .ext 6 [19, 20] none]], 18, 7⟩, ?_, ?_, rfl, rfl⟩
  · refine Eq.trans (insertAll_step (
      ⟨.ext 0 [1] none, 1, 1⟩ : ADS_set Nat) ?_) ?_
    · exact ⟨_, _, rfl⟩
    refine Eq.trans (insertAll_step (
      ⟨.ext 0 [1, 2] none, 2, 1⟩ : ADS_set Nat) ?_) ?_
    · exact ⟨_, _, rfl⟩
    refine Eq.trans (insertAll_step (
      ⟨.ext 0 [1, 2, 3] none, 3, 1⟩ : ADS_set Nat) ?_) ?_
    · exact ⟨_, _, rfl⟩
    refine Eq.trans (insertAll_step (
      ⟨.ext 0 [1, 2, 3, 4] none, 4, 1⟩ : ADS_set Nat) ?_) ?_
    · exact ⟨_, _, rfl⟩
    refine Eq.trans (insertAll_step (
      ⟨.int [4] [.ext 0 [1, 2, 3] (some 1), .ext 1 [4, 5] none], 5, 2⟩ : ADS_set Nat) ?_) ?_
    · exact ⟨_, _, rfl⟩
    refine Eq.trans (insertAll_step (
      ⟨.int [4] [.ext 0 [1, 2, 3] (some 1), .ext 1 [4, 5, 6] none], 6, 2⟩ : ADS_set Nat) ?_) ?_
    · exact ⟨_, _, rfl⟩
    refine Eq.trans (insertAll_step (
      ⟨.int [4] [.ext 0 [1, 2, 3] (some 1), .ext 1 [4, 5, 6, 7] none], 7, 2⟩ : ADS_set Nat) ?_) ?_
    · exact ⟨_, _, rfl⟩
    refine Eq.trans (insertAll_step (
      ⟨.int [4, 7] [.ext 0 [1, 2, 3] (some 1), .ext 1 [4, 5, 6] (some 2), .ext 2 [7, 8] none],
        8, 3⟩ : ADS_set Nat) ?_) ?_
    · exact ⟨_, _, rfl⟩
    refine Eq.trans (insertAll_step (
      ⟨.int [4, 7] [.ext 0 [1, 2, 3] (some 1), .ext 1 [4, 5, 6] (some 2), .ext 2 [7, 8, 9]
        none], 9, 3⟩ : ADS_set Nat) ?_) ?_
    · exact ⟨_, _, rfl⟩
    refine Eq.trans (insertAll_step (
      ⟨.int [4, 7] [.ext 0 [1, 2, 3] (some 1), .ext 1 [4, 5, 6] (some 2), .ext 2 [7, 8, 9, 10]
        none], 10, 3⟩ : ADS_set Nat) ?_) ?_
    · exact ⟨_, _, rfl⟩
    refine Eq.trans (insertAll_step (
      ⟨.int [4, 7, 10] [.ext 0 [1, 2, 3] (some 1), .ext 1 [4, 5, 6] (some 2), .ext 2 [7, 8, 9]
        (some 3), .ext 3 [10, 11] none], 11, 4⟩ : ADS_set Nat) ?_) ?_
    · exact ⟨_, _, rfl⟩
    refine Eq.trans (insertAll_step (
      ⟨.int [4, 7, 10] [.ext 0 [1, 2, 3] (some 1), .ext 1 [4, 5, 6] (some 2), .ext 2 [7, 8, 9]
        (some 3), .ext 3 [10, 11, 12] none], 12, 4⟩ : ADS_set Nat) ?_) ?_
    · exact ⟨_, _, rfl⟩
    refine Eq.trans (insertAll_step (
      ⟨.int [4, 7, 10] [.ext 0 [1, 2, 3] (some 1), .ext 1 [4, 5, 6] (some 2), .ext 2 [7, 8, 9]
        (some 3), .ext 3 [10, 11, 12, 13] none], 13, 4⟩ : ADS_set Nat) ?_) ?_
    · exact ⟨_, _, rfl⟩
    refine Eq.trans (insertAll_step (
      ⟨.int [4, 7, 10, 13] [.ext 0 [1, 2, 3] (some 1), .ext 1 [4, 5, 6] (some 2), .ext 2 [7, 8,
        9] (some 3), .ext 3 [10, 11, 12] (some 4), .ext 4 [13, 14] none], 14, 5⟩ : ADS_set Nat) ?_) ?_
    · exact ⟨_, _, rfl⟩
    refine Eq.trans (insertAll_step (
      ⟨.int [4, 7, 10, 13] [.ext 0 [1, 2, 3] (some 1), .ext 1 [4, 5, 6] (some 2), .ext 2 [7, 8,
        9] (some 3), .ext 3 [10, 11, 12] (some 4), .ext 4 [13, 14, 15] none], 15, 5⟩ : ADS_set Nat) ?_) ?_
    · exact ⟨_, _, rfl⟩
    refine Eq.trans (insertAll_step (
      ⟨.int [4, 7, 10, 13] [.ext 0 [1, 2, 3] (some 1), .ext 1 [4, 5, 6] (some 2), .ext 2 [7, 8,
        9] (some 3), .ext 3 [10, 11, 12] (some 4), .ext 4 [13, 14, 15, 16] none], 16, 5⟩ : ADS_set Nat) ?_) ?_
    · exact ⟨_, _, rfl⟩
    refine Eq.trans (insertAll_step (
      ⟨.int [10] [.int [4, 7] [.ext 0 [1, 2, 3] (some 1), .ext 1 [4, 5, 6] (some 2), .ext 2 [7,
        8, 9] (some 3)], .int [13, 16] [.ext 3 [10, 11, 12] (some 4), .ext 4 [13, 14, 15] (some
        5), .ext 5 [16, 17] none]], 17, 6⟩ : ADS_set Nat) ?_) ?_
    · exact ⟨_, _, rfl⟩
    refine Eq.trans (insertAll_step (
      ⟨.int [10] [.int [4, 7] [.ext 0 [1, 2, 3] (some 1), .ext 1 [4, 5, 6] (some 2), .ext 2 [7,
        8, 9] (some 3)], .int [13, 16] [.ext 3 [10, 11, 12] (some 4), .ext 4 [13, 14, 15] (some
        5), .ext 5 [16, 17, 18] none]], 18, 6⟩ : ADS_set Nat) ?_) ?_
    · exact ⟨_, _, rfl⟩
    refine Eq.trans (insertAll_step (
      ⟨.int [10] [.int [4, 7] [.ext 0 [1, 2, 3] (some 1), .ext 1 [4, 5, 6] (some 2), .ext 2 [7,
        8, 9] (some 3)], .int [13, 16] [.ext 3 [10, 11, 12] (some 4), .ext 4 [13, 14, 15] (some
        5), .ext 5 [16, 17, 18, 19] none]], 19, 6⟩ : ADS_set Nat) ?_) ?_
    · exact ⟨_, _, rfl⟩
    refine Eq.trans (insertAll_step (
      ⟨.int [10] [.int [4, 7] [.ext 0 [1, 2, 3] (some 1), .ext 1 [4, 5, 6] (some 2), .ext 2 [7,
        8, 9] (some 3)], .int [13, 16, 19] [.ext 3 [10, 11, 12] (some 4), .ext 4 [13, 14, 15]
        (some 5), .ext 5 [16, 17, 18] (some 6), .ext 6 [19, 20] none]], 20, 7⟩ : ADS_set Nat) ?_) ?_
    · exact ⟨_, _, rfl⟩
    rfl
  · refine Eq.trans (eraseAll_step (
      ⟨.int [10] [.int [4, 7] [.ext 0 [2, 3] (some 1), .ext 1 [4, 5, 6] (some 2), .ext 2 [7, 8,
        9] (some 3)], .int [13, 16, 19] [.ext 3 [10, 11, 12] (some 4), .ext 4 [13, 14, 15]
        (some 5), .ext 5 [16, 17, 18] (some 6), .ext 6 [19, 20] none]], 19, 7⟩ : ADS_set Nat) ?_) ?_
    · exact ⟨_, rfl⟩
    refine Eq.trans (eraseAll_step (
      ⟨.int [16] [.int [7, 10, 13] [.ext 0 [3, 4, 5, 6] (some 2), .ext 2 [7, 8, 9] (some 3),
        .ext 3 [10, 11, 12] (some 4), .ext 4 [13, 14, 15] (some 5)], .int [19] [.ext 5 [16, 17,
        18] (some 6), .ext 6 [19, 20] none]], 18, 7⟩ : ADS_set Nat) ?_) ?_
    · exact ⟨_, rfl⟩
    rfl

/-! ### Shape of the result of `add_elem` and of the facade `insert` -/

section Shapes
variable {α : Type} [LinearOrder α]

/-- The two ways `InternalNode::add_elem` builds its result from the result `r0` of the
routed child: reinstall the child, or split it and insert the new separator and link. -/
theorem add_elem_int_shape {N f : Nat} {vs : List α} {cs : List (Node α)} {fresh : Nat}
    {k : α} {r : InsRes α} (h : add_elem N (f + 1) (.int vs cs) fresh k = some r) :
    ∃ child r0, cs.get? (find_child_pos vs k) = some child ∧
      add_elem N f child fresh k = some r0 ∧
      ((r0.state ≠ InsertState.TRIGGER_SPLIT ∧
          r.node = .int vs (cs.set (find_child_pos vs k) r0.node) ∧ r.state = r0.state) ∨
       (r0.state = InsertState.TRIGGER_SPLIT ∧ ∃ sp idx vs1 cs1 cs2,
          splitDefault r0.fresh r0.node = some sp ∧ new_index sp.sep sp.right = some idx ∧
          insert_at_int N vs (cs.set (find_child_pos vs k) sp.left) idx
            (findpos_autoinvert vs idx) = some (vs1, cs1) ∧
          writeAt cs1 (findpos_autoinvert vs idx + 1) sp.right = some cs2 ∧
          r.node = .int vs1 cs2 ∧
          r.state = (if vs1.length ≤ 2 * N then InsertState.SUCCESS
            else InsertState.TRIGGER_SPLIT))) := by
  simp only [add_elem] at h
  split at h
  · cases h
  · rename_i child hc
    split at h
    · cases h
    · rename_i r0 hr0
      refine ⟨child, r0, hc, hr0, ?_⟩
      split at h
      · rename_i hst
        right
        refine ⟨hst, ?_⟩
        split at h
        · cases h
        · rename_i sp hsp
          split at h
          · cases h
          · rename_i idx hidx
            split at h
            · cases h
            · rename_i vs1 cs1 hins
              split at h
              · cases h
              · rename_i cs2 hw
                split at h
                · cases h
                · rename_i it hit
                  cases h
                  exact ⟨sp, idx, vs1, cs1, cs2, hsp, hidx, hins, hw, rfl, rfl⟩
      · rename_i hst
        left
        cases h
        exact ⟨hst, rfl, rfl⟩

/-- The root handling of `ADS_set::insert` on the result `r` of `root->add_elem`. -/
theorem insert_shape {N : Nat} {s s1 : ADS_set α} {k : α} {it : Iterator} {b : Bool}
    (h : ADS_set.insert N s k = some (s1, it, b)) :
    ∃ r, add_elem N s.root.height s.root s.fresh k = some r ∧
      ((r.state ≠ InsertState.TRIGGER_SPLIT ∧ s1.root = r.node) ∨
       (r.state = InsertState.TRIGGER_SPLIT ∧ ∃ sp idx,
          splitDefault r.fresh r.node = some sp ∧ new_index sp.sep sp.right = some idx ∧
          s1.root = .int [idx] [sp.left, sp.right])) := by
  simp only [ADS_set.insert] at h
  split at h
  · cases h
  · rename_i r hr
    refine ⟨r, hr, ?_⟩
    split at h
    · rename_i hst
      cases h
      exact Or.inl ⟨by rw [hst]; decide, rfl⟩
    · rename_i hst
      cases h
      exact Or.inl ⟨by rw [hst]; decide, rfl⟩
    · rename_i hst
      split at h
      · cases h
      · rename_i sp hsp
        split at h
        · cases h
        · rename_i idx hidx
          split at h
          · cases h
          · cases h
            exact Or.inr ⟨hst, sp, idx, hsp, hidx, rfl⟩

omit [LinearOrder α] in
theorem mem_writeAt {β : Type} {l l2 : List β} {i : Nat} {x : β}
    (h : writeAt l i x = some l2) : ∀ c ∈ l2, c = x ∨ c ∈ l := by
  intro c hc
  unfold writeAt at h
  split at h
  · cases h
    rcases List.mem_or_eq_of_mem_set hc with h1 | h1
    · exact Or.inr h1
    · exact Or.inl h1
  · split at h
    · cases h
      rcases List.mem_append.mp hc with h1 | h1
      · exact Or.inr h1
      · exact Or.inl (by simpa using h1)
    · cases h

theorem mem_insert_at {N : Nat} {vs vs1 : List α} {e : α} {ins : Nat}
    (h : insert_at N vs e ins = some vs1) :
    vs1.length = vs.length + 1 ∧ vs.length ≤ 2 * N ∧ (∀ v ∈ vs1, v = e ∨ v ∈ vs) ∧
      ∀ v ∈ vs, v ∈ vs1 := by
  unfold insert_at at h
  split at h
  · rename_i hg
    cases h
    refine ⟨?_, hg.2, ?_, ?_⟩
    · simp only [List.length_append, List.length_take, List.length_cons, List.length_drop]
      omega
    · intro v hv
      rcases List.mem_append.mp hv with h1 | h1
      · exact Or.inr (List.mem_of_mem_take h1)
      · rcases List.mem_cons.mp h1 with h2 | h2
        · exact Or.inl h2
        · exact Or.inr (List.mem_of_mem_drop h2)
    · intro v hv
      have : v ∈ vs.take ins ++ vs.drop ins := by rw [List.take_append_drop]; exact hv
      rcases List.mem_append.mp this with h1 | h1
      · exact List.mem_append.mpr (Or.inl h1)
      · exact List.mem_append.mpr (Or.inr (List.mem_cons_of_mem _ h1))
  · cases h

theorem mem_insert_at_int {N : Nat} {vs vs1 : List α} {cs cs1 : List (Node α)} {e : α}
    {ins : Nat} (h : insert_at_int N vs cs e ins = some (vs1, cs1)) :
    vs1.length = vs.length + 1 ∧ vs.length ≤ 2 * N ∧ (∀ v ∈ vs1, v = e ∨ v ∈ vs) ∧
      (∀ v ∈ vs, v ∈ vs1) ∧ ∀ c ∈ cs1, c ∈ cs := by
  unfold insert_at_int at h
  split at h
  · cases h
  · rename_i vs2 hv
    cases h
    obtain ⟨h1, h2, h3, h4⟩ := mem_insert_at hv
    refine ⟨h1, h2, h3, h4, ?_⟩
    intro c hc
    rcases List.mem_append.mp hc with h5 | h5
    · exact List.mem_of_mem_take h5
    · exact List.mem_of_mem_drop h5

end Shapes

/-! ### The default split and the fill of nodes under `insert` -/

section Fill
variable {α : Type}

theorem filledList_iff {N : Nat} : ∀ {cs : List (Node α)},
    filledList N cs = true ↔ ∀ c ∈ cs, c.filled N = true := by
  intro cs
  induction cs with
  | nil => simp [filledList]
  | cons c cs ih => simp [filledList, ih]

theorem filled_iff {N : Nat} (t : Node α) :
    t.filled N = true ↔ N ≤ t.size ∧ t.size ≤ 2 * N ∧ filledList N t.children = true := by
  cases t with
  | ext a vs nx => simp [Node.filled, Node.size, Node.values, Node.children, filledList]
  | int vs cs =>
    simp [Node.filled, Node.size, Node.values, Node.children, and_assoc]

theorem balanced_iff {N : Nat} (t : Node α) :
    t.balanced N = true ↔ t.size ≤ 2 * N ∧ filledList N t.children = true := by
  cases t with
  | ext a vs nx => simp [Node.balanced, Node.size, Node.values, Node.children, filledList]
  | int vs cs => simp [Node.balanced, Node.size, Node.values, Node.children]

theorem mem_nodesList {n : Node α} : ∀ {cs : List (Node α)},
    n ∈ nodesList cs ↔ ∃ c ∈ cs, n ∈ c.nodes := by
  intro cs
  induction cs with
  | nil => simp [nodesList]
  | cons c cs ih => simp [nodesList, ih]

theorem nodes_eq (t : Node α) : t.nodes = t :: nodesList t.children := by
  cases t with
  | ext a vs nx => simp [Node.nodes, Node.children, nodesList]
  | int vs cs => simp [Node.nodes, Node.children]

theorem mem_nodes_self (t : Node α) : t ∈ t.nodes := by
  rw [nodes_eq]; exact List.mem_cons_self _ _

theorem height_lt_of_mem {c : Node α} : ∀ {cs : List (Node α)}, c ∈ cs →
    c.height ≤ heightList cs := by
  intro cs
  induction cs with
  | nil => intro h; cases h
  | cons d ds ih =>
    intro h
    simp only [heightList_cons]
    rcases List.mem_cons.mp h with h1 | h1
    · subst h1; exact le_max_left _ _
    · exact le_trans (ih h1) (le_max_right _ _)

/-- Induction over a tree: a property holds of every node if it holds of a node whenever
it holds of all its children. -/
theorem node_induction {P : Node α → Prop}
    (step : ∀ t : Node α, (∀ c ∈ t.children, P c) → P t) : ∀ t, P t := by
  have key : ∀ (h : Nat) (t : Node α), t.height ≤ h → P t := by
    intro h
    induction h with
    | zero =>
      intro t ht
      cases t with
      | ext a vs nx => simp [Node.height] at ht
      | int vs cs => simp [Node.height] at ht
    | succ h ih =>
      intro t ht
      apply step
      intro c hc
      apply ih
      cases t with
      | ext a vs nx => simp [Node.children] at hc
      | int vs cs =>
        simp only [Node.children] at hc
        have := height_lt_of_mem hc
        simp only [height_int] at ht
        omega
  intro t
  exact key _ t (le_refl _)

theorem filled_iff_nodes {N : Nat} (t : Node α) :
    t.filled N = true ↔ ∀ n ∈ t.nodes, N ≤ n.size ∧ n.size ≤ 2 * N := by
  induction t using node_induction with
  | step t ih =>
    rw [filled_iff, nodes_eq, filledList_iff]
    constructor
    · rintro ⟨h1, h2, h3⟩ n hn
      rcases List.mem_cons.mp hn with h4 | h4
      · subst h4; exact ⟨h1, h2⟩
      · obtain ⟨c, hc, hnc⟩ := mem_nodesList.mp h4
        exact (ih c hc).mp (h3 c hc) n hnc
    · intro h
      refine ⟨(h t (List.mem_cons_self _ _)).1, (h t (List.mem_cons_self _ _)).2, ?_⟩
      intro c hc
      refine (ih c hc).mpr ?_
      intro n hn
      exact h n (List.mem_cons_of_mem _ (mem_nodesList.mpr ⟨c, hc, hn⟩))

/-- The fill invariant read node by node: the root holds at most `2 * N` keys and every
node below it between `N` and `2 * N` keys. -/
theorem balanced_iff_nodes {N : Nat} (t : Node α) :
    t.balanced N = true ↔
      t.size ≤ 2 * N ∧ ∀ n ∈ nodesList t.children, N ≤ n.size ∧ n.size ≤ 2 * N := by
  rw [balanced_iff, filledList_iff]
  constructor
  · rintro ⟨h1, h2⟩
    refine ⟨h1, ?_⟩
    intro n hn
    obtain ⟨c, hc, hnc⟩ := mem_nodesList.mp hn
    exact (filled_iff_nodes c).mp (h2 c hc) n hnc
  · rintro ⟨h1, h2⟩
    refine ⟨h1, ?_⟩
    intro c hc
    refine (filled_iff_nodes c).mpr ?_
    intro n hn
    exact h2 n (mem_nodesList.mpr ⟨c, hc, hn⟩)

end Fill

section FillInsert
variable {α : Type} [LinearOrder α]

theorem splitDefault_ext (fresh a : Nat) (vs : List α) (nx : Option Nat)
    (h : 1 ≤ vs.length) :
    splitDefault fresh (.ext a vs nx) =
      some ⟨.ext a (vs.take ((vs.length + 1) / 2)) (some fresh),
            .ext fresh (vs.drop ((vs.length + 1) / 2)) nx, none, fresh + 1⟩ := by
  have e : (vs.length - 1) / 2 + 1 = (vs.length + 1) / 2 := by omega
  have e2 : (vs.length - 1) / 2 < vs.length := by omega
  simp only [splitDefault, split, Node.size, Node.values, e, e2, if_true]

theorem splitDefault_int (fresh : Nat) (vs : List α) (cs : List (Node α))
    (h : 1 ≤ vs.length) :
    splitDefault fresh (.int vs cs) =
      some ⟨.int (vs.take ((vs.length - 1) / 2)) (cs.take ((vs.length - 1) / 2 + 1)),
            .int (vs.drop ((vs.length - 1) / 2 + 1)) (cs.drop ((vs.length - 1) / 2 + 1)),
            vs.get? ((vs.length - 1) / 2), fresh⟩ := by
  have e2 : (vs.length - 1) / 2 < vs.length := by omega
  simp only [splitDefault, split, Node.size, Node.values, e2, if_true]

/-- A node with `2 * N + 1` keys is split by the default split into two nodes with at
least `N` and at most `2 * N` keys each. -/
theorem splitDefault_full {N : Nat} (hN : 1 ≤ N) (fresh : Nat) (t : Node α)
    (hsz : t.size = 2 * N + 1) :
    ∃ sp, splitDefault fresh t = some sp ∧
      N ≤ sp.left.size ∧ sp.left.size ≤ 2 * N ∧ N ≤ sp.right.size ∧ sp.right.size ≤ 2 * N ∧
      (∀ c ∈ sp.left.children, c ∈ t.children) ∧ (∀ c ∈ sp.right.children, c ∈ t.children) := by
  cases t with
  | ext a vs nx =>
    simp only [size_ext] at hsz
    refine ⟨_, splitDefault_ext fresh a vs nx (by omega), ?_⟩
    simp only [size_ext, List.length_take, List.length_drop, Node.children]
    refine ⟨by omega, by omega, by omega, by omega, ?_, ?_⟩ <;> intro c hc <;> cases hc
  | int vs cs =>
    simp only [size_int] at hsz
    refine ⟨_, splitDefault_int fresh vs cs (by omega), ?_⟩
    simp only [size_int, List.length_take, List.length_drop, Node.children]
    refine ⟨by omega, by omega, by omega, by omega, ?_, ?_⟩
    · intro c hc; exact List.mem_of_mem_take hc
    · intro c hc; exact List.mem_of_mem_drop hc

/-- Insertion keeps every node below the top node between `N` and `2 * N` keys, never
shrinks the top node, and signals `TRIGGER_SPLIT` exactly for a top node of `2 * N + 1`
keys. -/
theorem add_elem_filled {N : Nat} (hN : 1 ≤ N) : ∀ (f : Nat) {t : Node α} {fresh : Nat} {k : α}
    {r : InsRes α}, add_elem N f t fresh k = some r → t.size ≤ 2 * N →
    filledList N t.children = true →
    filledList N r.node.children = true ∧ t.size ≤ r.node.size ∧
      (r.state ≠ InsertState.TRIGGER_SPLIT → r.node.size ≤ 2 * N) ∧
      (r.state = InsertState.TRIGGER_SPLIT → r.node.size = 2 * N + 1) := by
  intro f
  induction f with
  | zero => intro t fresh k r h; simp [add_elem] at h
  | succ f ih =>
    intro t fresh k r h hsz hfl
    cases t with
    | ext a vs nx =>
      simp only [add_elem] at h
      split at h
      · cases h
        exact ⟨hfl, le_refl _, fun _ => hsz, fun h => by cases h⟩
      · split at h
        · cases h
        · rename_i vs1 hins
          cases h
          obtain ⟨h1, h2, _, _⟩ := mem_insert_at hins
          simp only [size_ext] at hsz ⊢
          refine ⟨by simp [Node.children, filledList], by omega, ?_, ?_⟩
          · intro hst
            by_contra hc
            rw [if_neg hc] at hst
            exact hst rfl
          · intro hst
            by_cases hc : vs1.length ≤ 2 * N
            · rw [if_pos hc] at hst; cases hst
            · omega
    | int vs cs =>
      obtain ⟨child, r0, hc, hr0, hcase⟩ := add_elem_int_shape h
      simp only [Node.children] at hfl
      rw [filledList_iff] at hfl
      have hcm : child ∈ cs := List.get?_mem hc
      have hcf := (filled_iff child).mp (hfl child hcm)
      obtain ⟨i1, i2, i3, i4⟩ := ih hr0 hcf.2.1 hcf.2.2
      simp only [size_int] at hsz
      rcases hcase with ⟨hst, hn, hs⟩ | ⟨hst, sp, idx, vs1, cs1, cs2, hsp, _, hins, hw, hn, hs⟩
      · rw [hn, hs]
        simp only [Node.children, size_int]
        refine ⟨?_, le_refl _, fun _ => hsz, fun h => absurd h hst⟩
        rw [filledList_iff]
        intro c hcin
        rcases List.mem_or_eq_of_mem_set hcin with h1 | h1
        · exact hfl c h1
        · subst h1
          exact (filled_iff _).mpr ⟨by omega, i3 hst, i1⟩
      · obtain ⟨sp2, hsp2, s1, s2, s3, s4, s5, s6⟩ := splitDefault_full hN r0.fresh r0.node (i4 hst)
        rw [hsp] at hsp2
        cases hsp2
        rw [filledList_iff] at i1
        have hL : sp.left.filled N = true :=
          (filled_iff _).mpr ⟨s1, s2, filledList_iff.mpr (fun c hc => i1 c (s5 c hc))⟩
        have hR : sp.right.filled N = true :=
          (filled_iff _).mpr ⟨s3, s4, filledList_iff.mpr (fun c hc => i1 c (s6 c hc))⟩
        obtain ⟨j1, j2, _, _, j5⟩ := mem_insert_at_int hins
        rw [hn, hs]
        simp only [Node.children, size_int]
        refine ⟨?_, by omega, ?_, ?_⟩
        · rw [filledList_iff]
          intro c hcin
          rcases mem_writeAt hw c hcin with h1 | h1
          · subst h1; exact hR
          · rcases List.mem_or_eq_of_mem_set (j5 c h1) with h2 | h2
            · exact hfl c h2
            · subst h2; exact hL
        · intro hst2
          by_contra hcc
          rw [if_neg hcc] at hst2
          exact hst2 rfl
        · intro hst2
          by_cases hcc : vs1.length ≤ 2 * N
          · rw [if_pos hcc] at hst2; cases hst2
          · omega

end FillInsert

/-! ### Fill of the tree under insertion; node-wise reading of well-formedness -/

section FillFacade
variable {α : Type} [LinearOrder α]

theorem insert_balanced {N : Nat} (hN : 1 ≤ N) {s s1 : ADS_set α} {k : α} {it : Iterator}
    {b : Bool} (h : ADS_set.insert N s k = some (s1, it, b))
    (hb : s.root.balanced N = true) : s1.root.balanced N = true := by
  obtain ⟨r, hr, hcase⟩ := insert_shape h
  rw [balanced_iff] at hb ⊢
  obtain ⟨i1, i2, i3, i4⟩ := add_elem_filled hN _ hr hb.1 hb.2
  rcases hcase with ⟨hst, hroot⟩ | ⟨hst, sp, idx, hsp, _, hroot⟩
  · rw [hroot]
    exact ⟨i3 hst, i1⟩
  · obtain ⟨sp2, hsp2, s1, s2, s3, s4, s5, s6⟩ := splitDefault_full hN r.fresh r.node (i4 hst)
    rw [hsp] at hsp2
    cases hsp2
    rw [filledList_iff] at i1
    rw [hroot]
    simp only [size_int, Node.children, List.length_singleton]
    refine ⟨by omega, ?_⟩
    rw [filledList_iff]
    intro c hc
    simp only [List.mem_cons, List.mem_singleton, List.not_mem_nil, or_false] at hc
    rcases hc with rfl | rfl
    · exact (filled_iff _).mpr ⟨s1, s2, filledList_iff.mpr (fun c hc => i1 c (s5 c hc))⟩
    · exact (filled_iff _).mpr ⟨s3, s4, filledList_iff.mpr (fun c hc => i1 c (s6 c hc))⟩

theorem ReachableI_balanced {N : Nat} (hN : 1 ≤ N) {s : ADS_set α}
    (hs : ADS_set.ReachableI N s) : s.root.balanced N = true := by
  induction hs with
  | empty => simp [ADS_set.empty, Node.balanced]
  | insert _ h ih => exact insert_balanced hN h ih

theorem ReachableI_reachable {N : Nat} {s : ADS_set α} (hs : ADS_set.ReachableI N s) :
    ADS_set.Reachable N s := by
  induction hs with
  | empty => exact ADS_set.Reachable.empty
  | insert _ h ih => exact ADS_set.Reachable.insert ih h

theorem reachableI_insertAll {N : Nat} : ∀ (xs : List α) {s s1 : ADS_set α},
    ADS_set.ReachableI N s → ADS_set.insertAll N s xs = some s1 → ADS_set.ReachableI N s1 := by
  intro xs
  induction xs with
  | nil =>
    intro s s1 hs h
    simp only [ADS_set.insertAll] at h
    cases h
    exact hs
  | cons x xs ih =>
    intro s s1 hs h
    simp only [ADS_set.insertAll] at h
    split at h
    · cases h
    · rename_i s2 p hi
      obtain ⟨it, b⟩ := p
      exact ih (ADS_set.ReachableI.insert hs hi) h

theorem sample5_reachableI : ADS_set.ReachableI 2 ADS_set.sample5 :=
  reachableI_insertAll [1, 2, 3, 4, 5] ADS_set.ReachableI.empty (by rfl)

/-- With `N = 1` the fill the code maintains is the fill of the specification. -/
theorem WF_filled_one : ∀ (h : Nat) {lo hi : Option α} {t : Node α},
    WF 1 h lo t hi → lowOK 1 t → t.size ≤ 2 → t.filled 1 = true := by
  intro h
  induction h with
  | zero =>
    intro lo hi t hw hl hs
    obtain ⟨a, vs, nx, rfl, _, _⟩ := WF_zero_inv hw
    simp only [lowOK] at hl
    simp only [size_ext] at hs
    simp [Node.filled, hl, hs]
  | succ h ih =>
    intro lo hi t hw hl hs
    obtain ⟨vs, cs, rfl, hseps⟩ := WF_succ_inv hw
    simp only [lowOK] at hl
    simp only [size_int] at hs
    rw [filled_iff]
    simp only [size_int, Node.children]
    refine ⟨hl.2, hs, ?_⟩
    rw [filledList_iff]
    intro c hc
    obtain ⟨l, u, hwc, hlc, hsc⟩ := Seps_forall hseps c hc
    exact ih hwc hlc hsc

theorem Inv_balanced_one {s : ADS_set α} (hI : ADS_set.Inv 1 s) :
    s.root.balanced 1 = true := by
  obtain ⟨h, hw, hsz, _, _, _, _⟩ := hI
  rw [balanced_iff]
  refine ⟨hsz, ?_⟩
  rw [filledList_iff]
  intro c hc
  cases h with
  | zero =>
    obtain ⟨a, vs, nx, hr, _, _⟩ := WF_zero_inv hw
    rw [hr] at hc
    simp [Node.children] at hc
  | succ h =>
    obtain ⟨vs, cs, hr, hseps⟩ := WF_succ_inv hw
    rw [hr] at hc
    simp only [Node.children] at hc
    obtain ⟨l, u, hwc, hlc, hsc⟩ := Seps_forall hseps c hc
    exact WF_filled_one h hwc hlc hsc

end FillFacade

/-! ### Separators and subtrees, node by node -/

section NodeWise
variable {α : Type} [LinearOrder α]

omit [LinearOrder α] in
theorem keys_subset_of_mem {c : Node α} : ∀ {cs : List (Node α)}, c ∈ cs →
    ∀ k ∈ c.keys, k ∈ leafKeys (leavesList cs) := by
  intro cs
  induction cs with
  | nil => intro h; cases h
  | cons d ds ih =>
    intro h k hk
    simp only [leavesList_cons, leafKeys_append, List.mem_append]
    rcases List.mem_cons.mp h with h1 | h1
    · subst h1; exact Or.inl hk
    · exact Or.inr (ih h1 k hk)

omit [LinearOrder α] in
theorem keys_cons_list (c : Node α) (cs : List (Node α)) :
    leafKeys (leavesList (c :: cs)) = c.keys ++ leafKeys (leavesList cs) := by
  simp only [leavesList_cons, leafKeys_append, Node.keys]

/-- Every node of a well-formed tree is itself a well-formed tree at its own height and
between its own bounds. -/
theorem WF_nodes {N : Nat} : ∀ (h : Nat) {lo hi : Option α} {t : Node α},
    WF N h lo t hi → ∀ n ∈ t.nodes, ∃ h1 lo1 hi1, WF N h1 lo1 n hi1 := by
  intro h
  induction h with
  | zero =>
    intro lo hi t hw n hn
    obtain ⟨a, vs, nx, rfl, _, _⟩ := WF_zero_inv hw
    simp only [Node.nodes, List.mem_singleton] at hn
    subst hn
    exact ⟨0, lo, hi, hw⟩
  | succ h ih =>
    intro lo hi t hw n hn
    obtain ⟨vs, cs, rfl, hseps⟩ := WF_succ_inv hw
    simp only [Node.nodes, List.mem_cons] at hn
    rcases hn with rfl | hn
    · exact ⟨h + 1, lo, hi, hw⟩
    · obtain ⟨c, hc, hnc⟩ := mem_nodesList.mp hn
      obtain ⟨l, u, hwc, _, _⟩ := Seps_forall hseps c hc
      exact ih hwc n hnc

/-- The keys of a well-formed node, separators or data, are strictly ascending and lie
within its bounds. -/
theorem WF_values {N : Nat} : ∀ (h : Nat) {lo hi : Option α} {t : Node α},
    WF N h lo t hi →
    t.values.Pairwise (· < ·) ∧ ∀ v ∈ t.values, below lo v ∧ above v hi := by
  intro h lo hi t hw
  cases h with
  | zero =>
    obtain ⟨a, vs, nx, rfl, h1, h2⟩ := WF_zero_inv hw
    exact ⟨h1, h2⟩
  | succ h =>
    obtain ⟨vs, cs, rfl, hseps⟩ := WF_succ_inv hw
    obtain ⟨h1, h2, _⟩ := Seps_sorted hseps
    refine ⟨h1, ?_⟩
    intro v hv
    refine ⟨?_, (h2 v hv).2⟩
    intro l hl
    exact le_of_lt ((h2 v hv).1 l hl v rfl)

theorem keys_ne_nil {N : Nat} (hN : 1 ≤ N) {h : Nat} {lo hi : Option α} {c : Node α}
    (hw : WF N h lo c hi) (hl : lowOK N c) : c.keys ≠ [] := by
  have h1 := leaves_ne_nil h hw
  have h2 := leaves_values_ne hN h hw hl
  intro h3
  cases hls : c.leaves with
  | nil => exact h1 hls
  | cons l ls =>
    have hl0 := h2 l (by rw [hls]; exact List.mem_cons_self _ _)
    simp only [Node.keys, hls, leafKeys_cons, List.append_eq_nil] at h3
    exact hl0 h3.1

/-- Separator `i` of a well-formed internal node: child `i` holds only smaller keys, child
`i + 1` is not empty and holds only keys at or above the separator, and if the
separator is stored anywhere below the node it is stored below child `i + 1`. -/
theorem WF_sep_bounds {N : Nat} (hN : 1 ≤ N) {h : Nat} {lo hi : Option α} {vs : List α}
    {cs : List (Node α)} (hw : WF N (h + 1) lo (Node.int vs cs) hi) {i : Nat} {v : α}
    (hv : vs[i]? = some v) :
    ∃ c c1, cs[i]? = some c ∧ cs[i + 1]? = some c1 ∧
      (∀ k ∈ c.keys, k < v) ∧ (∀ k ∈ c1.keys, v ≤ k) ∧ c1.keys ≠ [] ∧
      c1.keys.Pairwise (· < ·) ∧ (v ∈ (Node.int vs cs).keys → v ∈ c1.keys) := by
  have hseps := WF_int_iff.mp hw
  have hlen := Seps_length hseps
  have hi1 : i < vs.length := by
    by_contra hc
    rw [List.getElem?_eq_none (by omega)] at hv
    cases hv
  obtain ⟨s, hs, SL, SR⟩ := Seps_split i hseps hi1
  rw [hv] at hs
  cases hs
  have hP : ∀ (l : Option α) (c : Node α) (u : Option α),
      (WF N h l c u ∧ lowOK N c ∧ c.size ≤ 2 * N) →
      c.keys.Pairwise (· < ·) ∧ ∀ x ∈ c.keys, below l x ∧ above x u :=
    fun l c u hp => WF_keys h hp.1
  have hci : i < cs.length := by omega
  have hci1 : i + 1 < cs.length := by omega
  have e1 : cs[i]? = some cs[i] := List.getElem?_eq_getElem hci
  have e2 : cs[i + 1]? = some cs[i + 1] := List.getElem?_eq_getElem hci1
  have hdrop : cs.drop (i + 1) = cs[i + 1] :: cs.drop (i + 2) := by
    exact (List.getElem_cons_drop cs (i + 1) hci1).symm
  have hmemL : cs[i] ∈ cs.take (i + 1) := by
    rw [List.mem_iff_getElem]
    exact ⟨i, by simp; omega, by simp⟩
  have hL := (Seps_keys hP SL).2
  have hR := (Seps_keys hP SR).2
  rw [hdrop] at SR hR
  rw [keys_cons_list] at hR
  obtain ⟨hPc, hol, hsuf⟩ := (Seps_cons_iff _ _ _ _ _).mp SR
  refine ⟨cs[i], cs[i + 1], e1, e2, ?_, ?_, keys_ne_nil hN hPc.1 hPc.2.1,
    (WF_keys h hPc.1).1, ?_⟩
  · intro k hk
    have := (hL k (keys_subset_of_mem hmemL k hk)).2
    simpa using this
  · intro k hk
    have := (hR k (List.mem_append.mpr (Or.inl hk))).1
    simpa using this
  · intro hin
    rw [keys_int] at hin
    have hsplit : leafKeys (leavesList cs) =
        leafKeys (leavesList (cs.take (i + 1))) ++
          (cs[i + 1].keys ++ leafKeys (leavesList (cs.drop (i + 2)))) := by
      conv_lhs => rw [← List.take_append_drop (i + 1) cs]
      rw [leavesList_append, leafKeys_append, hdrop, keys_cons_list]
    rw [hsplit] at hin
    rcases List.mem_append.mp hin with h1 | h1
    · have := (hL v h1).2
      simp at this
    · rcases List.mem_append.mp h1 with h2 | h2
      · exact h2
      · obtain ⟨u, hu, hle⟩ := SufS_keys hP hsuf v h2
        rw [hu] at hol
        have : v < u := by simpa using hol
        exact absurd hle (not_le.mpr this)

end NodeWise

/-! ### Separators stay stored keys under insertion -/

section StoredLemmas
variable {α : Type} [LinearOrder α]

omit [LinearOrder α] in
theorem Stored_ext (a : Nat) (vs : List α) (nx : Option Nat) : Stored (Node.ext a vs nx) := by
  intro n hn v hv
  simp only [Node.nodes, List.mem_singleton] at hn
  subst hn
  simpa [Node.values] using hv

omit [LinearOrder α] in
theorem Stored_node {t : Node α} (hself : ∀ v ∈ t.values, v ∈ t.keys)
    (hch : ∀ c ∈ t.children, Stored c) : Stored t := by
  intro n hn
  rw [nodes_eq] at hn
  rcases List.mem_cons.mp hn with h1 | h1
  · subst h1; exact hself
  · obtain ⟨c, hc, hnc⟩ := mem_nodesList.mp h1
    exact hch c hc n hnc

omit [LinearOrder α] in
theorem Stored_child {t c : Node α} (h : Stored t) (hc : c ∈ t.children) : Stored c := by
  intro n hn
  apply h
  rw [nodes_eq]
  exact List.mem_cons_of_mem _ (mem_nodesList.mpr ⟨c, hc, hn⟩)

omit [LinearOrder α] in
theorem Stored_self {t : Node α} (h : Stored t) : ∀ v ∈ t.values, v ∈ t.keys :=
  h t (mem_nodes_self t)

/-- Splitting an over-full node whose keys are all stored below it gives two such nodes,
and the separator handed to the parent is a stored key. -/
theorem split_stored {N h : Nat} (hN : 1 ≤ N) {lo hi : Option α} {t : Node α} (fresh : Nat)
    (hw : WF N h lo t hi) (hsz : t.size = 2 * N + 1) (hst : Stored t) {sp : SplitRes α}
    (hsp : splitDefault fresh t = some sp) :
    ∃ s, new_index sp.sep sp.right = some s ∧ Stored sp.left ∧ Stored sp.right ∧
      s ∈ t.keys ∧ sp.left.keys ++ sp.right.keys = t.keys := by
  obtain ⟨sp1, s, h1, h2, WL, WR, _, _, _, _, _, hkeys, h0, hs⟩ :=
    split_WF fresh ((t.size - 1) / 2) hw (by omega) (by intro _; omega)
  have hsp0 := hsp
  simp only [splitDefault] at hsp
  rw [hsp] at h1
  cases h1
  have hLk := (WF_keys h WL).2
  have hRk := (WF_keys h WR).2
  refine ⟨s, h2, ?_, ?_, ?_, hkeys⟩
  · cases h with
    | zero =>
      obtain ⟨a, vs, nx, e, _, _⟩ := WF_zero_inv WL
      rw [e]; exact Stored_ext a vs nx
    | succ h =>
      obtain ⟨vs, cs, rfl, _⟩ := WF_succ_inv hw
      have e := splitDefault_int fresh vs cs (by simp only [size_int] at hsz; omega)
      rw [hsp0] at e
      cases e
      apply Stored_node
      · intro v hv
        simp only [Node.values] at hv
        have hv1 : v ∈ (Node.int vs cs).keys := Stored_self hst v (List.mem_of_mem_take hv)
        rw [← hkeys] at hv1
        rcases List.mem_append.mp hv1 with h3 | h3
        · exact h3
        · have a1 := ((WF_values _ WL).2 v hv).2
          have a2 := (hRk v h3).1
          simp only [above_some] at a1
          simp only [below_some] at a2
          exact absurd a1 (not_lt.mpr a2)
      · intro c hc
        simp only [Node.children] at hc
        exact Stored_child hst (List.mem_of_mem_take hc)
  · cases h with
    | zero =>
      obtain ⟨a, vs, nx, e, _, _⟩ := WF_zero_inv WR
      rw [e]; exact Stored_ext a vs nx
    | succ h =>
      obtain ⟨vs, cs, rfl, _⟩ := WF_succ_inv hw
      have e := splitDefault_int fresh vs cs (by simp only [size_int] at hsz; omega)
      rw [hsp0] at e
      cases e
      apply Stored_node
      · intro v hv
        simp only [Node.values] at hv
        have hv1 : v ∈ (Node.int vs cs).keys := Stored_self hst v (List.mem_of_mem_drop hv)
        rw [← hkeys] at hv1
        rcases List.mem_append.mp hv1 with h3 | h3
        · have a1 := ((WF_values _ WR).2 v hv).1
          have a2 := (hLk v h3).2
          simp only [above_some] at a2
          simp only [below_some] at a1
          exact absurd a2 (not_lt.mpr a1)
        · exact h3
      · intro c hc
        simp only [Node.children] at hc
        exact Stored_child hst (List.mem_of_mem_drop hc)
  · cases h with
    | zero =>
      obtain ⟨hs1, hs2⟩ := h0 rfl
      obtain ⟨a, vs, nx, e, _, _⟩ := WF_zero_inv WR
      rw [← hkeys, e]
      rw [e] at hs2
      simp only [Node.values] at hs2
      simp only [keys_ext, List.mem_append]
      right
      obtain ⟨ys, hys⟩ := List.head?_eq_some_iff.mp hs2
      rw [hys]; exact List.mem_cons_self _ _
    | succ h =>
      obtain ⟨vs, cs, rfl, _⟩ := WF_succ_inv hw
      have e := splitDefault_int fresh vs cs (by simp only [size_int] at hsz; omega)
      rw [hsp0] at e
      cases e
      have hs3 := hs (Nat.succ_ne_zero h)
      simp only [] at hs3
      exact Stored_self hst s (List.get?_mem hs3)

omit [LinearOrder α] in
theorem mem_leafKeys {x : α} {ls : List (Leaf α)} :
    x ∈ leafKeys ls ↔ ∃ l ∈ ls, x ∈ l.values := by
  simp [leafKeys, List.mem_flatten]

theorem ins_keys_mono {N h : Nat} {lo hi : Option α} {t : Node α} {fresh : Nat} {k : α}
    {r : InsRes α} (hp : InsPost N h lo hi t fresh k r) :
    (∀ x ∈ t.keys, x ∈ r.node.keys) ∧ (∀ x ∈ r.node.keys, x = k ∨ x ∈ t.keys) ∧
      k ∈ r.node.keys := by
  obtain ⟨_, _, ⟨l, hl, _, hlk⟩, hex, hne, _, _⟩ := hp
  have hk : k ∈ r.node.keys := mem_leafKeys.mpr ⟨l, hl, mem_of_getElem?_eq hlk⟩
  by_cases hs : r.state = InsertState.EXISTS
  · obtain ⟨e, _, _⟩ := hex hs
    rw [e] at hk ⊢
    exact ⟨fun x hx => hx, fun x hx => Or.inr hx, hk⟩
  · obtain ⟨_, hperm, _⟩ := hne hs
    refine ⟨fun x hx => hperm.symm.subset (List.mem_cons_of_mem _ hx), fun x hx => ?_, hk⟩
    have := hperm.subset hx
    simpa using this

/-- Insertion into a tree whose separators are all stored keys gives such a tree, also
in the over-full state that precedes a split. -/
theorem add_elem_stored {N : Nat} (hN : 1 ≤ N) : ∀ (h : Nat) {lo hi : Option α} {t : Node α}
    (fresh : Nat) {k : α} {r : InsRes α},
    WF N h lo t hi → t.size ≤ 2 * N → below lo k → above k hi → Stored t →
    add_elem N (h + 1) t fresh k = some r → Stored r.node := by
  intro h
  induction h with
  | zero =>
    intro lo hi t fresh k r hw hsz hlo hhi hst hadd
    obtain ⟨r1, hr1, hp⟩ := add_elem_spec hN 0 fresh hw hsz hlo hhi
    rw [hadd] at hr1
    cases hr1
    obtain ⟨a, vs, nx, e, _, _⟩ := WF_zero_inv hp.2.1
    rw [e]
    exact Stored_ext a vs nx
  | succ h ih =>
    intro lo hi t fresh k r hw hsz hlo hhi hst hadd
    obtain ⟨r1, hr1, hp⟩ := add_elem_spec hN (h + 1) fresh hw hsz hlo hhi
    rw [hadd] at hr1
    cases hr1
    obtain ⟨hsup, _, hkin⟩ := ins_keys_mono hp
    obtain ⟨vs, cs, rfl, hseps⟩ := WF_succ_inv hw
    obtain ⟨child, r0, hc, hr0, hcase⟩ := add_elem_int_shape hadd
    obtain ⟨m, c, _, hc2, _, hwc, _, hcsz, _, _, hbm, hab, _⟩ := descend hw hlo hhi
    have hcc : c = child := by
      rw [List.get?_eq_getElem?, hc2] at hc
      exact Option.some.inj hc
    subst hcc
    have hcm : c ∈ cs := List.get?_mem hc
    obtain ⟨r2, hr2, hp0⟩ := add_elem_spec hN h fresh hwc hcsz hbm hab
    rw [hr0] at hr2
    cases hr2
    have hst0 : Stored r0.node :=
      ih fresh hwc hcsz hbm hab (Stored_child hst (by simpa [Node.children] using hcm)) hr0
    obtain ⟨_, h0sub, _⟩ := ins_keys_mono hp0
    have hsub0 : ∀ x ∈ r0.node.keys, x ∈ r.node.keys := by
      intro x hx
      rcases h0sub x hx with h5 | h5
      · rw [h5]; exact hkin
      · exact hsup x (by rw [keys_int]; exact keys_subset_of_mem hcm x h5)
    apply Stored_node
    · intro v hv
      rcases hcase with ⟨_, hn, _⟩ | ⟨hst1, sp, idx, vs1, cs1, cs2, hsp, hidx, hins, _, hn, _⟩
      · rw [hn] at hv
        simp only [Node.values] at hv
        exact hsup v (Stored_self hst v hv)
      · rw [hn] at hv
        simp only [Node.values] at hv
        obtain ⟨_, _, j3, _, _⟩ := mem_insert_at_int hins
        rcases j3 v hv with h6 | h6
        · obtain ⟨s, hs1, _, _, hs4, _⟩ :=
            split_stored hN r0.fresh hp0.2.1 (hp0.2.2.2.2.2.2 hst1) hst0 hsp
          rw [hidx] at hs1
          cases hs1
          rw [h6]
          exact hsub0 _ hs4
        · exact hsup v (Stored_self hst v h6)
    · intro c1 hc1
      rcases hcase with ⟨_, hn, _⟩ | ⟨hst1, sp, idx, vs1, cs1, cs2, hsp, hidx, hins, hw2, hn, _⟩
      · rw [hn] at hc1
        simp only [Node.children] at hc1
        rcases List.mem_or_eq_of_mem_set hc1 with h7 | h7
        · exact Stored_child hst (by simpa [Node.children] using h7)
        · rw [h7]; exact hst0
      · rw [hn] at hc1
        simp only [Node.children] at hc1
        obtain ⟨s, _, hL, hR, _, _⟩ :=
          split_stored hN r0.fresh hp0.2.1 (hp0.2.2.2.2.2.2 hst1) hst0 hsp
        obtain ⟨_, _, _, _, j5⟩ := mem_insert_at_int hins
        rcases mem_writeAt hw2 c1 hc1 with h8 | h8
        · rw [h8]; exact hR
        · rcases List.mem_or_eq_of_mem_set (j5 c1 h8) with h9 | h9
          · exact Stored_child hst (by simpa [Node.children] using h9)
          · rw [h9]; exact hL

end StoredLemmas

/-! ### Separators of trees built by insertion alone -/

section StoredFacade
variable {α : Type} [LinearOrder α]

theorem min?_eq_of_le {l : List α} {v : α} (hv : v ∈ l) (hle : ∀ k ∈ l, v ≤ k) :
    l.min? = some v := by
  haveI : Std.Antisymm (fun (a b : α) => a ≤ b) := ⟨fun h1 h2 => le_antisymm h1 h2⟩
  exact (List.min?_eq_some_iff (fun a => le_refl a) (fun a b => min_choice a b)
    (fun a b c => le_min_iff)).mpr ⟨hv, hle⟩

theorem le_of_min?_eq {l : List α} {v : α} (h : l.min? = some v) :
    v ∈ l ∧ ∀ k ∈ l, v ≤ k := by
  haveI : Std.Antisymm (fun (a b : α) => a ≤ b) := ⟨fun h1 h2 => le_antisymm h1 h2⟩
  exact (List.min?_eq_some_iff (fun a => le_refl a) (fun a b => min_choice a b)
    (fun a b c => le_min_iff)).mp h

theorem insert_stored {N : Nat} (hN : 1 ≤ N) {s s1 : ADS_set α} {k : α} {it : Iterator}
    {b : Bool} (hI : ADS_set.Inv N s) (hst : Stored s.root)
    (h : ADS_set.insert N s k = some (s1, it, b)) : Stored s1.root := by
  obtain ⟨hh, hw, hsz, _, _, _, _⟩ := hI
  obtain ⟨r, hr, hcase⟩ := insert_shape h
  rw [WF_height hh hw] at hr
  obtain ⟨r1, hr1, hp⟩ := add_elem_spec hN hh s.fresh hw hsz (below_none k) (above_none k)
  rw [hr] at hr1
  cases hr1
  have hst1 := add_elem_stored hN hh s.fresh hw hsz (below_none k) (above_none k) hst hr
  rcases hcase with ⟨_, hroot⟩ | ⟨hts, sp, idx, hsp, hidx, hroot⟩
  · rw [hroot]; exact hst1
  · obtain ⟨x, hx1, hL, hR, hx4, hkeys⟩ :=
      split_stored hN r.fresh hp.2.1 (hp.2.2.2.2.2.2 hts) hst1 hsp
    rw [hidx] at hx1
    cases hx1
    rw [hroot]
    apply Stored_node
    · intro v hv
      simp only [Node.values, List.mem_singleton] at hv
      rw [hv, keys_int, keys_cons_list, keys_cons_list]
      simp only [leavesList_nil, leafKeys_nil, List.append_nil]
      rw [hkeys]
      exact hx4
    · intro c hc
      simp only [Node.children, List.mem_cons, List.mem_singleton, List.not_mem_nil,
        or_false] at hc
      rcases hc with rfl | rfl
      · exact hL
      · exact hR

theorem ReachableI_stored {N : Nat} (hN : 1 ≤ N) {s : ADS_set α}
    (hs : ADS_set.ReachableI N s) : Stored s.root := by
  induction hs with
  | empty => exact Stored_ext 0 [] none
  | insert hprev h ih =>
    exact insert_stored hN (ADS_set.Reachable_inv hN (ReachableI_reachable hprev)) ih h

end StoredFacade

/-! ### Depth of the leaves and height of the tree -/

section Depth
variable {α : Type} [LinearOrder α]

omit [LinearOrder α] in
theorem mem_leafDepthsList {d : Nat} : ∀ {cs : List (Node α)},
    d ∈ leafDepthsList cs ↔ ∃ c ∈ cs, ∃ d0 ∈ c.leafDepths, d = d0 + 1 := by
  intro cs
  induction cs with
  | nil => simp [leafDepthsList]
  | cons c cs ih =>
    simp only [leafDepthsList, List.mem_append, List.mem_map, ih, List.mem_cons,
      exists_eq_or_imp]
    constructor
    · rintro (⟨d0, h1, h2⟩ | h)
      · exact Or.inl ⟨d0, h1, h2.symm⟩
      · exact Or.inr h
    · rintro (⟨d0, h1, h2⟩ | h)
      · exact Or.inl ⟨d0, h1, h2.symm⟩
      · exact Or.inr h

/-- In a well-formed tree of height index `h` every leaf is `h` levels below the top. -/
theorem WF_leafDepths {N : Nat} : ∀ (h : Nat) {lo hi : Option α} {t : Node α},
    WF N h lo t hi → ∀ d ∈ t.leafDepths, d = h := by
  intro h
  induction h with
  | zero =>
    intro lo hi t hw d hd
    obtain ⟨a, vs, nx, rfl, _, _⟩ := WF_zero_inv hw
    simpa [Node.leafDepths] using hd
  | succ h ih =>
    intro lo hi t hw d hd
    obtain ⟨vs, cs, rfl, hseps⟩ := WF_succ_inv hw
    simp only [Node.leafDepths] at hd
    obtain ⟨c, hc, d0, hd0, e⟩ := mem_leafDepthsList.mp hd
    obtain ⟨l, u, hwc, _, _⟩ := Seps_forall hseps c hc
    rw [e, ih hwc d0 hd0]

open ADS_set in
/-- Height of the tree after `insert`: one more exactly when the root was split. -/
theorem insert_height {N : Nat} (hN : 1 ≤ N) {s : ADS_set α} (hI : Inv N s) (k : α) :
    ∃ r s1 it b, add_elem N s.root.height s.root s.fresh k = some r ∧
      insert N s k = some (s1, it, b) ∧
      s1.root.height =
        s.root.height + (if r.state = InsertState.TRIGGER_SPLIT then 1 else 0) := by
  obtain ⟨s1, it, b, hins, _⟩ := insert_spec hN hI k
  obtain ⟨hh, hw, hsz, _, _, _, _⟩ := hI
  obtain ⟨r, hr, hcase⟩ := insert_shape hins
  refine ⟨r, s1, it, b, hr, hins, ?_⟩
  have hheight := WF_height hh hw
  rw [hheight] at hr
  obtain ⟨r1, hr1, hp⟩ := add_elem_spec hN hh s.fresh hw hsz (below_none k) (above_none k)
  rw [hr] at hr1
  cases hr1
  rcases hcase with ⟨hst, hroot⟩ | ⟨hst, sp, idx, hsp, hidx, hroot⟩
  · rw [hroot, if_neg hst, WF_height hh hp.2.1, hheight]
  · obtain ⟨sp1, x, h1, _, WL, WR, _⟩ :=
      split_WF r.fresh ((r.node.size - 1) / 2) hp.2.1
        (by have := hp.2.2.2.2.2.2 hst; omega) (by intro _; have := hp.2.2.2.2.2.2 hst; omega)
    simp only [splitDefault] at hsp
    rw [hsp] at h1
    cases h1
    rw [hroot, if_pos hst, hheight]
    simp only [height_int, heightList_cons, heightList_nil, WF_height hh WL, WF_height hh WR]
    simp

open ADS_set in
/-- Height of the tree after `erase`: one less exactly when an internal root without keys
was replaced by its only child. -/
theorem erase_height {N : Nat} (hN : 1 ≤ N) {s : ADS_set α} (hI : Inv N s) (k : α) :
    ∃ r s1 n, remove_elem N s.root.height s.root s.fresh k = some r ∧
      erase N s k = some (s1, n) ∧
      s1.root.height +
        (if r.state = EraseState.TRIGGER_MERGE ∧ r.node.size = 0 ∧
            r.node.type = NodeType.INTERNAL then 1 else 0) = s.root.height := by
  obtain ⟨h, hw, hsz, hroot, _, _, _⟩ := hI
  obtain ⟨r, hr, _, hwr, _, _, _, _, _⟩ :=
    remove_elem_spec hN h s.fresh hw hsz hroot (below_none k) (above_none k)
  have hheight := WF_height h hw
  have hhr := WF_height h hwr
  rw [← hheight] at hr
  cases hst : r.state with
  | NOT_FOUND =>
    refine ⟨r, ⟨r.node, s.sz, r.fresh⟩, 0, hr, ?_, ?_⟩
    · simp only [erase, hr, hst]
    · simp [hst, hhr, hheight]
  | SUCCESS =>
    refine ⟨r, ⟨r.node, s.sz - 1, r.fresh⟩, 1, hr, ?_, ?_⟩
    · simp only [erase, hr, hst]
    · simp [hst, hhr, hheight]
  | TRIGGER_MERGE =>
    by_cases hz : r.node.size = 0
    · cases h with
      | zero =>
        obtain ⟨a, vs, nx, hn, _⟩ := WF_zero_inv hwr
        refine ⟨r, ⟨.ext r.fresh [] none, s.sz - 1, r.fresh + 1⟩, 1, hr, ?_, ?_⟩
        · rw [hn] at hz
          simp only [erase, hr, hst, hz, if_true, hn]
        · simp [hst, hn, Node.type, hheight, Node.height]
      | succ h =>
        obtain ⟨vs, cs, hn, hseps⟩ := WF_succ_inv hwr
        have hvs : vs = [] := by
          rw [hn] at hz; simpa using hz
        subst hvs
        match cs, hseps with
        | [c], hseps =>
          simp only [Seps] at hseps
          obtain ⟨⟨hwc, _, _⟩, _⟩ := hseps
          refine ⟨r, ⟨c, s.sz - 1, r.fresh⟩, 1, hr, ?_, ?_⟩
          · simp only [erase, hr, hst, hn, List.get?_eq_getElem?,
              List.getElem?_cons_zero, size_int, List.length_nil, if_true]
          · simp [hst, hn, Node.type, hheight, WF_height h hwc]
    · refine ⟨r, ⟨r.node, s.sz - 1, r.fresh⟩, 1, hr, ?_, ?_⟩
      · simp only [erase, hr, hst, hz, if_false]
      · simp [hst, hz, hhr, hheight]

end Depth

/-! ### Equality of sets; erasing everything -/

section Equality
variable {α : Type} [LinearOrder α]

open ADS_set in
/-- The loop of `operator==` compares the two iterations position by position. -/
theorem eqLoop_spec (a b : ADS_set α) : ∀ (f : Nat) (itl itr : Iterator) (la lb : List α)
    (g : Nat), iterFrom a f itl = some la → iterFrom b g itr = some lb →
    la.length = lb.length → eqLoop a b f itl itr = some (decide (la = lb)) := by
  intro f
  induction f with
  | zero => intro itl itr la lb g h1; simp [iterFrom] at h1
  | succ f ih =>
    intro itl itr la lb g h1 h2 hlen
    simp only [iterFrom] at h1
    split at h1
    · rename_i hend
      cases h1
      have : lb = [] := List.length_eq_zero.mp (by simpa using hlen.symm)
      subst this
      simp [eqLoop, hend]
    · rename_i hend
      split at h1
      · rename_i x it1 hx hit1
        split at h1
        · cases h1
        · rename_i xs hxs
          cases h1
          cases g with
          | zero => simp [iterFrom] at h2
          | succ g =>
            simp only [iterFrom] at h2
            split at h2
            · cases h2
              simp at hlen
            · rename_i hend2
              split at h2
              · rename_i y it2 hy hit2
                split at h2
                · cases h2
                · rename_i ys hys
                  cases h2
                  have hl : xs.length = ys.length := by simpa using hlen
                  have := ih it1 it2 xs ys g hxs hys hl
                  by_cases hxy : x = y
                  · subst hxy
                    simp [eqLoop, hend, hx, hy, hit1, hit2, this]
                  · simp [eqLoop, hend, hx, hy, hxy]
              · cases h2
      · cases h1

open ADS_set in
theorem operator_eq_spec {N : Nat} (hN : 1 ≤ N) {a b : ADS_set α} (ha : Inv N a)
    (hb : Inv N b) (fuel : Nat) (hf : a.sz < fuel) :
    operator_eq a b fuel = some (decide (a.root.keys = b.root.keys)) := by
  have hca : a.sz = a.root.keys.length := ha.choose_spec.2.2.2.1
  have hcb : b.sz = b.root.keys.length := hb.choose_spec.2.2.2.1
  by_cases hsz : a.sz = b.sz
  · have h1 := toList_spec hN ha fuel hf
    have h2 := toList_spec hN hb fuel (by omega)
    simp only [toList] at h1 h2
    split at h1
    · cases h1
    · rename_i itl hitl
      split at h2
      · cases h2
      · rename_i itr hitr
        simp only [operator_eq, hsz, ne_eq, not_true_eq_false, if_false, hitl, hitr]
        exact eqLoop_spec a b fuel itl itr _ _ fuel h1 h2 (by omega)
  · have hne : a.root.keys ≠ b.root.keys := by
      intro h
      apply hsz
      rw [hca, hcb, h]
    simp [operator_eq, hsz, hne]

open ADS_set in
theorem eraseAll_spec {N : Nat} (hN : 1 ≤ N) : ∀ (ys : List α) {s : ADS_set α}, Inv N s →
    ∃ s1, eraseAll N s ys = some s1 ∧ Inv N s1 ∧
      ∀ x, x ∈ s1.root.keys ↔ x ∈ s.root.keys ∧ x ∉ ys := by
  intro ys
  induction ys with
  | nil =>
    intro s hI
    exact ⟨s, rfl, hI, by simp⟩
  | cons y ys ih =>
    intro s hI
    obtain ⟨s1, n, h1, hI1, hn, hn01, hdel, hsame⟩ := erase_spec hN hI y
    obtain ⟨s2, h2, hI2, hmem⟩ := ih hI1
    refine ⟨s2, ?_, hI2, ?_⟩
    · simp only [eraseAll, h1, h2]
    · intro x
      rw [hmem x]
      rcases hn01 with h0 | h1n
      · have e := hsame h0
        have hy : y ∉ s.root.keys := by
          intro hc
          have := hn.mpr hc
          omega
        rw [e]
        constructor
        · rintro ⟨h3, h4⟩
          refine ⟨h3, ?_⟩
          intro h5
          rcases List.mem_cons.mp h5 with h6 | h6
          · rw [h6] at h3; exact hy h3
          · exact h4 h6
        · rintro ⟨h3, h4⟩
          exact ⟨h3, fun h5 => h4 (List.mem_cons_of_mem _ h5)⟩
      · obtain ⟨hperm, _⟩ := hdel h1n
        have hnd : (y :: s1.root.keys).Nodup :=
          hperm.nodup_iff.mp ((Inv_sorted hI).imp ne_of_lt)
        have hy1 : y ∉ s1.root.keys := (List.nodup_cons.mp hnd).1
        constructor
        · rintro ⟨h3, h4⟩
          refine ⟨hperm.symm.subset (List.mem_cons_of_mem _ h3), ?_⟩
          intro h5
          rcases List.mem_cons.mp h5 with h6 | h6
          · rw [h6] at h3; exact hy1 h3
          · exact h4 h6
        · rintro ⟨h3, h4⟩
          have h5 := hperm.subset h3
          rcases List.mem_cons.mp h5 with h6 | h6
          · exact absurd (by rw [h6]; exact List.mem_cons_self _ _) h4
          · exact ⟨h6, fun h7 => h4 (List.mem_cons_of_mem _ h7)⟩

open ADS_set in
/-- A set without keys is a single empty leaf with a null `next`, and `sz = 0`. -/
theorem Inv_no_keys {N : Nat} (hN : 1 ≤ N) {s : ADS_set α} (hI : Inv N s)
    (hk : s.root.keys = []) : ∃ a, s.root = Node.ext a [] none ∧ s.sz = 0 := by
  obtain ⟨h, hw, _, hroot, hcount, ⟨e, hch⟩, _⟩ := hI
  cases h with
  | zero =>
    obtain ⟨a, vs, nx, hn, _, _⟩ := WF_zero_inv hw
    rw [hn] at hk hch
    simp only [keys_ext] at hk
    subst hk
    simp only [leaves_ext, Chain_cons, Chain_nil] at hch
    refine ⟨a, ?_, ?_⟩
    · rw [hn, hch.2]
    · rw [hcount, hn]; simp
  | succ h =>
    obtain ⟨vs, cs, hn, _⟩ := WF_succ_inv hw
    rw [hn] at hw hroot hk
    simp only [rootOK] at hroot
    have hv : vs[0]? = some vs[0] := List.getElem?_eq_getElem (by omega)
    obtain ⟨c, c1, _, hc1, _, _, hne, _, _⟩ := WF_sep_bounds hN hw hv
    exfalso
    cases hck : c1.keys with
    | nil => exact hne hck
    | cons x xs =>
      have hx : x ∈ c1.keys := by rw [hck]; exact List.mem_cons_self _ _
      have := keys_subset_of_mem (List.getElem?_mem hc1) x hx
      rw [keys_int] at hk
      rw [hk] at this
      cases this

end Equality

/-! ### Sample sets -/

section Samples
open ADS_set

theorem sample6_reachable : Reachable 2 sample6 := by
  have h6 : insertAll 2 (ADS_set.empty : ADS_set Nat) [1, 2, 3, 4, 5, 6] =
      some ⟨.int [4] [.ext 0 [1, 2, 3] (some 1), .ext 1 [4, 5, 6] none], 6, 2⟩ := by rfl
  have h7 : erase 2 (⟨.int [4] [.ext 0 [1, 2, 3] (some 1), .ext 1 [4, 5, 6] none], 6, 2⟩ :
      ADS_set Nat) 4 = some (sample6, 1) := by rfl
  exact Reachable.erase (reachable_insertAll _ Reachable.empty h6) h7

theorem sample6b_reachable : Reachable 2 sample6b :=
  reachable_insertAll [1, 2, 3, 5, 6] Reachable.empty (by rfl)

theorem sample9_insertAll :
    insertAll 1 (ADS_set.empty : ADS_set Nat) [1, 2, 3, 4, 5, 6, 7, 8, 9] = some sample9 := by
  refine Eq.trans (insertAll_step (
      ⟨.ext 0 [1] none, 1, 1⟩ : ADS_set Nat) ?_) ?_
  · exact ⟨_, _, rfl⟩
  refine Eq.trans (insertAll_step (
      ⟨.ext 0 [1, 2] none, 2, 1⟩ : ADS_set Nat) ?_) ?_
  · exact ⟨_, _, rfl⟩
  refine Eq.trans (insertAll_step (
      ⟨.int [3] [.ext 0 [1, 2] (some 1), .ext 1 [3] none], 3, 2⟩ : ADS_set Nat) ?_) ?_
  · exact ⟨_, _, rfl⟩
  refine Eq.trans (insertAll_step (
      ⟨.int [3] [.ext 0 [1, 2] (some 1), .ext 1 [3, 4] none], 4, 2⟩ : ADS_set Nat) ?_) ?_
  · exact ⟨_, _, rfl⟩
  refine Eq.trans (insertAll_step (
      ⟨.int [3, 5] [.ext 0 [1, 2] (some 1), .ext 1 [3, 4] (some 2), .ext 2 [5] none], 5, 3⟩ : ADS_set Nat) ?_) ?_
  · exact ⟨_, _, rfl⟩
  refine Eq.trans (insertAll_step (
      ⟨.int [3, 5] [.ext 0 [1, 2] (some 1), .ext 1 [3, 4] (some 2), .ext 2 [5, 6] none], 6, 3⟩ : ADS_set Nat) ?_) ?_
  · exact ⟨_, _, rfl⟩
  refine Eq.trans (insertAll_step (
      ⟨.int [5] [.int [3] [.ext 0 [1, 2] (some 1), .ext 1 [3, 4] (some 2)], .int [7] [.ext 2 [5,
      6] (some 3), .ext 3 [7] none]], 7, 4⟩ : ADS_set Nat) ?_) ?_
  · exact ⟨_, _, rfl⟩
  refine Eq.trans (insertAll_step (
      ⟨.int [5] [.int [3] [.ext 0 [1, 2] (some 1), .ext 1 [3, 4] (some 2)], .int [7] [.ext 2 [5,
      6] (some 3), .ext 3 [7, 8] none]], 8, 4⟩ : ADS_set Nat) ?_) ?_
  · exact ⟨_, _, rfl⟩
  refine Eq.trans (insertAll_step (
      ⟨.int [5] [.int [3] [.ext 0 [1, 2] (some 1), .ext 1 [3, 4] (some 2)], .int [7, 9] [.ext 2
      [5, 6] (some 3), .ext 3 [7, 8] (some 4), .ext 4 [9] none]], 9, 5⟩ : ADS_set Nat) ?_) ?_
  · exact ⟨_, _, rfl⟩
  rfl

theorem sampleOver_eraseAll : eraseAll 1 sample9 [1, 2] = some sampleOver := by
  refine Eq.trans (eraseAll_step (
      ⟨.int [5] [.int [3] [.ext 0 [2] (some 1), .ext 1 [3, 4] (some 2)], .int [7, 9] [.ext 2 [5,
      6] (some 3), .ext 3 [7, 8] (some 4), .ext 4 [9] none]], 8, 5⟩ : ADS_set Nat) ?_) ?_
  · exact ⟨_, rfl⟩
  refine Eq.trans (eraseAll_step (
      ⟨.int [7] [.int [5] [.ext 0 [3, 4] (some 2), .ext 2 [5, 6] (some 3)], .int [9] [.ext 3 [7,
      8] (some 4), .ext 4 [9] none]], 7, 5⟩ : ADS_set Nat) ?_) ?_
  · exact ⟨_, rfl⟩
  rfl

theorem sampleOver_reachable : Reachable 1 sampleOver :=
  reachable_eraseAll [1, 2] (reachable_insertAll _ Reachable.empty sample9_insertAll)
    sampleOver_eraseAll

end Samples

/-! ### The claims on fill, separators and depth -/

section Claims2
variable {α : Type} [LinearOrder α]
open ADS_set

/-- C11: for every `N ≥ 1`, in every tree reached from the empty tree by `insert` calls
only, the root holds at most `M = 2 * N` keys and every other node between `N` and `M`
keys; every further `insert` returns; and the default split of a node that overflowed to
`M + 1` keys gives two nodes of at least `N` (and at most `M`) keys each. -/
theorem C11_insert_only_fill {N : Nat} (hN : 1 ≤ N) {s : ADS_set α} (hs : ReachableI N s) :
    s.root.size ≤ 2 * N ∧
    (∀ n ∈ nodesList s.root.children, N ≤ n.size ∧ n.size ≤ 2 * N) ∧
    (∀ k, ∃ s1 it b, insert N s k = some (s1, it, b)) ∧
    (∀ (fresh : Nat) (t : Node α), t.size = 2 * N + 1 →
      ∃ sp, splitDefault fresh t = some sp ∧ N ≤ sp.left.size ∧ sp.left.size ≤ 2 * N ∧
        N ≤ sp.right.size ∧ sp.right.size ≤ 2 * N) := by
  have hb := (balanced_iff_nodes s.root).mp (ReachableI_balanced hN hs)
  refine ⟨hb.1, hb.2, ?_, ?_⟩
  · intro k
    obtain ⟨s1, it, b, h, _⟩ := insert_spec hN (Reachable_inv hN (ReachableI_reachable hs)) k
    exact ⟨s1, it, b, h⟩
  · intro fresh t ht
    obtain ⟨sp, h1, h2, h3, h4, h5, _⟩ := splitDefault_full hN fresh t ht
    exact ⟨sp, h1, h2, h3, h4, h5⟩

/-- C11 at `N = 2` on the set built by inserting 1, 2, 3, 4, 5. -/
theorem C11_witness :
    (1 ≤ 2) ∧ ReachableI 2 sample5 ∧
    sample5.root.size ≤ 2 * 2 ∧
    (∀ n ∈ nodesList sample5.root.children, 2 ≤ n.size ∧ n.size ≤ 2 * 2) ∧
    (∀ k, ∃ s1 it b, insert 2 sample5 k = some (s1, it, b)) ∧
    (∀ (fresh : Nat) (t : Node Nat), t.size = 2 * 2 + 1 →
      ∃ sp, splitDefault fresh t = some sp ∧ 2 ≤ sp.left.size ∧ sp.left.size ≤ 2 * 2 ∧
        2 ≤ sp.right.size ∧ sp.right.size ≤ 2 * 2) :=
  ⟨by decide, sample5_reachableI, C11_insert_only_fill (by decide) sample5_reachableI⟩

/-- C12: with `N = 1`, in every tree reached from the empty tree by `insert` and `erase`
calls the root holds at most 2 keys and every other node 1 or 2 keys, and every further
`insert` and `erase` returns. -/
theorem C12_fill_one {s : ADS_set α} (hs : Reachable 1 s) :
    s.root.size ≤ 2 ∧
    (∀ n ∈ nodesList s.root.children, 1 ≤ n.size ∧ n.size ≤ 2) ∧
    (∀ k, (∃ s1 it b, insert 1 s k = some (s1, it, b)) ∧
      ∃ s1 n, erase 1 s k = some (s1, n)) := by
  have hI := Reachable_inv (le_refl 1) hs
  have hb := (balanced_iff_nodes s.root).mp (Inv_balanced_one hI)
  refine ⟨hb.1, hb.2, ?_⟩
  intro k
  obtain ⟨s1, it, b, h, _⟩ := insert_spec (le_refl 1) hI k
  obtain ⟨s2, n, h2, _⟩ := erase_spec (le_refl 1) hI k
  exact ⟨⟨s1, it, b, h⟩, ⟨s2, n, h2⟩⟩

/-- C12 on the set reached by inserting 1, ..., 9 and erasing 1 and 2; the erase of 2
merges two internal nodes to three keys and splits the result at index 1. -/
theorem C12_witness :
    Reachable 1 sampleOver ∧
    sampleOver.root.size ≤ 2 ∧
    (∀ n ∈ nodesList sampleOver.root.children, 1 ≤ n.size ∧ n.size ≤ 2) ∧
    (∀ k, (∃ s1 it b, insert 1 sampleOver k = some (s1, it, b)) ∧
      ∃ s1 n, erase 1 sampleOver k = some (s1, n)) :=
  ⟨sampleOver_reachable, C12_fill_one sampleOver_reachable⟩

/-- C13: in every tree reached from the empty tree by `insert` and `erase` calls, the
keys of every node are strictly ascending, and for every internal node with separators
`vs` and children `cs` (one more child than separators) and every index `i`: every key
stored below child `i` is strictly less than `vs[i]` and every key stored below child
`i + 1` is greater than or equal to `vs[i]`. -/
theorem C13_separator_order {N : Nat} (hN : 1 ≤ N) {s : ADS_set α} (hs : Reachable N s) :
    ∀ n ∈ s.root.nodes, n.values.Pairwise (· < ·) ∧
      ∀ vs cs, n = Node.int vs cs → cs.length = vs.length + 1 ∧
        ∀ i v, vs[i]? = some v →
          ∃ c c1, cs[i]? = some c ∧ cs[i + 1]? = some c1 ∧
            (∀ k ∈ c.keys, k < v) ∧ (∀ k ∈ c1.keys, v ≤ k) := by
  intro n hn
  obtain ⟨h, hw, _⟩ := Reachable_inv hN hs
  obtain ⟨h1, lo1, hi1, hw1⟩ := WF_nodes h hw n hn
  refine ⟨(WF_values h1 hw1).1, ?_⟩
  intro vs cs e
  subst e
  cases h1 with
  | zero => simp [WF] at hw1
  | succ h1 =>
    refine ⟨Seps_length (WF_int_iff.mp hw1), ?_⟩
    intro i v hv
    obtain ⟨c, c1, e1, e2, b1, b2, _⟩ := WF_sep_bounds hN hw1 hv
    exact ⟨c, c1, e1, e2, b1, b2⟩

/-- C13 at `N = 2` on the set built by inserting 1, ..., 6 and erasing 4. -/
theorem C13_witness :
    (1 ≤ 2) ∧ Reachable 2 sample6 ∧
    ∀ n ∈ sample6.root.nodes, n.values.Pairwise (· < ·) ∧
      ∀ vs cs, n = Node.int vs cs → cs.length = vs.length + 1 ∧
        ∀ i v, vs[i]? = some v →
          ∃ c c1, cs[i]? = some c ∧ cs[i + 1]? = some c1 ∧
            (∀ k ∈ c.keys, k < v) ∧ (∀ k ∈ c1.keys, v ≤ k) :=
  ⟨by decide, sample6_reachable, C13_separator_order (by decide) sample6_reachable⟩

end Claims2

/-! ### The claims on separators as minima, leaf depth, and the first scenario -/

section Claims3
variable {α : Type} [LinearOrder α]
open ADS_set

/-- C14 (counterexample): with `N = 2`, after inserting 1, ..., 6 and erasing 4 the root
keeps the separator 4 while the smallest key below its child 1 is 5, so the separator
is not the smallest key of its right subtree. -/
theorem C14_stale_separator :
    ∃ s6 : ADS_set Nat,
      insertAll 2 ADS_set.empty [1, 2, 3, 4, 5, 6] = some s6 ∧
      erase 2 s6 4 = some (sample6, 1) ∧
      sample6.root = .int [4] [.ext 0 [1, 2, 3] (some 1), .ext 1 [5, 6] none] ∧
      (Node.ext 1 [5, 6] none : Node Nat).keys.min? = some 5 ∧
      ¬ SepIsMin sample6.root := by
  refine ⟨⟨.int [4] [.ext 0 [1, 2, 3] (some 1), .ext 1 [4, 5, 6] none], 6, 2⟩,
    by rfl, by rfl, rfl, by rfl, ?_⟩
  intro h
  have := h sample6.root (mem_nodes_self _) [4]
    [.ext 0 [1, 2, 3] (some 1), .ext 1 [5, 6] none] rfl 0 4 (.ext 1 [5, 6] none) rfl rfl
  revert this
  decide

/-- C14 (amended): in every tree reached from the empty tree by `insert` and `erase`
calls, for every internal node and every separator index `i`, child `i + 1` stores a key
and the separator is at most the smallest key stored below child `i + 1`; in a tree
reached by `insert` calls only the separator equals that smallest key. -/
theorem C14_separator_lower_bound {N : Nat} (hN : 1 ≤ N) {s : ADS_set α}
    (hs : Reachable N s) :
    SepLowerBound s.root ∧ (ReachableI N s → SepIsMin s.root) := by
  obtain ⟨h, hw, _⟩ := Reachable_inv hN hs
  have key : ∀ n ∈ s.root.nodes, ∀ vs cs, n = Node.int vs cs →
      ∀ i v c1, vs[i]? = some v → cs[i + 1]? = some c1 →
        (∀ k ∈ c1.keys, v ≤ k) ∧ c1.keys ≠ [] ∧ c1.keys.Pairwise (· < ·) ∧
          (v ∈ n.keys → v ∈ c1.keys) := by
    intro n hn vs cs e i v c1 hv hc1
    subst e
    obtain ⟨h1, lo1, hi1, hw1⟩ := WF_nodes h hw _ hn
    cases h1 with
    | zero => simp [WF] at hw1
    | succ h1 =>
      obtain ⟨c, c2, _, e2, _, b2, b3, b4, b5⟩ := WF_sep_bounds hN hw1 hv
      rw [hc1] at e2
      cases e2
      exact ⟨b2, b3, b4, b5⟩
  constructor
  · intro n hn vs cs e i v c1 hv hc1
    obtain ⟨b2, b3, b4, _⟩ := key n hn vs cs e i v c1 hv hc1
    cases hk : c1.keys with
    | nil => exact absurd hk b3
    | cons x xs =>
      rw [hk] at b2 b4
      refine ⟨x, min?_eq_of_le (List.mem_cons_self _ _) ?_, b2 x (List.mem_cons_self _ _)⟩
      intro k hkin
      rcases List.mem_cons.mp hkin with h2 | h2
      · rw [h2]
      · exact le_of_lt ((List.pairwise_cons.mp b4).1 k h2)
  · intro hI n hn vs cs e i v c1 hv hc1
    obtain ⟨b2, _, _, b5⟩ := key n hn vs cs e i v c1 hv hc1
    have hst := ReachableI_stored hN hI n hn v (by rw [e]; exact List.getElem?_mem hv)
    exact min?_eq_of_le (b5 hst) b2

/-- C14 (amended) at `N = 2` on the set built by inserting 1, 2, 3, 4, 5. -/
theorem C14_witness :
    (1 ≤ 2) ∧ Reachable 2 sample5 ∧ ReachableI 2 sample5 ∧
    SepLowerBound sample5.root ∧ SepIsMin sample5.root :=
  ⟨by decide, sample5_reachable, sample5_reachableI,
    (C14_separator_lower_bound (by decide) sample5_reachable).1,
    (C14_separator_lower_bound (by decide) sample5_reachable).2 sample5_reachableI⟩

/-- C15: in every tree reached from the empty tree by `insert` and `erase` calls all
leaves are at the same depth (the height of the tree minus one).  An `insert` puts every
leaf one level deeper exactly when the root signalled `TRIGGER_SPLIT` and was split, and
leaves every depth unchanged otherwise; an `erase` lifts every leaf by one level exactly
when an internal root left without keys was replaced by its only child, and leaves every
depth unchanged otherwise. -/
theorem C15_leaves_same_depth {N : Nat} (hN : 1 ≤ N) {s : ADS_set α} (hs : Reachable N s) :
    (∀ d ∈ s.root.leafDepths, d + 1 = s.root.height) ∧
    (∀ k, ∃ r s1 it b, add_elem N s.root.height s.root s.fresh k = some r ∧
      insert N s k = some (s1, it, b) ∧
      ∀ d ∈ s.root.leafDepths, ∀ d1 ∈ s1.root.leafDepths,
        d1 = d + (if r.state = InsertState.TRIGGER_SPLIT then 1 else 0)) ∧
    (∀ k, ∃ r s1 n, remove_elem N s.root.height s.root s.fresh k = some r ∧
      erase N s k = some (s1, n) ∧
      ∀ d ∈ s.root.leafDepths, ∀ d1 ∈ s1.root.leafDepths,
        d1 + (if r.state = EraseState.TRIGGER_MERGE ∧ r.node.size = 0 ∧
          r.node.type = NodeType.INTERNAL then 1 else 0) = d) := by
  have hI := Reachable_inv hN hs
  have depth : ∀ {t : ADS_set α}, Inv N t → ∀ d ∈ t.root.leafDepths, d + 1 = t.root.height := by
    intro t hIt d hd
    obtain ⟨h, hw, _⟩ := hIt
    rw [WF_leafDepths h hw d hd, WF_height h hw]
  refine ⟨depth hI, ?_, ?_⟩
  · intro k
    obtain ⟨r, s1, it, b, h1, h2, h3⟩ := insert_height hN hI k
    refine ⟨r, s1, it, b, h1, h2, ?_⟩
    intro d hd d1 hd1
    have e := depth hI d hd
    have e1 := depth (Reachable_inv hN (Reachable.insert hs h2)) d1 hd1
    omega
  · intro k
    obtain ⟨r, s1, n, h1, h2, h3⟩ := erase_height hN hI k
    refine ⟨r, s1, n, h1, h2, ?_⟩
    intro d hd d1 hd1
    have e := depth hI d hd
    have e1 := depth (Reachable_inv hN (Reachable.erase hs h2)) d1 hd1
    omega

/-- C15 at `N = 2` on the set built by inserting 1, 2, 3, 4, 5. -/
theorem C15_witness :
    (1 ≤ 2) ∧ Reachable 2 sample5 ∧
    (∀ d ∈ sample5.root.leafDepths, d + 1 = sample5.root.height) ∧
    (∀ k, ∃ r s1 it b, add_elem 2 sample5.root.height sample5.root sample5.fresh k = some r ∧
      insert 2 sample5 k = some (s1, it, b) ∧
      ∀ d ∈ sample5.root.leafDepths, ∀ d1 ∈ s1.root.leafDepths,
        d1 = d + (if r.state = InsertState.TRIGGER_SPLIT then 1 else 0)) ∧
    (∀ k, ∃ r s1 n, remove_elem 2 sample5.root.height sample5.root sample5.fresh k = some r ∧
      erase 2 sample5 k = some (s1, n) ∧
      ∀ d ∈ sample5.root.leafDepths, ∀ d1 ∈ s1.root.leafDepths,
        d1 + (if r.state = EraseState.TRIGGER_MERGE ∧ r.node.size = 0 ∧
          r.node.type = NodeType.INTERNAL then 1 else 0) = d) :=
  ⟨by decide, sample5_reachable, C15_leaves_same_depth (by decide) sample5_reachable⟩

/-- C16 (counterexample): with `N = 2`, inserting 1, 2, 3, 4, 5 into the empty set does
not give a root with separator 3 over the leaves `[1, 2]` and `[3, 4, 5]`. -/
theorem C16_not_separator_three :
    ∃ s : ADS_set Nat, ofList 2 [1, 2, 3, 4, 5] = some s ∧
      ¬ ∃ a b nx ny, s.root = .int [3] [.ext a [1, 2] nx, .ext b [3, 4, 5] ny] := by
  refine ⟨sample5, by rfl, ?_⟩
  rintro ⟨a, b, nx, ny, h⟩
  simp [sample5] at h

/-- C16 (amended): with `N = 2`, inserting 1, 2, 3, 4, 5 in that order into the empty set
gives a root that is an internal node with exactly one separator, 4, whose left child is
the leaf `[1, 2, 3]` and whose right child is the leaf `[4, 5]`; `size()` is 5 and the
iteration yields 1, 2, 3, 4, 5. -/
theorem C16_scenario_insert_five :
    ∃ s : ADS_set Nat, ofList 2 [1, 2, 3, 4, 5] = some s ∧
      s.root = .int [4] [.ext 0 [1, 2, 3] (some 1), .ext 1 [4, 5] none] ∧
      s.size = 5 ∧ ∀ fuel, 5 < fuel → s.toList fuel = some [1, 2, 3, 4, 5] := by
  refine ⟨sample5, by rfl, rfl, rfl, ?_⟩
  intro fuel hf
  exact toList_spec (by decide : 1 ≤ 2) (Reachable_inv (by decide) sample5_reachable) fuel hf

end Claims3

/-! ### The claims on equality, erasing everything, `findpos` and the default split -/

section Claims4
variable {α : Type} [LinearOrder α]
open ADS_set

/-- C17: for two reachable sets `a` and `b` (same `N`), `a == b` returns, and it returns
true exactly when the sizes are equal and the iterations from `begin` to `end` are equal
position by position; this is the case exactly when `a` and `b` hold the same keys
(`count` agrees on every key), whatever their node structure; `a != b` returns the
negation. -/
theorem C17_equality {N : Nat} (hN : 1 ≤ N) {a b : ADS_set α} (ha : Reachable N a)
    (hb : Reachable N b) :
    ∃ la lb, (∀ fuel, a.size < fuel → a.toList fuel = some la) ∧
      (∀ fuel, b.size < fuel → b.toList fuel = some lb) ∧
      (∀ fuel, a.size < fuel →
        a.operator_eq b fuel = some (decide (a.size = b.size ∧ la = lb)) ∧
        a.operator_ne b fuel = some (!decide (a.size = b.size ∧ la = lb))) ∧
      ((a.size = b.size ∧ la = lb) ↔ ∀ k, a.count k = b.count k) ∧
      ((a.size = b.size ∧ la = lb) ↔ ∀ k, k ∈ la ↔ k ∈ lb) := by
  have hIa := Reachable_inv hN ha
  have hIb := Reachable_inv hN hb
  have hca : a.sz = a.root.keys.length := hIa.choose_spec.2.2.2.1
  have hcb : b.sz = b.root.keys.length := hIb.choose_spec.2.2.2.1
  have hiff : (a.size = b.size ∧ a.root.keys = b.root.keys) ↔ a.root.keys = b.root.keys := by
    constructor
    · exact fun h => h.2
    · intro h
      refine ⟨?_, h⟩
      simp only [ADS_set.size]
      rw [hca, hcb, h]
  have hmem : a.root.keys = b.root.keys ↔ ∀ k, k ∈ a.root.keys ↔ k ∈ b.root.keys := by
    constructor
    · intro h k; rw [h]
    · intro h
      apply sorted_perm_eq _ (Inv_sorted hIa) (Inv_sorted hIb)
      exact (List.perm_ext_iff_of_nodup ((Inv_sorted hIa).imp ne_of_lt)
        ((Inv_sorted hIb).imp ne_of_lt)).mpr h
  refine ⟨a.root.keys, b.root.keys, fun fuel hf => toList_spec hN hIa fuel hf,
    fun fuel hf => toList_spec hN hIb fuel hf, ?_, ?_, ?_⟩
  · intro fuel hf
    have h := operator_eq_spec hN hIa hIb fuel hf
    have e : decide (a.size = b.size ∧ a.root.keys = b.root.keys) =
        decide (a.root.keys = b.root.keys) := by
      rw [decide_eq_decide]; exact hiff
    rw [e]
    refine ⟨h, ?_⟩
    simp only [operator_ne, h, Option.map_some']
  · rw [hiff, hmem]
    constructor
    · intro h k
      exact count_congr hIb hIa k (h k)
    · intro h k
      have := h k
      rw [count_eq hIa, count_eq hIb] at this
      by_cases h1 : k ∈ a.root.keys <;> by_cases h2 : k ∈ b.root.keys <;>
        simp [h1, h2] at this ⊢
  · rw [hiff, hmem]

/-- C17 at `N = 2` on two sets with the keys 1, 2, 3, 5, 6 under different separators. -/
theorem C17_witness :
    (1 ≤ 2) ∧ Reachable 2 sample6 ∧ Reachable 2 sample6b ∧
    ∃ la lb, (∀ fuel, sample6.size < fuel → sample6.toList fuel = some la) ∧
      (∀ fuel, sample6b.size < fuel → sample6b.toList fuel = some lb) ∧
      (∀ fuel, sample6.size < fuel →
        sample6.operator_eq sample6b fuel = some (decide (sample6.size = sample6b.size ∧ la = lb)) ∧
        sample6.operator_ne sample6b fuel =
          some (!decide (sample6.size = sample6b.size ∧ la = lb))) ∧
      ((sample6.size = sample6b.size ∧ la = lb) ↔ ∀ k, sample6.count k = sample6b.count k) ∧
      ((sample6.size = sample6b.size ∧ la = lb) ↔ ∀ k, k ∈ la ↔ k ∈ lb) :=
  ⟨by decide, sample6_reachable, sample6b_reachable,
    C17_equality (by decide) sample6_reachable sample6b_reachable⟩

/-- C18: for every `N ≥ 1`, every list of keys `xs` and every reordering `ys` of it:
inserting all of `xs` into the empty set and then erasing all of `ys` returns a set whose
root is a leaf with zero keys and a null `next`, with `size() = 0` and `begin() == end()`,
on which `find(k)` returns `end()` and `erase(k)` returns 0 and changes nothing, for
every `k`. -/
theorem C18_erase_all {N : Nat} (hN : 1 ≤ N) (xs ys : List α) (hp : ys.Perm xs) :
    ∃ s0 s a, insertAll N ADS_set.empty xs = some s0 ∧ eraseAll N s0 ys = some s ∧
      s.root = Node.ext a [] none ∧ s.size = 0 ∧ s.begin = some s.endIt ∧
      ∀ k, s.find k = some s.endIt ∧ s.erase N k = some (s, 0) := by
  obtain ⟨s0, h0, hI0, hm0⟩ := insertAll_spec hN xs (Inv_empty N : Inv N (ADS_set.empty : ADS_set α))
  obtain ⟨s, h1, hI1, hm1⟩ := eraseAll_spec hN ys hI0
  have hk : s.root.keys = [] := by
    apply List.eq_nil_iff_forall_not_mem.mpr
    intro x hx
    obtain ⟨h2, h3⟩ := (hm1 x).mp hx
    rcases (hm0 x).mp h2 with h4 | h4
    · simp [ADS_set.empty] at h4
    · exact h3 (hp.symm.subset h4)
  obtain ⟨a, hroot, hsz⟩ := Inv_no_keys hN hI1 hk
  refine ⟨s0, s, a, h0, h1, hroot, hsz, ?_, ?_⟩
  · simp [ADS_set.begin, hroot, Node.height, begin_it, ADS_set.endIt]
  · intro k
    have hs : s = ⟨Node.ext a [] none, 0, s.fresh⟩ := by
      cases s with
      | mk root sz fresh =>
        simp only at hroot hsz
        rw [hroot, hsz]
    constructor
    · simp [ADS_set.find, hroot, Node.height, ADS.find, findpos, ADS_set.endIt]
    · rw [hs]
      simp [ADS_set.erase, Node.height, remove_elem, findpos]

/-- C18 at `N = 1`: insert 3, 1, 2 and erase 2, 3, 1. -/
theorem C18_witness :
    (1 ≤ 1) ∧ ([2, 3, 1] : List Nat).Perm [3, 1, 2] ∧
    ∃ s0 s a, insertAll 1 ADS_set.empty [3, 1, 2] = some s0 ∧
      eraseAll 1 s0 [2, 3, 1] = some s ∧
      s.root = Node.ext a [] none ∧ s.size = 0 ∧ s.begin = some s.endIt ∧
      ∀ k : Nat, s.find k = some s.endIt ∧ s.erase 1 k = some (s, 0) :=
  ⟨by decide, by decide, C18_erase_all (by decide) [3, 1, 2] [2, 3, 1] (by decide)⟩

end Claims4

/-! ### `findpos` and the default split -/

section Claims5
variable {α : Type} [LinearOrder α]

omit [LinearOrder α] in
theorem mem_take_of_getElem? {l : List α} {i j : Nat} {v : α} (h : l[i]? = some v)
    (hij : i < j) : v ∈ l.take j := by
  apply List.getElem?_mem
  rw [List.getElem?_take_of_lt hij]
  exact h

omit [LinearOrder α] in
theorem mem_drop_of_getElem? {l : List α} {i j : Nat} {v : α} (h : l[i]? = some v)
    (hij : j ≤ i) : v ∈ l.drop j := by
  have e : (l.drop j)[i - j]? = some v := by
    rw [List.getElem?_drop]
    have : j + (i - j) = i := by omega
    rw [this]
    exact h
  exact List.getElem?_mem e

/-- C19: on a strictly ascending key array `vs`, `findpos vs k` is the index `i` exactly
when `vs[i]` is equivalent to `k` (neither `k < vs[i]` nor `vs[i] < k`); otherwise it is
the negative value `-(j + 1)` where the keys strictly greater than `k` are exactly those
at the indices from `j` on (`j` is the length if there is none), and `findpos_autoinvert`
returns that `j`.  `invert n = -(n + 1)` is an involution that turns non-negative values
into negative ones and back. -/
theorem C19_findpos (vs : List α) (k : α) (hs : vs.Pairwise (· < ·)) :
    (∀ i : Nat, findpos vs k = (i : Int) ↔ ∃ v, vs[i]? = some v ∧ ¬ k < v ∧ ¬ v < k) ∧
    ((∃ i : Nat, i < vs.length ∧ findpos vs k = (i : Int) ∧ findpos_autoinvert vs k = i) ∨
     (∃ j : Nat, j ≤ vs.length ∧ findpos vs k = -((j : Int) + 1) ∧
        (∀ (i : Nat) (v : α), vs[i]? = some v → (k < v ↔ j ≤ i)) ∧
        (∀ (i : Nat) (v : α), vs[i]? = some v → ¬ (¬ k < v ∧ ¬ v < k)) ∧
        findpos_autoinvert vs k = j)) ∧
    (∀ n : Int, invert n = -(n + 1) ∧ invert (invert n) = n ∧
      (0 ≤ n → invert n < 0) ∧ (n < 0 → 0 ≤ invert n)) := by
  refine ⟨?_, ?_, ?_⟩
  · intro i
    constructor
    · intro h
      have h0 : 0 ≤ findpos vs k := by rw [h]; exact Int.natCast_nonneg i
      have hf := findpos_found vs k hs h0
      rw [h] at hf
      simp only [Int.toNat_ofNat] at hf
      exact ⟨k, hf, lt_irrefl k, lt_irrefl k⟩
    · rintro ⟨v, hv, h1, h2⟩
      have e : v = k := le_antisymm (not_lt.mp h1) (not_lt.mp h2)
      subst e
      rcases findpos_spec vs v hs with ⟨j, hj, hjv⟩ | ⟨j, hj, _, h3, h4⟩
      · obtain ⟨a1, a2⟩ := sorted_split_at hs hjv
        rcases Nat.lt_trichotomy i j with h5 | h5 | h5
        · exact absurd (a1 v (mem_take_of_getElem? hv h5)) (lt_irrefl v)
        · rw [h5]; exact hj
        · exact absurd (a2 v (mem_drop_of_getElem? hv h5)) (lt_irrefl v)
      · exact absurd (List.getElem?_mem hv) (not_mem_of_split h3 h4)
  · rcases findpos_spec vs k hs with ⟨j, hj, hjv⟩ | ⟨j, hj, hlen, h3, h4⟩
    · left
      have hlt : j < vs.length := by
        by_contra hc
        rw [List.getElem?_eq_none (by omega)] at hjv
        cases hjv
      refine ⟨j, hlt, hj, ?_⟩
      simp only [findpos_autoinvert, hj]
      rw [if_neg (by omega)]
      simp
    · right
      refine ⟨j, hlen, by rw [hj]; rfl, ?_, ?_, findpos_autoinvert_eq vs k hs j hlen h3 h4⟩
      · intro i v hv
        constructor
        · intro hkv
          by_contra hc
          exact absurd (h3 v (mem_take_of_getElem? hv (by omega))) (not_lt.mpr (le_of_lt hkv))
        · intro hji
          exact h4 v (mem_drop_of_getElem? hv hji)
      · intro i v hv hc
        rcases Nat.lt_or_ge i j with h5 | h5
        · exact hc.2 (h3 v (mem_take_of_getElem? hv h5))
        · exact hc.1 (h4 v (mem_drop_of_getElem? hv h5))
  · intro n
    refine ⟨rfl, invert_invert n, ?_, ?_⟩
    · intro h; simp only [invert]; omega
    · intro h; simp only [invert]; omega

/-- C19 on the keys 10, 20, 30 with the probe 25. -/
theorem C19_witness :
    ([10, 20, 30] : List Nat).Pairwise (· < ·) ∧
    (∀ i : Nat, findpos [10, 20, 30] 25 = (i : Int) ↔
      ∃ v, ([10, 20, 30] : List Nat)[i]? = some v ∧ ¬ 25 < v ∧ ¬ v < 25) ∧
    ((∃ i : Nat, i < ([10, 20, 30] : List Nat).length ∧ findpos [10, 20, 30] 25 = (i : Int) ∧
        findpos_autoinvert [10, 20, 30] 25 = i) ∨
     (∃ j : Nat, j ≤ ([10, 20, 30] : List Nat).length ∧
        findpos [10, 20, 30] 25 = -((j : Int) + 1) ∧
        (∀ (i v : Nat), ([10, 20, 30] : List Nat)[i]? = some v → (25 < v ↔ j ≤ i)) ∧
        (∀ (i v : Nat), ([10, 20, 30] : List Nat)[i]? = some v → ¬ (¬ 25 < v ∧ ¬ v < 25)) ∧
        findpos_autoinvert [10, 20, 30] 25 = j)) ∧
    (∀ n : Int, invert n = -(n + 1) ∧ invert (invert n) = n ∧
      (0 ≤ n → invert n < 0) ∧ (n < 0 → 0 ≤ invert n)) :=
  ⟨by decide, C19_findpos [10, 20, 30] 25 (by decide)⟩

/-- C20: the default split of a node with `len ≥ 1` keys.  A leaf keeps its first
`⌈len / 2⌉` keys and links to the new right leaf, which holds the remaining `⌊len / 2⌋`
keys in the same order and inherits the old `next`; no separator is returned.  An
internal node (with `len + 1` children) returns its middle key `keys[(len - 1) / 2]`,
keeps the keys before it with their children, and the new right node holds the keys
after it with the remaining children; the halves hold `len - 1` keys and `len + 1`
children together.  Left keys, (separator,) right keys concatenated are the original
keys. -/
theorem C20_default_split (fresh a : Nat) (nx : Option Nat) (vs : List α)
    (cs : List (Node α)) (hlen : 1 ≤ vs.length) (hcs : cs.length = vs.length + 1) :
    (∃ sp, splitDefault fresh (Node.ext a vs nx) = some sp ∧
      sp.left = Node.ext a (vs.take ((vs.length + 1) / 2)) (some fresh) ∧
      sp.right = Node.ext fresh (vs.drop ((vs.length + 1) / 2)) nx ∧
      sp.sep = none ∧
      sp.left.size = (vs.length + 1) / 2 ∧ sp.right.size = vs.length / 2 ∧
      sp.left.values ++ sp.right.values = vs) ∧
    (∃ sp s, splitDefault fresh (Node.int vs cs) = some sp ∧
      vs[(vs.length - 1) / 2]? = some s ∧ sp.sep = some s ∧
      sp.left = Node.int (vs.take ((vs.length - 1) / 2)) (cs.take ((vs.length - 1) / 2 + 1)) ∧
      sp.right =
        Node.int (vs.drop ((vs.length - 1) / 2 + 1)) (cs.drop ((vs.length - 1) / 2 + 1)) ∧
      sp.left.size + sp.right.size = vs.length - 1 ∧
      sp.left.children.length = sp.left.size + 1 ∧
      sp.right.children.length = sp.right.size + 1 ∧
      sp.left.children.length + sp.right.children.length = vs.length + 1 ∧
      sp.left.values ++ s :: sp.right.values = vs ∧
      sp.left.children ++ sp.right.children = cs) := by
  constructor
  · refine ⟨_, splitDefault_ext fresh a vs nx hlen, rfl, rfl, rfl, ?_, ?_, ?_⟩
    · simp only [size_ext, List.length_take]; omega
    · simp only [size_ext, List.length_drop]; omega
    · simp only [Node.values, List.take_append_drop]
  · have hm : (vs.length - 1) / 2 < vs.length := by omega
    refine ⟨_, vs[(vs.length - 1) / 2], splitDefault_int fresh vs cs hlen,
      List.getElem?_eq_getElem hm, ?_, rfl, rfl, ?_, ?_, ?_, ?_, ?_, ?_⟩
    · simp only [List.get?_eq_getElem?]
      exact List.getElem?_eq_getElem hm
    · simp only [size_int, List.length_take, List.length_drop]; omega
    · simp only [size_int, Node.children, List.length_take]; omega
    · simp only [size_int, Node.children, List.length_drop]; omega
    · simp only [Node.children, List.length_take, List.length_drop]; omega
    · simp only [Node.values]
      rw [List.getElem_cons_drop, List.take_append_drop]
    · simp only [Node.children, List.take_append_drop]

/-- C20 on a leaf and an internal node with the keys 1, ..., 5. -/
theorem C20_witness :
    (1 ≤ ([1, 2, 3, 4, 5] : List Nat).length) ∧
    (([.ext 0 [] none, .ext 1 [] none, .ext 2 [] none, .ext 3 [] none, .ext 4 [] none,
        .ext 5 [] none] : List (Node Nat)).length = ([1, 2, 3, 4, 5] : List Nat).length + 1) ∧
    ((∃ sp, splitDefault 7 (Node.ext 6 [1, 2, 3, 4, 5] none) = some sp ∧
      sp.left = Node.ext 6 [1, 2, 3] (some 7) ∧ sp.right = Node.ext 7 [4, 5] none ∧
      sp.sep = none) ∧
     (∃ sp, splitDefault 7 (Node.int [1, 2, 3, 4, 5]
        [.ext 0 [] none, .ext 1 [] none, .ext 2 [] none, .ext 3 [] none, .ext 4 [] none,
          .ext 5 [] none]) = some sp ∧
      sp.sep = some 3 ∧
      sp.left = Node.int [1, 2] [.ext 0 [] none, .ext 1 [] none, .ext 2 [] none] ∧
      sp.right = Node.int [4, 5] [.ext 3 [] none, .ext 4 [] none, .ext 5 [] none])) := by
  have h := C20_default_split 7 6 none ([1, 2, 3, 4, 5] : List Nat)
    [.ext 0 [] none, .ext 1 [] none, .ext 2 [] none, .ext 3 [] none, .ext 4 [] none,
      .ext 5 [] none] (by decide) (by decide)
  obtain ⟨⟨sp, h1, h2, h3, h4, _⟩, ⟨sp2, s, g1, g2, g3, g4, g5, _⟩⟩ := h
  refine ⟨by decide, by decide, ⟨sp, h1, ?_, ?_, h4⟩, ⟨sp2, g1, ?_, ?_, ?_⟩⟩
  · rw [h2]; rfl
  · rw [h3]; rfl
  · rw [g3]
    have : s = 3 := by
      have : ([1, 2, 3, 4, 5] : List Nat)[(([1, 2, 3, 4, 5] : List Nat).length - 1) / 2]? =
          some 3 := by rfl
      rw [this] at g2
      exact (Option.some.inj g2).symm
    rw [this]
  · rw [g4]; rfl
  · rw [g5]; rfl

end Claims5

/-! ### Buffer capacities during `insert` and `erase` -/

section Capacity
variable {α : Type} [LinearOrder α]

/-- Every node of a well-formed tree whose top node holds at most `M + 1` keys fits its
buffers. -/
theorem WF_fits {N : Nat} : ∀ (h : Nat) {lo hi : Option α} {t : Node α},
    WF N h lo t hi → t.size ≤ 2 * N + 1 → ∀ m ∈ t.nodes, m.fits N := by
  intro h
  induction h with
  | zero =>
    intro lo hi t hw hsz m hm
    obtain ⟨a, vs, nx, rfl, _, _⟩ := WF_zero_inv hw
    simp only [Node.nodes, List.mem_singleton] at hm
    subst hm
    exact ⟨hsz, by simp [Node.children]⟩
  | succ h ih =>
    intro lo hi t hw hsz m hm
    obtain ⟨vs, cs, rfl, hseps⟩ := WF_succ_inv hw
    simp only [Node.nodes, List.mem_cons] at hm
    rcases hm with rfl | hm
    · refine ⟨hsz, ?_⟩
      simp only [Node.children, Seps_length hseps]
      simp only [size_int] at hsz
      omega
    · obtain ⟨c, hc, hmc⟩ := mem_nodesList.mp hm
      obtain ⟨l, u, hwc, _, hcs⟩ := Seps_forall hseps c hc
      exact ih hwc (by omega) m hmc

theorem insert_at_some {N : Nat} {vs vs1 : List α} {e : α} {i : Nat}
    (h : insert_at N vs e i = some vs1) :
    i ≤ vs.length ∧ vs1.length = vs.length + 1 ∧ vs1.length ≤ 2 * N + 1 := by
  obtain ⟨h1, h2, _, _⟩ := mem_insert_at h
  refine ⟨?_, h1, by omega⟩
  unfold insert_at at h
  split at h
  · rename_i hg; exact hg.1
  · cases h

theorem prepare_merge_fits {N : Nat} {n n1 : Node α} {x : α}
    (h : prepare_merge N n x = some n1) (hf : n.fits N) : n1.fits N := by
  cases n with
  | ext a vs nx =>
    simp only [prepare_merge] at h
    cases h
    exact hf
  | int vs cs =>
    simp only [prepare_merge] at h
    split at h
    · rename_i hg
      cases h
      refine ⟨?_, hf.2⟩
      simp only [size_int, List.length_append, List.length_singleton]
      omega
    · cases h

theorem merge_fits {N : Nat} {n m r : Node α} (h : merge N n m = some r) :
    r.size = n.size + m.size ∧ r.fits N := by
  unfold merge at h
  split at h
  · rename_i hg
    split at h
    · cases h
      simp only [size_ext] at hg
      exact ⟨by simp, by simpa [Node.fits, Node.children] using hg⟩
    · cases h
      simp only [size_ext, size_int] at hg
      exact ⟨by simp, by simpa [Node.fits, Node.children] using hg⟩
    · split at h
      · cases h
        simp only [size_int] at hg
        refine ⟨by simp, ?_, ?_⟩
        · simpa using hg
        · simp only [Node.children, List.length_append, List.length_take]
          omega
      · cases h
    · cases h
  · cases h

theorem split_fits {N : Nat} {fresh i : Nat} {n : Node α} {sp : SplitRes α}
    (h : split fresh n i = some sp) (hf : n.fits N) :
    i < n.size ∧ sp.left.fits N ∧ sp.right.fits N := by
  unfold split at h
  split at h
  · rename_i hg
    refine ⟨hg, ?_⟩
    obtain ⟨h1, h2⟩ := hf
    cases n with
    | ext a vs nx =>
      cases h
      simp only [size_ext] at h1
      simp only [Node.fits, size_ext, Node.children, List.length_take, List.length_drop,
        List.length_nil]
      omega
    | int vs cs =>
      cases h
      simp only [size_int] at h1
      simp only [Node.children] at h2
      simp only [Node.fits, size_int, Node.children, List.length_take, List.length_drop]
      omega
  · cases h

theorem pull_merge_fits {N : Nat} {l r m : Node α} {id : α}
    (h : pull_merge N l r id = some m) : m.fits N := by
  unfold pull_merge at h
  split at h
  · cases h
  · exact (merge_fits h).2

theorem redistribute_fits {N : Nat} {fresh i f1 : Nat} {l r l1 r1 : Node α} {id idx : α}
    (h : redistribute N fresh l r id i = some (l1, r1, idx, f1)) (hl : l.fits N)
    (hr : r.fits N) : l1.fits N ∧ r1.fits N := by
  unfold redistribute at h
  split at h
  · split at h
    · cases h
    · rename_i sp hsp
      split at h
      · cases h
      · rename_i r2 hr2
        split at h
        · cases h
        · cases h
          exact ⟨(split_fits hsp hl).2.1, pull_merge_fits hr2⟩
  · split at h
    · cases h
    · rename_i sp hsp
      split at h
      · cases h
      · rename_i l2 hl2
        split at h
        · cases h
        · cases h
          exact ⟨pull_merge_fits hl2, (split_fits hsp hr).2.2⟩

/-- On every node of the descent path of `k`, `add_elem` and `remove_elem` return and the
node they leave behind, over-full or under-full as it may be, fits its buffers with all
the nodes below it. -/
theorem path_results {N : Nat} (hN : 1 ≤ N) (fresh : Nat) {k : α} {t n : Node α}
    (hp : OnPath k t n) : ∀ {h : Nat} {lo hi : Option α}, WF N h lo t hi → t.size ≤ 2 * N →
    rootOK t → below lo k → above k hi →
    (∃ r, add_elem N n.height n fresh k = some r ∧ ∀ m ∈ r.node.nodes, m.fits N) ∧
    (∃ r, remove_elem N n.height n fresh k = some r ∧ ∀ m ∈ r.node.nodes, m.fits N) := by
  induction hp with
  | here t =>
    intro h lo hi hw hsz hroot hlo hhi
    rw [WF_height h hw]
    obtain ⟨r, hr, hpost⟩ := add_elem_spec hN h fresh hw hsz hlo hhi
    obtain ⟨r2, hr2, hpost2⟩ := remove_elem_spec hN h fresh hw hsz hroot hlo hhi
    refine ⟨⟨r, hr, WF_fits h hpost.2.1 ?_⟩, ⟨r2, hr2, WF_fits h hpost2.2.1 ?_⟩⟩
    · by_cases hst : r.state = InsertState.TRIGGER_SPLIT
      · have := hpost.2.2.2.2.2.2 hst; omega
      · have := hpost.2.2.2.2.2.1 hst; omega
    · have := hpost2.2.2.1; omega
  | down hc _ ih =>
    intro h lo hi hw hsz hroot hlo hhi
    cases h with
    | zero => simp [WF] at hw
    | succ h =>
      obtain ⟨m, c1, _, hc2, _, hwc, hlow, hcsz, _, _, hbm, hab, _⟩ := descend hw hlo hhi
      rw [List.get?_eq_getElem?, hc2] at hc
      cases hc
      exact ih hwc hcsz (rootOK_of_lowOK hlow) hbm hab

end Capacity

/-! ### The leaf chain from the leftmost leaf -/

section LeafChain
variable {α : Type}

/-- Following `next` along a chain of leaves of the tree that ends in the null pointer
visits exactly these leaves, in order. -/
theorem chainFrom_chain {t : Node α} (hn : (t.leaves.map Leaf.addr).Nodup) :
    ∀ (ls : List (Leaf α)) (e : Option Nat), (∀ l ∈ ls, l ∈ t.leaves) →
    Chain e ls none → ∀ fuel, ls.length < fuel → chainFrom t fuel e = some ls := by
  intro ls
  induction ls with
  | nil =>
    intro e _ hch fuel hf
    simp only [Chain_nil] at hch
    subst hch
    cases fuel with
    | zero => simp at hf
    | succ fuel => simp [chainFrom]
  | cons l ls ih =>
    intro e hmem hch fuel hf
    simp only [Chain_cons] at hch
    obtain ⟨he, hrest⟩ := hch
    subst he
    cases fuel with
    | zero => simp at hf
    | succ fuel =>
      have h1 := leafAt_of_mem hn (hmem l (List.mem_cons_self _ _))
      have h2 := ih l.next (fun x hx => hmem x (List.mem_cons_of_mem _ hx)) hrest fuel
        (by simp only [List.length_cons] at hf; omega)
      simp only [chainFrom, h1, h2]

variable [LinearOrder α]

theorem leftmost_spec {N : Nat} : ∀ (h : Nat) {lo hi : Option α} {t : Node α},
    WF N h lo t hi → ∃ l rest, t.leaves = l :: rest ∧ leftmost (h + 1) t = some l := by
  intro h
  induction h with
  | zero =>
    intro lo hi t hw
    obtain ⟨a, vs, nx, rfl, _⟩ := WF_zero_inv hw
    exact ⟨⟨a, vs, nx⟩, [], by simp, by simp [leftmost]⟩
  | succ h ih =>
    intro lo hi t hw
    obtain ⟨vs, cs, rfl, hseps⟩ := WF_succ_inv hw
    match cs, hseps with
    | [], hseps => exact absurd hseps Seps_nil_false
    | c :: cs, hseps =>
      obtain ⟨l1, u1, hP⟩ := Seps_forall hseps c (by simp)
      obtain ⟨l, rest, e, hb⟩ := ih hP.1
      refine ⟨l, rest ++ leavesList cs, by simp [e], ?_⟩
      simp only [leftmost, List.get?_eq_getElem?, List.getElem?_cons_zero]
      exact hb

open ADS_set in
/-- In a set that satisfies the invariant, the walk along `next` from the leftmost leaf
visits the leaves of the tree in left-to-right order and ends at the null pointer. -/
theorem Inv_chain {N : Nat} {s : ADS_set α} (hI : Inv N s) :
    ∃ l0, leftmost s.root.height s.root = some l0 ∧
      (∀ fuel, s.root.leaves.length < fuel →
        chainFrom s.root fuel (some l0.addr) = some s.root.leaves) ∧
      (s.root.leaves.map Leaf.addr).Nodup := by
  obtain ⟨h, hw, _, _, _, ⟨e, hch⟩, haddr⟩ := hI
  obtain ⟨l0, rest, hl, hleft⟩ := leftmost_spec h hw
  rw [WF_height h hw]
  refine ⟨l0, hleft, ?_, haddr.1⟩
  intro fuel hf
  have he : e = some l0.addr := by
    rw [hl] at hch
    simp only [Chain_cons] at hch
    exact hch.1
  rw [he] at hch
  exact chainFrom_chain haddr.1 s.root.leaves (some l0.addr) (fun l hl => hl) hch fuel hf

end LeafChain

/-! ### Further sample sets -/

section Samples2
open ADS_set

theorem sample20_insertAll :
    insertAll 2 (ADS_set.empty : ADS_set Nat)
      [1, 2, 3, 4, 5, 6, 7, 8, 9, 10, 11, 12, 13, 14, 15, 16, 17, 18, 19, 20] =
      some sample20 := by
  refine Eq.trans (insertAll_step (
      ⟨.ext 0 [1] none, 1, 1⟩ : ADS_set Nat) ?_) ?_
  · exact ⟨_, _, rfl⟩
  refine Eq.trans (insertAll_step (
      ⟨.ext 0 [1, 2] none, 2, 1⟩ : ADS_set Nat) ?_) ?_
  · exact ⟨_, _, rfl⟩
  refine Eq.trans (insertAll_step (
      ⟨.ext 0 [1, 2, 3] none, 3, 1⟩ : ADS_set Nat) ?_) ?_
  · exact ⟨_, _, rfl⟩
  refine Eq.trans (insertAll_step (
      ⟨.ext 0 [1, 2, 3, 4] none, 4, 1⟩ : ADS_set Nat) ?_) ?_
  · exact ⟨_, _, rfl⟩
  refine Eq.trans (insertAll_step (
      ⟨.int [4] [.ext 0 [1, 2, 3] (some 1), .ext 1 [4, 5] none], 5, 2⟩ : ADS_set Nat) ?_) ?_
  · exact ⟨_, _, rfl⟩
  refine Eq.trans (insertAll_step (
      ⟨.int [4] [.ext 0 [1, 2, 3] (some 1), .ext 1 [4, 5, 6] none], 6, 2⟩ : ADS_set Nat) ?_) ?_
  · exact ⟨_, _, rfl⟩
  refine Eq.trans (insertAll_step (
      ⟨.int [4] [.ext 0 [1, 2, 3] (some 1), .ext 1 [4, 5, 6, 7] none], 7, 2⟩ : ADS_set Nat) ?_) ?_
  · exact ⟨_, _, rfl⟩
  refine Eq.trans (insertAll_step (
      ⟨.int [4, 7] [.ext 0 [1, 2, 3] (some 1), .ext 1 [4, 5, 6] (some 2), .ext 2 [7, 8] none],
      8, 3⟩ : ADS_set Nat) ?_) ?_
  · exact ⟨_, _, rfl⟩
  refine Eq.trans (insertAll_step (
      ⟨.int [4, 7] [.ext 0 [1, 2, 3] (some 1), .ext 1 [4, 5, 6] (some 2), .ext 2 [7, 8, 9]
      none], 9, 3⟩ : ADS_set Nat) ?_) ?_
  · exact ⟨_, _, rfl⟩
  refine Eq.trans (insertAll_step (
      ⟨.int [4, 7] [.ext 0 [1, 2, 3] (some 1), .ext 1 [4, 5, 6] (some 2), .ext 2 [7, 8, 9, 10]
      none], 10, 3⟩ : ADS_set Nat) ?_) ?_
  · exact ⟨_, _, rfl⟩
  refine Eq.trans (insertAll_step (
      ⟨.int [4, 7, 10] [.ext 0 [1, 2, 3] (some 1), .ext 1 [4, 5, 6] (some 2), .ext 2 [7, 8, 9]
      (some 3), .ext 3 [10, 11] none], 11, 4⟩ : ADS_set Nat) ?_) ?_
  · exact ⟨_, _, rfl⟩
  refine Eq.trans (insertAll_step (
      ⟨.int [4, 7, 10] [.ext 0 [1, 2, 3] (some 1), .ext 1 [4, 5, 6] (some 2), .ext 2 [7, 8, 9]
      (some 3), .ext 3 [10, 11, 12] none], 12, 4⟩ : ADS_set Nat) ?_) ?_
  · exact ⟨_, _, rfl⟩
  refine Eq.trans (insertAll_step (
      ⟨.int [4, 7, 10] [.ext 0 [1, 2, 3] (some 1), .ext 1 [4, 5, 6] (some 2), .ext 2 [7, 8, 9]
      (some 3), .ext 3 [10, 11, 12, 13] none], 13, 4⟩ : ADS_set Nat) ?_) ?_
  · exact ⟨_, _, rfl⟩
  refine Eq.trans (insertAll_step (
      ⟨.int [4, 7, 10, 13] [.ext 0 [1, 2, 3] (some 1), .ext 1 [4, 5, 6] (some 2), .ext 2 [7, 8,
      9] (some 3), .ext 3 [10, 11, 12] (some 4), .ext 4 [13, 14] none], 14, 5⟩ : ADS_set Nat) ?_) ?_
  · exact ⟨_, _, rfl⟩
  refine Eq.trans (insertAll_step (
      ⟨.int [4, 7, 10, 13] [.ext 0 [1, 2, 3] (some 1), .ext 1 [4, 5, 6] (some 2), .ext 2 [7, 8,
      9] (some 3), .ext 3 [10, 11, 12] (some 4), .ext 4 [13, 14, 15] none], 15, 5⟩ : ADS_set Nat) ?_) ?_
  · exact ⟨_, _, rfl⟩
  refine Eq.trans (insertAll_step (
      ⟨.int [4, 7, 10, 13] [.ext 0 [1, 2, 3] (some 1), .ext 1 [4, 5, 6] (some 2), .ext 2 [7, 8,
      9] (some 3), .ext 3 [10, 11, 12] (some 4), .ext 4 [13, 14, 15, 16] none], 16, 5⟩ : ADS_set Nat) ?_) ?_
  · exact ⟨_, _, rfl⟩
  refine Eq.trans (insertAll_step (
      ⟨.int [10] [.int [4, 7] [.ext 0 [1, 2, 3] (some 1), .ext 1 [4, 5, 6] (some 2), .ext 2 [7,
      8, 9] (some 3)], .int [13, 16] [.ext 3 [10, 11, 12] (some 4), .ext 4 [13, 14, 15] (some
      5), .ext 5 [16, 17] none]], 17, 6⟩ : ADS_set Nat) ?_) ?_
  · exact ⟨_, _, rfl⟩
  refine Eq.trans (insertAll_step (
      ⟨.int [10] [.int [4, 7] [.ext 0 [1, 2, 3] (some 1), .ext 1 [4, 5, 6] (some 2), .ext 2 [7,
      8, 9] (some 3)], .int [13, 16] [.ext 3 [10, 11, 12] (some 4), .ext 4 [13, 14, 15] (some
      5), .ext 5 [16, 17, 18] none]], 18, 6⟩ : ADS_set Nat) ?_) ?_
  · exact ⟨_, _, rfl⟩
  refine Eq.trans (insertAll_step (
      ⟨.int [10] [.int [4, 7] [.ext 0 [1, 2, 3] (some 1), .ext 1 [4, 5, 6] (some 2), .ext 2 [7,
      8, 9] (some 3)], .int [13, 16] [.ext 3 [10, 11, 12] (some 4), .ext 4 [13, 14, 15] (some
      5), .ext 5 [16, 17, 18, 19] none]], 19, 6⟩ : ADS_set Nat) ?_) ?_
  · exact ⟨_, _, rfl⟩
  refine Eq.trans (insertAll_step (
      ⟨.int [10] [.int [4, 7] [.ext 0 [1, 2, 3] (some 1), .ext 1 [4, 5, 6] (some 2), .ext 2 [7,
      8, 9] (some 3)], .int [13, 16, 19] [.ext 3 [10, 11, 12] (some 4), .ext 4 [13, 14, 15]
      (some 5), .ext 5 [16, 17, 18] (some 6), .ext 6 [19, 20] none]], 20, 7⟩ : ADS_set Nat) ?_) ?_
  · exact ⟨_, _, rfl⟩
  rfl

theorem sampleChain_reachable : Reachable 2 sampleChain := by
  have h7 : insertAll 2 (ADS_set.empty : ADS_set Nat) [1, 2, 3, 4, 5, 6, 7] =
      some ⟨.int [4] [.ext 0 [1, 2, 3] (some 1), .ext 1 [4, 5, 6, 7] none], 7, 2⟩ := by
    refine Eq.trans (insertAll_step (
        ⟨.ext 0 [1] none, 1, 1⟩ : ADS_set Nat) ?_) ?_
    · exact ⟨_, _, rfl⟩
    refine Eq.trans (insertAll_step (
        ⟨.ext 0 [1, 2] none, 2, 1⟩ : ADS_set Nat) ?_) ?_
    · exact ⟨_, _, rfl⟩
    refine Eq.trans (insertAll_step (
        ⟨.ext 0 [1, 2, 3] none, 3, 1⟩ : ADS_set Nat) ?_) ?_
    · exact ⟨_, _, rfl⟩
    refine Eq.trans (insertAll_step (
        ⟨.ext 0 [1, 2, 3, 4] none, 4, 1⟩ : ADS_set Nat) ?_) ?_
    · exact ⟨_, _, rfl⟩
    refine Eq.trans (insertAll_step (
        ⟨.int [4] [.ext 0 [1, 2, 3] (some 1), .ext 1 [4, 5] none], 5, 2⟩ : ADS_set Nat) ?_) ?_
    · exact ⟨_, _, rfl⟩
    refine Eq.trans (insertAll_step (
        ⟨.int [4] [.ext 0 [1, 2, 3] (some 1), .ext 1 [4, 5, 6] none], 6, 2⟩ : ADS_set Nat) ?_) ?_
    · exact ⟨_, _, rfl⟩
    refine Eq.trans (insertAll_step (
        ⟨.int [4] [.ext 0 [1, 2, 3] (some 1), .ext 1 [4, 5, 6, 7] none], 7, 2⟩ : ADS_set Nat) ?_) ?_
    · exact ⟨_, _, rfl⟩
    rfl
  have h9 : eraseAll 2 (⟨.int [4] [.ext 0 [1, 2, 3] (some 1), .ext 1 [4, 5, 6, 7] none], 7, 2⟩ : ADS_set Nat) [1, 2] =
      some ⟨.int [6] [.ext 0 [3, 4, 5] (some 2), .ext 2 [6, 7] none], 5, 3⟩ := by
    refine Eq.trans (eraseAll_step (
        ⟨.int [4] [.ext 0 [2, 3] (some 1), .ext 1 [4, 5, 6, 7] none], 6, 2⟩ : ADS_set Nat) ?_) ?_
    · exact ⟨_, rfl⟩
    refine Eq.trans (eraseAll_step (
        ⟨.int [6] [.ext 0 [3, 4, 5] (some 2), .ext 2 [6, 7] none], 5, 3⟩ : ADS_set Nat) ?_) ?_
    · exact ⟨_, rfl⟩
    rfl
  have h10 : insertAll 2 (⟨.int [6] [.ext 0 [3, 4, 5] (some 2), .ext 2 [6, 7] none], 5, 3⟩ : ADS_set Nat) [1] =
      some ⟨.int [6] [.ext 0 [1, 3, 4, 5] (some 2), .ext 2 [6, 7] none], 6, 3⟩ := by
    refine Eq.trans (insertAll_step (
        ⟨.int [6] [.ext 0 [1, 3, 4, 5] (some 2), .ext 2 [6, 7] none], 6, 3⟩ : ADS_set Nat) ?_) ?_
    · exact ⟨_, _, rfl⟩
    rfl
  have h11 : eraseAll 2 (⟨.int [6] [.ext 0 [1, 3, 4, 5] (some 2), .ext 2 [6, 7] none], 6, 3⟩ : ADS_set Nat) [7] = some sampleChain := by
    refine Eq.trans (eraseAll_step (
        ⟨.int [5] [.ext 0 [1, 3, 4] (some 3), .ext 3 [5, 6] none], 5, 4⟩ : ADS_set Nat) ?_) ?_
    · exact ⟨_, rfl⟩
    rfl
  exact reachable_eraseAll _ (reachable_insertAll _ (reachable_eraseAll _
    (reachable_insertAll _ Reachable.empty h7) h9) h10) h11

end Samples2

/-! ### The claims on redistribution, buffer capacities and the leaf chain -/

section Claims6
variable {α : Type} [LinearOrder α]
open ADS_set

/-- C21 (failing input): with `N = 2`, insert 1, ..., 20, erase 1, then erase 2.  In the
last call the routed child of the root signals `TRIGGER_MERGE` and is left with
`N - 1 = 1` key (`pairL`); its right sibling `pairR` is internal with `N + 1 = 3` keys,
so `totalsize = 5 > M` and the root redistributes with `split_at = 2`.  The
redistribution leaves `[7, 10, 13]` on the left and installs the node `[19]`, with one
key, fewer than `N`, in `children[childpos]`. -/
theorem C21_redistribute_underflow :
    insertAll 2 ADS_set.empty
      [1, 2, 3, 4, 5, 6, 7, 8, 9, 10, 11, 12, 13, 14, 15, 16, 17, 18, 19, 20] =
      some sample20 ∧
    erase 2 sample20 1 = some (sample21, 1) ∧
    sample21.root =
      .int [10] [.int [4, 7] [.ext 0 [2, 3] (some 1), .ext 1 [4, 5, 6] (some 2),
        .ext 2 [7, 8, 9] (some 3)], pairR] ∧
    (remove_elem 2 2 (.int [4, 7] [.ext 0 [2, 3] (some 1), .ext 1 [4, 5, 6] (some 2),
        .ext 2 [7, 8, 9] (some 3)]) 7 2).map (fun r => (r.node, r.state)) =
      some (pairL, EraseState.TRIGGER_MERGE) ∧
    pairL.size = 2 - 1 ∧ 2 ≤ pairR.size ∧ pairR.size ≤ 2 * 2 ∧
    pairL.type = NodeType.INTERNAL ∧ pairR.type = NodeType.INTERNAL ∧
    2 * 2 < pairL.size + pairR.size + 1 ∧
    redistribute 2 7 pairL pairR 10 ((pairL.size + pairR.size + 1 - 1) / 2) =
      some (.int [7, 10, 13] [.ext 0 [3, 4, 5, 6] (some 2), .ext 2 [7, 8, 9] (some 3),
              .ext 3 [10, 11, 12] (some 4), .ext 4 [13, 14, 15] (some 5)],
            .int [19] [.ext 5 [16, 17, 18] (some 6), .ext 6 [19, 20] none], 16, 7) ∧
    (Node.int [19] [.ext 5 [16, 17, 18] (some 6), .ext 6 [19, 20] none] : Node Nat).size < 2 ∧
    erase 2 sample21 2 =
      some (⟨.int [16] [.int [7, 10, 13] [.ext 0 [3, 4, 5, 6] (some 2),
        .ext 2 [7, 8, 9] (some 3), .ext 3 [10, 11, 12] (some 4),
        .ext 4 [13, 14, 15] (some 5)],
        .int [19] [.ext 5 [16, 17, 18] (some 6), .ext 6 [19, 20] none]], 18, 7⟩, 1) := by
  refine ⟨sample20_insertAll, by rfl, rfl, by rfl, by decide, by decide, by decide, rfl, rfl,
    by decide, by rfl, by decide, by rfl⟩

/-- C22: for every `N ≥ 1`, every set reachable by `insert` and `erase` calls and every
key `k`: the tree fits its buffers; on every node of the descent path of `k` the calls
`add_elem` and `remove_elem` return (no write past a buffer, no split index out of
range) and leave a node that fits its buffers, at most `M + 1` keys and `M + 2` links,
with all nodes below it; `insert(k)` and `erase(k)` return; and the steps in between
keep nodes within their buffers: `insert_at` writes inside the key buffer, and
`prepare_merge`, `merge`, `split` and the redistribution, when they return, give nodes
that fit. -/
theorem C22_within_capacity {N : Nat} (hN : 1 ≤ N) {s : ADS_set α} (hs : Reachable N s)
    (k : α) :
    (∀ m ∈ s.root.nodes, m.fits N) ∧
    (∀ n, OnPath k s.root n →
      (∃ r, add_elem N n.height n s.fresh k = some r ∧ ∀ m ∈ r.node.nodes, m.fits N) ∧
      (∃ r, remove_elem N n.height n s.fresh k = some r ∧ ∀ m ∈ r.node.nodes, m.fits N)) ∧
    (∃ s1 it b, insert N s k = some (s1, it, b) ∧ ∀ m ∈ s1.root.nodes, m.fits N) ∧
    (∃ s1 n, erase N s k = some (s1, n) ∧ ∀ m ∈ s1.root.nodes, m.fits N) ∧
    (∀ (vs vs1 : List α) (e : α) (i : Nat), insert_at N vs e i = some vs1 →
      i ≤ vs.length ∧ vs1.length = vs.length + 1 ∧ vs1.length ≤ 2 * N + 1) ∧
    (∀ (n n1 : Node α) (x : α), prepare_merge N n x = some n1 → n.fits N → n1.fits N) ∧
    (∀ (n m r : Node α), merge N n m = some r → r.size = n.size + m.size ∧ r.fits N) ∧
    (∀ (fresh i : Nat) (n : Node α) (sp : SplitRes α), split fresh n i = some sp →
      n.fits N → i < n.size ∧ sp.left.fits N ∧ sp.right.fits N) ∧
    (∀ (fresh i f1 : Nat) (l r l1 r1 : Node α) (id idx : α),
      redistribute N fresh l r id i = some (l1, r1, idx, f1) → l.fits N → r.fits N →
      l1.fits N ∧ r1.fits N) := by
  have hI := Reachable_inv hN hs
  have fitsInv : ∀ {t : ADS_set α}, Inv N t → ∀ m ∈ t.root.nodes, m.fits N := by
    intro t hIt
    obtain ⟨h, hw, hsz, _⟩ := hIt
    exact WF_fits h hw (by omega)
  refine ⟨fitsInv hI, ?_, ?_, ?_, ?_, ?_, ?_, ?_, ?_⟩
  · intro n hp
    obtain ⟨h, hw, hsz, hroot, _⟩ := hI
    exact path_results hN s.fresh hp hw hsz hroot (below_none k) (above_none k)
  · obtain ⟨s1, it, b, h1, hI1, _⟩ := insert_spec hN hI k
    exact ⟨s1, it, b, h1, fitsInv hI1⟩
  · obtain ⟨s1, n, h1, hI1, _⟩ := erase_spec hN hI k
    exact ⟨s1, n, h1, fitsInv hI1⟩
  · intro vs vs1 e i h
    exact insert_at_some h
  · intro n n1 x h hf
    exact prepare_merge_fits h hf
  · intro n m r h
    exact merge_fits h
  · intro fresh i n sp h hf
    exact split_fits h hf
  · intro fresh i f1 l r l1 r1 id idx h hl hr
    exact redistribute_fits h hl hr

/-- C22 at `N = 2` on the set built by inserting 1, ..., 20 and erasing 1, for the key 2
whose erase merges two leaves and redistributes two internal nodes. -/
theorem C22_witness :
    (1 ≤ 2) ∧ Reachable 2 sample21 ∧
    (∀ m ∈ sample21.root.nodes, m.fits 2) ∧
    (∀ n, OnPath 2 sample21.root n →
      (∃ r, add_elem 2 n.height n sample21.fresh 2 = some r ∧
        ∀ m ∈ r.node.nodes, m.fits 2) ∧
      (∃ r, remove_elem 2 n.height n sample21.fresh 2 = some r ∧
        ∀ m ∈ r.node.nodes, m.fits 2)) ∧
    (∃ s1 it b, insert 2 sample21 2 = some (s1, it, b) ∧ ∀ m ∈ s1.root.nodes, m.fits 2) ∧
    (∃ s1 n, erase 2 sample21 2 = some (s1, n) ∧ ∀ m ∈ s1.root.nodes, m.fits 2) ∧
    (∀ (vs vs1 : List Nat) (e : Nat) (i : Nat), insert_at 2 vs e i = some vs1 →
      i ≤ vs.length ∧ vs1.length = vs.length + 1 ∧ vs1.length ≤ 2 * 2 + 1) ∧
    (∀ (n n1 : Node Nat) (x : Nat), prepare_merge 2 n x = some n1 → n.fits 2 → n1.fits 2) ∧
    (∀ (n m r : Node Nat), merge 2 n m = some r → r.size = n.size + m.size ∧ r.fits 2) ∧
    (∀ (fresh i : Nat) (n : Node Nat) (sp : SplitRes Nat), split fresh n i = some sp →
      n.fits 2 → i < n.size ∧ sp.left.fits 2 ∧ sp.right.fits 2) ∧
    (∀ (fresh i f1 : Nat) (l r l1 r1 : Node Nat) (id idx : Nat),
      redistribute 2 fresh l r id i = some (l1, r1, idx, f1) → l.fits 2 → r.fits 2 →
      l1.fits 2 ∧ r1.fits 2) :=
  have hr : Reachable 2 sample21 :=
    Reachable.erase (reachable_insertAll _ Reachable.empty sample20_insertAll)
      (by rfl : erase 2 sample20 1 = some (sample21, 1))
  ⟨by decide, hr, C22_within_capacity (by decide) hr 2⟩

/-- C23: in every set reachable by `insert` and `erase` calls, descending through
`children[0]` reaches the leftmost leaf, and following `next` from it visits the leaves of
the tree in left-to-right order, each once (leaf addresses are pairwise distinct), and
ends at the null pointer; the iteration from `begin` to `end` therefore yields the keys
of the depth-first traversal of the leaves.  A leaf split hands the old `next` to the new
leaf and links the old leaf to it, a leaf merge advances `next` to the neighbour's `next`
when it pointed at the neighbour, and both keep a chain between the same entry and exit
pointers. -/
theorem C23_leaf_chain {N : Nat} (hN : 1 ≤ N) {s : ADS_set α} (hs : Reachable N s) :
    (∃ l0, leftmost s.root.height s.root = some l0 ∧
      (∀ fuel, s.root.leaves.length < fuel →
        chainFrom s.root fuel (some l0.addr) = some s.root.leaves) ∧
      (s.root.leaves.map Leaf.addr).Nodup ∧
      (∀ fuel, s.size < fuel → s.toList fuel = some (leafKeys s.root.leaves))) ∧
    (∀ (fresh a i : Nat) (vs : List α) (nx : Option Nat), i < vs.length →
      split fresh (Node.ext a vs nx) i =
        some ⟨.ext a (vs.take (i + 1)) (some fresh), .ext fresh (vs.drop (i + 1)) nx, none,
          fresh + 1⟩ ∧
      ∀ e x, Chain e [(⟨a, vs, nx⟩ : Leaf α)] x →
        Chain e [⟨a, vs.take (i + 1), some fresh⟩, ⟨fresh, vs.drop (i + 1), nx⟩] x) ∧
    (∀ (a b : Nat) (vs nvs : List α) (nx nnx : Option Nat),
      vs.length + nvs.length ≤ 2 * N + 1 →
      merge N (Node.ext a vs nx) (Node.ext b nvs nnx) =
        some (.ext a (vs ++ nvs) (if nx = some b then nnx else nx)) ∧
      ∀ e x, Chain e [(⟨a, vs, nx⟩ : Leaf α), ⟨b, nvs, nnx⟩] x →
        Chain e [⟨a, vs ++ nvs, if nx = some b then nnx else nx⟩] x) := by
  have hI := Reachable_inv hN hs
  refine ⟨?_, ?_, ?_⟩
  · obtain ⟨l0, h1, h2, h3⟩ := Inv_chain hI
    refine ⟨l0, h1, h2, h3, ?_⟩
    intro fuel hf
    exact toList_spec hN hI fuel hf
  · intro fresh a i vs nx hi
    refine ⟨by simp [split, hi], ?_⟩
    exact (LPres_split fresh a vs (vs.take (i + 1)) (vs.drop (i + 1)) nx).chain
  · intro a b vs nvs nx nnx hcap
    refine ⟨by simp [merge, hcap], ?_⟩
    exact (LPres_merge 0 a b vs nvs (vs ++ nvs) nx nnx).chain

/-- C23 at `N = 2` on a set reached through both redistribution paths of `erase`. -/
theorem C23_witness :
    (1 ≤ 2) ∧ Reachable 2 sampleChain ∧
    (∃ l0, leftmost sampleChain.root.height sampleChain.root = some l0 ∧
      (∀ fuel, sampleChain.root.leaves.length < fuel →
        chainFrom sampleChain.root fuel (some l0.addr) = some sampleChain.root.leaves) ∧
      (sampleChain.root.leaves.map Leaf.addr).Nodup ∧
      (∀ fuel, sampleChain.size < fuel →
        sampleChain.toList fuel = some (leafKeys sampleChain.root.leaves))) ∧
    (∀ (fresh a i : Nat) (vs : List Nat) (nx : Option Nat), i < vs.length →
      split fresh (Node.ext a vs nx) i =
        some ⟨.ext a (vs.take (i + 1)) (some fresh), .ext fresh (vs.drop (i + 1)) nx, none,
          fresh + 1⟩ ∧
      ∀ e x, Chain e [(⟨a, vs, nx⟩ : Leaf Nat)] x →
        Chain e [⟨a, vs.take (i + 1), some fresh⟩, ⟨fresh, vs.drop (i + 1), nx⟩] x) ∧
    (∀ (a b : Nat) (vs nvs : List Nat) (nx nnx : Option Nat),
      vs.length + nvs.length ≤ 2 * 2 + 1 →
      merge 2 (Node.ext a vs nx) (Node.ext b nvs nnx) =
        some (.ext a (vs ++ nvs) (if nx = some b then nnx else nx)) ∧
      ∀ e x, Chain e [(⟨a, vs, nx⟩ : Leaf Nat), ⟨b, nvs, nnx⟩] x →
        Chain e [⟨a, vs ++ nvs, if nx = some b then nnx else nx⟩] x) :=
  ⟨by decide, sampleChain_reachable, C23_leaf_chain (by decide) sampleChain_reachable⟩

end Claims6

end ADS
